import Mathlib

/-!
# The CSV reader of `csv.c` (`csvgetline`, `split`, `advquoted`, `csvfield`, `csvnfield`)

A shallow embedding of the record reader and field splitter.

* A byte is a `Nat`; `'\0'`, `'"'`, `'\r'` and `'\n'` are the constants `NUL`, `QUOTE`, `CR`, `LF`.
* A heap block is a `List Nat` whose length is its allocated size.  Every access is bounds
  checked: a read or write outside the block makes the model return `none`.
* A `char *` is a `Ptr`: `NULL`, or an offset inside `line`, or an offset inside `sline`.
* The input stream `FILE *fin` is the list of the bytes not yet read; `getc` pops one,
  `ungetc` pushes one back.
* `malloc` and `realloc` consult a `Heap`: a schedule of outcomes for the coming requests and
  the byte value that fresh memory holds.
* The C loops are recursive functions on a fuel counter which the callers set from the
  size of the block or stream they traverse; running out of fuel returns `none`.
* `int` counters are natural numbers.  The one product that can leave the `int` range on a
  record that `line` can hold is `maxline *= 2` in `csvgetline`: it is computed modulo `2^32`
  (`intDouble`), and when it wraps the `realloc` of that size fails.
* `strcspn(p, &delim)` is given the address of the single `char delim`, which is not a string:
  the reject string it reads is `delim` followed by the bytes that lie after it in memory, up
  to the first `NUL`.  Those bytes are a parameter of the model (`stack`), one list for each
  iteration of the loop of `split` (an iteration calls `strcspn` at most once, in `split` or
  in `advquoted`).
-/

namespace Csv

/-! ## Bytes, blocks and pointers -/

/-- The string terminator. -/
def NUL : Nat := 0

/-- The quote character. -/
def QUOTE : Nat := 34

/-- Carriage return. -/
def CR : Nat := 13

/-- Line feed. -/
def LF : Nat := 10

/-- Value returned by `split` when the field table cannot grow (`enum { NOMEM = -2 }`). -/
def NOMEM : Int := -2

/-- The bytes of a text. -/
def bytes (s : String) : List Nat := s.toList.map Char.toNat

/-- Checked read of one cell of a block. -/
def load (buf : List Nat) (i : Nat) : Option Nat := buf[i]?

/-- Checked write of one cell of a block. -/
def store (buf : List Nat) (i : Nat) (v : Nat) : Option (List Nat) :=
  if i < buf.length then some (buf.set i v) else none

/-- A `char *` value of the library. -/
inductive Ptr where
  | null : Ptr
  | line (off : Nat) : Ptr
  | sline (off : Nat) : Ptr
  deriving DecidableEq, Repr

/-- The allocator: outcomes of the coming requests (`true` succeeds; once the schedule is used
up every request succeeds) and the value found in memory that was never written. -/
structure Heap where
  outcomes : List Bool
  fill : Nat
  deriving DecidableEq, Repr

/-- Take the outcome of the next allocation request. -/
def Heap.request (h : Heap) : Bool × Heap :=
  match h.outcomes with
  | [] => (true, h)
  | b :: bs => (b, { h with outcomes := bs })

/-- The call `malloc(n)`. -/
def malloc (h : Heap) (n : Nat) : Option (List Nat) × Heap :=
  if h.request.1 then (some (List.replicate n h.fill), h.request.2) else (none, h.request.2)

/-- The call `realloc(buf, n)`: the old contents are kept, the new cells are unwritten. -/
def realloc (h : Heap) (buf : List Nat) (n : Nat) : Option (List Nat) × Heap :=
  if h.request.1 then
    (some ((buf ++ List.replicate (n - buf.length) h.fill).take n), h.request.2)
  else (none, h.request.2)

/-! ## C library string functions -/

/-- The C string that starts at the head of `mem`: the bytes before the first `NUL`;
`none` when the block ends before a `NUL` is met. -/
def cstr : List Nat → Option (List Nat)
  | [] => none
  | c :: cs => if c = NUL then some [] else (cstr cs).map (c :: ·)

/-- The call `strcspn(s, reject)` on the memory `mem` that starts at `s`: the number of bytes
before the first `NUL` or the first byte that occurs in the string `reject`. -/
def strcspn (reject : List Nat) : List Nat → Option Nat
  | [] => none
  | c :: cs => if c = NUL ∨ c ∈ reject then some 0 else (strcspn reject cs).map (· + 1)

/-- The string found at `&delim`, the second argument of the calls `strcspn(p, &delim)`: the
byte `delim` and the bytes `stack` that follow it in memory, up to the first `NUL`. -/
def rejectAt (delim : Nat) (stack : List Nat) : List Nat :=
  (delim :: stack).takeWhile (· != NUL)

/-- The call `memmove(buf + dst, buf + src, k)`. -/
def memmove (buf : List Nat) (dst src k : Nat) : Option (List Nat) :=
  if src + k ≤ buf.length ∧ dst + k ≤ buf.length then
    some (buf.take dst ++ (buf.drop src).take k ++ buf.drop (dst + k))
  else none

/-- The call `strcpy(dst, src)`: the string at `src` and its `NUL` overwrite the start of `dst`. -/
def strcpy (dst src : List Nat) : Option (List Nat) :=
  match cstr src with
  | none => none
  | some t =>
    if t.length + 1 ≤ dst.length then some (t ++ NUL :: dst.drop (t.length + 1)) else none

/-! ## The session state (the file-scope variables of `csv.c`) -/

/-- The static variables: `line`, `sline`, `maxline`, `field`, `maxfield`, `nfield`.
A pointer variable is `none` when it is `NULL`; an entry of `field` is an offset in `sline`. -/
structure Session where
  line : Option (List Nat)
  sline : Option (List Nat)
  maxline : Nat
  field : Option (List Nat)
  maxfield : Nat
  nfield : Nat
  deriving DecidableEq, Repr

/-- The state before the first call: all pointers `NULL`, all counters `0`. -/
def Session.init : Session := ⟨none, none, 0, none, 0, 0⟩

/-- The function `reset`: free the three blocks and restore the starting values. -/
def reset (_s : Session) : Session := ⟨none, none, 0, none, 0, 0⟩

/-! ## `advquoted` -/

/-- The `for` loop of `advquoted(p, delim)` on the block `buf`, from indices `i`, `j`;
`reject` is the string its call `strcspn(p+j, &delim)` reads at `&delim`.
Returns the block and the final `i`, `j`. -/
def advquotedLoop (reject : List Nat) (p : Nat) :
    Nat → List Nat → Nat → Nat → Option (List Nat × Nat × Nat)
  | 0, _, _, _ => none
  | fuel + 1, buf, i, j =>
    match load buf (p + j) with
    | none => none
    | some c =>
      if c = NUL then some (buf, i, j)
      else if c = QUOTE then
        match load buf (p + (j + 1)) with
        | none => none
        | some d =>
          if d ≠ QUOTE then
            match strcspn reject (buf.drop (p + (j + 1))) with
            | none => none
            | some k =>
              match memmove buf (p + i) (p + (j + 1)) k with
              | none => none
              | some buf1 => some (buf1, i + k, j + 1 + k)
          else
            match store buf (p + i) d with
            | none => none
            | some buf1 => advquotedLoop reject p fuel buf1 (i + 1) (j + 1 + 1)
      else
        match store buf (p + i) c with
        | none => none
        | some buf1 => advquotedLoop reject p fuel buf1 (i + 1) (j + 1)

/-- The function `advquoted(p, delim)`, with the bytes `stack` that follow its `delim` in
memory: returns the block and the offset `p + j` of the separator. -/
def advquoted (buf : List Nat) (p delim : Nat) (stack : List Nat) : Option (List Nat × Nat) :=
  match advquotedLoop (rejectAt delim stack) p buf.length buf 0 0 with
  | none => none
  | some (buf1, i, j) =>
    match store buf1 (p + i) NUL with
    | none => none
    | some buf2 => some (buf2, p + j)

/-! ## `split` -/

/-- The loop `while (*p != '\0' && *p == delim) p++` on the memory that starts at `p`:
the number of bytes skipped. -/
def skipDelims (delim : Nat) : List Nat → Option Nat
  | [] => none
  | c :: cs => if c ≠ NUL ∧ c = delim then (skipDelims delim cs).map (· + 1) else some 0

/-- What the `do ... while` loop of `split` leaves: the returned `int`, the allocator, and the
variables `sline`, `field`, `maxfield`, `nfield`. -/
structure SplitOut where
  ret : Int
  heap : Heap
  sline : List Nat
  field : List Nat
  maxfield : Nat
  nfield : Nat
  deriving DecidableEq, Repr

/-- The table growth at the head of the loop body of `split`
(`if (nfield >= maxfield) { maxfield *= 2; newf = realloc(field, ...); ... }`): the new table
(`none` when `realloc` returned `NULL`), the allocator and the new `maxfield`. -/
def growTable (h : Heap) (field : List Nat) (maxfield nfield : Nat) :
    Option (List Nat) × Heap × Nat :=
  if nfield ≥ maxfield then
    ((realloc h field (maxfield * 2)).1, (realloc h field (maxfield * 2)).2, maxfield * 2)
  else (some field, h, maxfield)

/-- The scan of one field in the loop body of `split`: the optional skip of delimiters, then
`advquoted(++p, delim)` or `p + strcspn(p, &delim)`, with the bytes `stack` that follow `delim`
in memory at the call of `strcspn`.  Returns the block, the field start `p` and the separator
position `sepp`. -/
def scanField (delim : Nat) (compress : Bool) (stack : List Nat) (sline : List Nat) (p : Nat) :
    Option (List Nat × Nat × Nat) :=
  match (if compress then skipDelims delim (sline.drop p) else some 0) with
  | none => none
  | some n =>
    match load sline (p + n) with
    | none => none
    | some c =>
      if c = QUOTE then
        (advquoted sline (p + n + 1) delim stack).map (fun r => (r.1, p + n + 1, r.2))
      else
        (strcspn (rejectAt delim stack) (sline.drop (p + n))).map
          (fun k => (sline, p + n, p + n + k))

/-- The `do ... while (sepc == delim)` loop of `split`, entered with the pointer `p`;
`stack n` holds the bytes that follow `delim` in memory in the iteration that records field
`n`. -/
def splitLoop (delim : Nat) (compress : Bool) (stack : Nat → List Nat) :
    Nat → Heap → List Nat → List Nat → Nat → Nat → Nat → Option SplitOut
  | 0, _, _, _, _, _, _ => none
  | fuel + 1, h, sline, field, maxfield, nfield, p =>
    match growTable h field maxfield nfield with
    | (none, h1, maxfield1) => some ⟨NOMEM, h1, sline, field, maxfield1, nfield⟩
    | (some field1, h1, maxfield1) =>
      match scanField delim compress (stack nfield) sline p with
      | none => none
      | some (sline1, p2, sepp) =>
        match load sline1 sepp with
        | none => none
        | some sepc =>
          match store sline1 sepp NUL with
          | none => none
          | some sline2 =>
            match store field1 nfield p2 with
            | none => none
            | some field2 =>
              if sepc = delim then
                splitLoop delim compress stack fuel h1 sline2 field2 maxfield1 (nfield + 1)
                  (sepp + 1)
              else some ⟨(nfield + 1 : Nat), h1, sline2, field2, maxfield1, nfield + 1⟩

/-- The function `split(delim, compress)`, with the bytes `stack n` that follow `delim` in
memory in iteration `n` of its loop: returns the `int` result, the allocator and the
session. -/
def split (h : Heap) (s : Session) (delim : Nat) (compress : Bool) (stack : Nat → List Nat) :
    Option (Int × Heap × Session) :=
  match s.line, s.sline, s.field with
  | some line, some sline, some field =>
    match load line 0 with
    | none => none
    | some c =>
      if c = NUL then some (0, h, { s with nfield := 0 })
      else
        match strcpy sline line with
        | none => none
        | some sline1 =>
          match splitLoop delim compress stack (sline1.length + 1) h sline1 field s.maxfield 0 0
          with
          | none => none
          | some r =>
            some (r.ret, r.heap,
              { s with sline := some r.sline, field := some r.field,
                       maxfield := r.maxfield, nfield := r.nfield })
  | _, _, _ => none

/-! ## `csvfield`, `csvnfield` -/

/-- The function `csvnfield()`. -/
def csvnfield (s : Session) : Int := s.nfield

/-- The function `csvfield(n)`: `NULL`, or the pointer stored in `field[n]`. -/
def csvfield (s : Session) (n : Int) : Option Ptr :=
  if n < 0 ∨ n ≥ s.nfield then some Ptr.null
  else
    match s.field with
    | none => none
    | some field => (load field n.toNat).map Ptr.sline

/-- The C string a pointer designates in the session (`none` for `NULL` or a bad pointer). -/
def Session.text (s : Session) : Ptr → Option (List Nat)
  | Ptr.null => none
  | Ptr.line off => s.line.bind (fun b => if off < b.length then cstr (b.drop off) else none)
  | Ptr.sline off => s.sline.bind (fun b => if off < b.length then cstr (b.drop off) else none)

/-- Entry `k` of a field table `field` over the block `sline`: the offset it stores and the
string read there. -/
def fieldAt (sline field : List Nat) (k : Nat) : Option (Nat × List Nat) :=
  (load field k).bind (fun off =>
    if off < sline.length then (cstr (sline.drop off)).map (fun f => (off, f)) else none)

/-- The first `n` entries of a field table `field` over the block `sline`. -/
def fieldEntries (sline field : List Nat) (n : Nat) : Option (List (Nat × List Nat)) :=
  (List.range n).mapM (fieldAt sline field)

/-- The string of field `n`: what the caller reads through `csvfield(n)`. -/
def Session.fieldText (s : Session) (n : Nat) : Option (List Nat) :=
  (csvfield s n).bind s.text

/-- The strings of the fields `0 .. csvnfield() - 1`, in order (`none` if one cannot be read). -/
def Session.fields (s : Session) : Option (List (List Nat)) :=
  (List.range s.nfield).mapM s.fieldText

/-! ## `endofline`, `csvgetline` -/

/-- The call `getc(fin)`: `none` is `EOF`. -/
def getc : List Nat → Option Nat × List Nat
  | [] => (none, [])
  | c :: rest => (some c, rest)

/-- The call `ungetc(c, fin)`. -/
def ungetc (c : Nat) (fin : List Nat) : List Nat := c :: fin

/-- The function `endofline(fin, c)`: the result and the stream it leaves. -/
def endofline (fin : List Nat) (c : Option Nat) : Bool × List Nat :=
  let eol : Bool := (c == some CR || c == some LF)
  if c = some CR then
    match getc fin with
    | (none, fin1) => (eol, fin1)
    | (some d, fin1) => if d ≠ LF then (eol, ungetc d fin1) else (eol, fin1)
  else (eol, fin)

/-- How the reading loop of `csvgetline` ends. -/
inductive ReadOut where
  /-- A `realloc` failed: the allocator and the stream at that point. -/
  | nomem (heap : Heap) (fin : List Nat) : ReadOut
  /-- The loop condition failed with last character `c` (`none` is `EOF`) and index `i`. -/
  | done (heap : Heap) (fin : List Nat) (line sline : List Nat) (maxline : Nat)
      (c : Option Nat) (i : Nat) : ReadOut
  deriving DecidableEq, Repr

/-- The value of the `int` expression `m * 2` for an `int` `m`: the product modulo `2^32`, in
the range from `-2^31` to `2^31 - 1`. -/
def intDouble (m : Nat) : Int := ((m : Int) * 2 + 2 ^ 31) % 2 ^ 32 - 2 ^ 31

/-- The loop `for (i=0; (c=getc(fin))!=EOF && !endofline(fin,c); i++)` of `csvgetline`.
When `maxline *= 2` does not give the product (for an `int` `maxline` this is at `2^30`, where
it gives `-2^31`), `realloc` is asked for that value converted to a size, more than `2^63`
bytes, and returns `NULL` whatever the allocator has left. -/
def readLoop : Nat → Heap → List Nat → List Nat → List Nat → Nat → Nat → Option ReadOut
  | 0, _, _, _, _, _, _ => none
  | fuel + 1, h, fin, line, sline, maxline, i =>
    match getc fin with
    | (none, fin1) => some (ReadOut.done h fin1 line sline maxline none i)
    | (some c, fin1) =>
      match endofline fin1 (some c) with
      | (true, fin2) => some (ReadOut.done h fin2 line sline maxline (some c) i)
      | (false, fin2) =>
        -- `if (i >= maxline-1)`
        if i + 1 ≥ maxline then
          if intDouble maxline = (maxline : Int) * 2 then
            match realloc h line (maxline * 2) with
            | (none, h1) => some (ReadOut.nomem h1 fin2)
            | (some newl, h1) =>
              match realloc h1 sline (maxline * 2) with
              | (none, h2) => some (ReadOut.nomem h2 fin2)
              | (some news, h2) =>
                match store newl i c with
                | none => none
                | some line1 => readLoop fuel h2 fin2 line1 news (maxline * 2) (i + 1)
          else some (ReadOut.nomem h fin2)
        else
          match store line i c with
          | none => none
          | some line1 => readLoop fuel h fin2 line1 sline maxline (i + 1)

/-- What a call of `csvgetline` leaves: the returned pointer, the session, the stream and the
allocator. -/
structure Outcome where
  ret : Ptr
  session : Session
  fin : List Nat
  heap : Heap
  deriving DecidableEq, Repr

/-- The first-call allocations of `csvgetline`: `none` in the first component when one of the
three `malloc` calls returned `NULL`. -/
def firstAlloc (h : Heap) (s : Session) : Option Session × Heap :=
  if s.line = none then
    let l := malloc h 1
    let sl := malloc l.2 1
    let f := malloc sl.2 1
    match l.1, sl.1, f.1 with
    | some _, some _, some _ => (some ⟨l.1, sl.1, 1, f.1, 1, s.nfield⟩, f.2)
    | _, _, _ => (none, f.2)
  else (some s, h)

/-- The function `csvgetline(fin, delim, compress)`, with the bytes `stack n` that follow
`delim` in memory in iteration `n` of the loop of `split`. -/
def csvgetline (h : Heap) (s : Session) (fin : List Nat) (delim : Nat) (compress : Bool)
    (stack : Nat → List Nat) : Option Outcome :=
  match firstAlloc h s with
  | (none, h1) => some ⟨Ptr.null, reset s, fin, h1⟩
  | (some s1, h1) =>
    match s1.line, s1.sline with
    | some line, some sline =>
      match readLoop (fin.length + 1) h1 fin line sline s1.maxline 0 with
      | none => none
      | some (ReadOut.nomem h2 fin2) => some ⟨Ptr.null, reset s1, fin2, h2⟩
      | some (ReadOut.done h2 fin2 line2 sline2 maxline2 c i) =>
        match store line2 i NUL with
        | none => none
        | some line3 =>
          let s2 : Session :=
            { s1 with line := some line3, sline := some sline2, maxline := maxline2 }
          match split h2 s2 delim compress stack with
          | none => none
          | some (r, h3, s3) =>
            if r = NOMEM then some ⟨Ptr.null, reset s3, fin2, h3⟩
            else some ⟨if c = none ∧ i = 0 then Ptr.null else Ptr.line 0, s3, fin2, h3⟩
    | _, _ => none

/-- The record text the caller reads through the pointer `csvgetline` returned. -/
def Outcome.text (o : Outcome) : Option (List Nat) := o.session.text o.ret

/-- An allocator that never refuses. -/
def Heap.Unlimited (h : Heap) : Prop := h.outcomes = []

instance (h : Heap) : Decidable h.Unlimited := by
  unfold Heap.Unlimited; infer_instance

/-- The session invariant between calls: nothing is allocated, or the three blocks are
allocated with the sizes the counters record and `nfield` fits the table. -/
def Session.Valid (s : Session) : Prop :=
  match s.line, s.sline, s.field with
  | none, none, none => s.maxline = 0 ∧ s.maxfield = 0 ∧ s.nfield = 0
  | some line, some sline, some field =>
    line.length = s.maxline ∧ sline.length = s.maxline ∧ field.length = s.maxfield ∧
      1 ≤ s.maxline ∧ 1 ≤ s.maxfield ∧ s.nfield ≤ s.maxfield
  | _, _, _ => False

instance (s : Session) : Decidable s.Valid := by
  unfold Session.Valid; split <;> infer_instance

/-- The session holds the record `t`: it is valid and `line` contains the string `t`. -/
def Session.Holds (s : Session) (t : List Nat) : Prop :=
  s.Valid ∧ s.line.bind cstr = some t

instance (s : Session) (t : List Nat) : Decidable (s.Holds t) := by
  unfold Session.Holds; infer_instance

/-! ## Reference functions on texts

List-level descriptions of what one pass of the loops computes on a `NUL`-free text; the
theorems below relate the loops to them. -/

/-- What `advquoted` makes of the text after an opening quote: the field contents and the
unread text from the separator on. -/
def quotedField (delim : Nat) : List Nat → List Nat × List Nat
  | [] => ([], [])
  | c :: cs =>
    if c = QUOTE then
      match cs with
      | [] => ([], [])
      | d :: ds =>
        if d = QUOTE then (QUOTE :: (quotedField delim ds).1, (quotedField delim ds).2)
        else ((d :: ds).takeWhile (· != delim), (d :: ds).dropWhile (· != delim))
    else (c :: (quotedField delim cs).1, (quotedField delim cs).2)

/-- The text left after the optional skip of leading delimiters. -/
def skipped (delim : Nat) (compress : Bool) (t : List Nat) : List Nat :=
  if compress then t.dropWhile (· == delim) else t

/-- One iteration of the loop of `split` on the text `t`: the field and the unread text from
the separator on. -/
def nextField (delim : Nat) (compress : Bool) (t : List Nat) : List Nat × List Nat :=
  match skipped delim compress t with
  | [] => ([], [])
  | c :: cs =>
    if c = QUOTE then quotedField delim cs
    else ((c :: cs).takeWhile (· != delim), (c :: cs).dropWhile (· != delim))

/-- The fields the loop of `split` produces from the text `t` in at most `fuel` iterations. -/
def fieldsFrom (delim : Nat) (compress : Bool) : Nat → List Nat → List (List Nat)
  | 0, _ => []
  | fuel + 1, t =>
    match (nextField delim compress t).2 with
    | [] => [(nextField delim compress t).1]
    | _ :: rest => (nextField delim compress t).1 :: fieldsFrom delim compress fuel rest

/-- The fields of a non-empty record text. -/
def fieldsOf (delim : Nat) (compress : Bool) (t : List Nat) : List (List Nat) :=
  fieldsFrom delim compress (t.length + 1) t

/-- Where the field scanned from the text `t` starts, counted from the start of `t`: after the
skipped delimiters and after the opening quote if there is one. -/
def fieldStart (delim : Nat) (compress : Bool) (t : List Nat) : Nat :=
  (t.length - (skipped delim compress t).length) +
    (if (skipped delim compress t).head? = some QUOTE then 1 else 0)

/-- The start offsets and strings of the fields the loop of `split` produces from the text `t`
that lies at offset `base`, in at most `fuel` iterations. -/
def entriesFrom (delim : Nat) (compress : Bool) : Nat → Nat → List Nat → List (Nat × List Nat)
  | 0, _, _ => []
  | fuel + 1, base, t =>
    match (nextField delim compress t).2 with
    | [] => [(base + fieldStart delim compress t, (nextField delim compress t).1)]
    | _ :: rest =>
      (base + fieldStart delim compress t, (nextField delim compress t).1) ::
        entriesFrom delim compress fuel (base + (t.length - rest.length)) rest

/-- The start offsets and strings of the fields of a non-empty record text. -/
def entriesOf (delim : Nat) (compress : Bool) (t : List Nat) : List (Nat × List Nat) :=
  entriesFrom delim compress (t.length + 1) 0 t

/-- What `advquoted` makes of the text after an opening quote when its call of `strcspn`
reads the reject string `reject`: the field contents and the unread text from the separator
on. -/
def quotedFieldWith (reject : List Nat) : List Nat → List Nat × List Nat
  | [] => ([], [])
  | c :: cs =>
    if c = QUOTE then
      match cs with
      | [] => ([], [])
      | d :: ds =>
        if d = QUOTE then
          (QUOTE :: (quotedFieldWith reject ds).1, (quotedFieldWith reject ds).2)
        else ((d :: ds).takeWhile (· ∉ reject), (d :: ds).dropWhile (· ∉ reject))
    else (c :: (quotedFieldWith reject cs).1, (quotedFieldWith reject cs).2)

/-- One iteration of the loop of `split` on the text `t` when `strcspn` reads the reject
string `reject`: the field and the unread text from the separator on. -/
def nextFieldWith (delim : Nat) (compress : Bool) (reject : List Nat) (t : List Nat) :
    List Nat × List Nat :=
  match skipped delim compress t with
  | [] => ([], [])
  | c :: cs =>
    if c = QUOTE then quotedFieldWith reject cs
    else ((c :: cs).takeWhile (· ∉ reject), (c :: cs).dropWhile (· ∉ reject))

/-- The fields the loop of `split` produces from the text `t` in at most `fuel` iterations,
the first of them being iteration `n`: the loop goes on only when the separator is `delim`. -/
def fieldsFromWith (delim : Nat) (compress : Bool) (stack : Nat → List Nat) :
    Nat → Nat → List Nat → List (List Nat)
  | 0, _, _ => []
  | fuel + 1, n, t =>
    match (nextFieldWith delim compress (rejectAt delim (stack n)) t).2 with
    | [] => [(nextFieldWith delim compress (rejectAt delim (stack n)) t).1]
    | x :: rest =>
      if x = delim then
        (nextFieldWith delim compress (rejectAt delim (stack n)) t).1 ::
          fieldsFromWith delim compress stack fuel (n + 1) rest
      else [(nextFieldWith delim compress (rejectAt delim (stack n)) t).1]

/-- The fields `split` produces from a non-empty record text. -/
def fieldsWith (delim : Nat) (compress : Bool) (stack : Nat → List Nat) (t : List Nat) :
    List (List Nat) :=
  fieldsFromWith delim compress stack (t.length + 1) 0 t

/-- The start offsets and strings of the fields the loop of `split` produces from the text `t`
that lies at offset `base`, in at most `fuel` iterations, the first being iteration `n`. -/
def entriesFromWith (delim : Nat) (compress : Bool) (stack : Nat → List Nat) :
    Nat → Nat → Nat → List Nat → List (Nat × List Nat)
  | 0, _, _, _ => []
  | fuel + 1, n, base, t =>
    match (nextFieldWith delim compress (rejectAt delim (stack n)) t).2 with
    | [] => [(base + fieldStart delim compress t,
        (nextFieldWith delim compress (rejectAt delim (stack n)) t).1)]
    | x :: rest =>
      if x = delim then
        (base + fieldStart delim compress t,
            (nextFieldWith delim compress (rejectAt delim (stack n)) t).1) ::
          entriesFromWith delim compress stack fuel (n + 1) (base + (t.length - rest.length)) rest
      else [(base + fieldStart delim compress t,
        (nextFieldWith delim compress (rejectAt delim (stack n)) t).1)]

/-- The start offsets and strings of the fields `split` produces from a non-empty record
text. -/
def entriesWith (delim : Nat) (compress : Bool) (stack : Nat → List Nat) (t : List Nat) :
    List (Nat × List Nat) :=
  entriesFromWith delim compress stack (t.length + 1) 0 0 t

/-- No byte that follows `delim` in memory, in any iteration, occurs in the text `t`: the
reject strings then stop the scans of `t` at `delim` only. -/
def Clean (delim : Nat) (stack : Nat → List Nat) (t : List Nat) : Prop :=
  ∀ n, ∀ b ∈ rejectAt delim (stack n), b = delim ∨ b ∉ t

/-- The offsets and strings of the fields `0 .. nfield - 1` of the session, read through the
field table (`none` if a block is missing or an entry cannot be read). -/
def Session.entries (s : Session) : Option (List (Nat × List Nat)) :=
  match s.sline, s.field with
  | some sline, some field => fieldEntries sline field s.nfield
  | _, _ => none

/-- The quoted encoding of a string: every quote character is doubled. -/
def escape (s : List Nat) : List Nat :=
  s.flatMap (fun c => if c = QUOTE then [QUOTE, QUOTE] else [c])

/-- The quoted form of a field: the escaped string between two quote characters. -/
def quote (s : List Nat) : List Nat := QUOTE :: (escape s ++ [QUOTE])

/-- The stream left once the line terminator at the head of `tail` is consumed: nothing is
consumed at end of stream. -/
def afterTerminator (tail : List Nat) : List Nat :=
  match tail with
  | [] => []
  | c :: rest => (endofline rest (some c)).2

/-- A session whose blocks have just the room for the record `t`, with `line` holding `t`. -/
def Session.holding (t : List Nat) : Session :=
  ⟨some (t ++ [NUL]), some (List.replicate (t.length + 1) NUL), t.length + 1, some [NUL], 1, 0⟩

/-- Whether a byte is not a line terminator character. -/
def notEol (c : Nat) : Bool := c != CR && c != LF

/-- A query the caller may issue between two reads. -/
inductive Query where
  | nfield : Query
  | field (n : Int) : Query
  deriving DecidableEq, Repr

/-- The answer to a query: the `int` of `csvnfield()` or the `char *` of `csvfield(n)` (`none`
when the model cannot read the table). -/
inductive Answer where
  | count (n : Int) : Answer
  | pointer (p : Option Ptr) : Answer
  deriving DecidableEq, Repr

/-- The call `csvnfield()` with the session it leaves: the function assigns no variable. -/
def csvnfieldCall (s : Session) : Int × Session := (csvnfield s, s)

/-- The call `csvfield(n)` with the session it leaves: the function assigns no variable. -/
def csvfieldCall (s : Session) (n : Int) : Option Ptr × Session := (csvfield s n, s)

/-- One query: its answer and the session it leaves. -/
def ask (s : Session) : Query → Answer × Session
  | Query.nfield => (Answer.count (csvnfieldCall s).1, (csvnfieldCall s).2)
  | Query.field n => (Answer.pointer (csvfieldCall s n).1, (csvfieldCall s n).2)

/-- A sequence of queries issued one after the other: the answers and the final session. -/
def askAll (s : Session) : List Query → List Answer × Session
  | [] => ([], s)
  | q :: qs => ((ask s q).1 :: (askAll (ask s q).2 qs).1, (askAll (ask s q).2 qs).2)

/-- The session left by `split` on the record `a,b` with delimiter `,`: two fields at the
offsets `0` and `2` of the working copy. -/
def Session.sample : Session :=
  ⟨some [97, 44, 98, 0], some [97, 0, 98, 0], 4, some [0, 2], 2, 2⟩

/-- The bytes the reading loop takes for the next record of a stream: those before the first
`'\r'` or `'\n'`. -/
def recordOf (fin : List Nat) : List Nat := fin.takeWhile notEol

/-- Successive calls of `csvgetline` on one session and one stream, `n` of them: for each call
the stream it was given and what it left.  Each call starts from the session, the stream and
the allocator the previous one left; `stackAt k` holds the bytes that follow `delim` in memory
during the call number `k`. -/
def calls (delim : Nat) (compress : Bool) :
    Nat → (Nat → Nat → List Nat) → Heap → Session → List Nat →
      Option (List (List Nat × Outcome))
  | 0, _, _, _, _ => some []
  | n + 1, stackAt, h, s, fin =>
    match csvgetline h s fin delim compress (stackAt 0) with
    | none => none
    | some o =>
      (calls delim compress n (fun k => stackAt (k + 1)) o.heap o.session o.fin).map
        ((fin, o) :: ·)

/-- The length of the longest record read by a sequence of calls. -/
def longest (cs : List (List Nat × Outcome)) : Nat :=
  (cs.map (fun c => (recordOf c.1).length)).foldr max 0

/-- The allocator with the same fill value that never refuses. -/
def Heap.unlimited (h : Heap) : Heap := ⟨[], h.fill⟩

/-- Between the allocator `h` and the allocator `h'` left later, every request was granted. -/
def Heap.Granted (h h' : Heap) : Prop :=
  ∃ used, h.outcomes = used ++ h'.outcomes ∧ (∀ b ∈ used, b = true) ∧ h'.fill = h.fill

/-- Between the allocator `h` and the allocator `h'` left later, a request was refused. -/
def Heap.Refused (h h' : Heap) : Prop :=
  ∃ used, h.outcomes = used ++ h'.outcomes ∧ false ∈ used ∧ h'.fill = h.fill

/-- One access of `split` or `advquoted` to the working copy `sline` or to the field table:
a read of `sline[off]`, a write of `sline[off]`, the write `field[idx] = sline + start` made
with `maxfield = cap`, or a write of `advquoted` made with the write index `i` and the read
index `j`. -/
inductive Access where
  | read (off : Nat) : Access
  | write (off : Nat) : Access
  | table (idx cap start : Nat) : Access
  | adv (i j : Nat) : Access
  deriving DecidableEq, Repr

/-- The reads of the `k` cells from offset `off`. -/
def reads (off k : Nat) : List Access := (List.range k).map (fun x => Access.read (off + x))

/-- The writes of the `k` cells from offset `off`. -/
def writes (off k : Nat) : List Access := (List.range k).map (fun x => Access.write (off + x))

/-- An access that stays inside a working copy of `m` cells: the offset read, written or
recorded is below `m`, the table index is below the table size, and the write index of
`advquoted` does not exceed its read index. -/
def Access.Below (m : Nat) : Access → Prop
  | Access.read off => off < m
  | Access.write off => off < m
  | Access.table idx cap start => idx < cap ∧ start < m
  | Access.adv i j => i ≤ j

instance (m : Nat) (a : Access) : Decidable (a.Below m) := by
  cases a <;> unfold Access.Below <;> infer_instance

/-- An access that stays inside a record text of length `n` and its terminating `NUL`: the
offset read, written or recorded is at most `n`, the table index is below the table size, and
the write index of `advquoted` does not exceed its read index. -/
def Access.Within (n : Nat) : Access → Prop
  | Access.read off => off ≤ n
  | Access.write off => off ≤ n
  | Access.table idx cap start => idx < cap ∧ start ≤ n
  | Access.adv i j => i ≤ j

instance (n : Nat) (a : Access) : Decidable (a.Within n) := by
  cases a <;> unfold Access.Within <;> infer_instance

/-- The loop of `advquoted` (as `advquotedLoop`) with the accesses it makes, in order; a cell
that one iteration reads more than once is listed once. -/
def advquotedLoopLogged (reject : List Nat) (p : Nat) :
    Nat → List Nat → Nat → Nat → Option ((List Nat × Nat × Nat) × List Access)
  | 0, _, _, _ => none
  | fuel + 1, buf, i, j =>
    match load buf (p + j) with
    | none => none
    | some c =>
      if c = NUL then some ((buf, i, j), [Access.read (p + j)])
      else if c = QUOTE then
        match load buf (p + (j + 1)) with
        | none => none
        | some d =>
          if d ≠ QUOTE then
            match strcspn reject (buf.drop (p + (j + 1))) with
            | none => none
            | some k =>
              match memmove buf (p + i) (p + (j + 1)) k with
              | none => none
              | some buf1 =>
                some ((buf1, i + k, j + 1 + k),
                  [Access.read (p + j), Access.read (p + (j + 1))] ++
                    reads (p + (j + 1)) (k + 1) ++ [Access.adv i (j + 1)] ++
                    reads (p + (j + 1)) k ++ writes (p + i) k)
          else
            match store buf (p + i) d with
            | none => none
            | some buf1 =>
              (advquotedLoopLogged reject p fuel buf1 (i + 1) (j + 1 + 1)).map (fun r =>
                (r.1, [Access.read (p + j), Access.read (p + (j + 1)), Access.adv i (j + 1),
                  Access.write (p + i)] ++ r.2))
      else
        match store buf (p + i) c with
        | none => none
        | some buf1 =>
          (advquotedLoopLogged reject p fuel buf1 (i + 1) (j + 1)).map (fun r =>
            (r.1, [Access.read (p + j), Access.adv i j, Access.write (p + i)] ++ r.2))

/-- The function `advquoted` (as `advquoted`) with the accesses it makes. -/
def advquotedLogged (buf : List Nat) (p delim : Nat) (stack : List Nat) :
    Option ((List Nat × Nat) × List Access) :=
  match advquotedLoopLogged (rejectAt delim stack) p buf.length buf 0 0 with
  | none => none
  | some ((buf1, i, j), log) =>
    match store buf1 (p + i) NUL with
    | none => none
    | some buf2 => some ((buf2, p + j), log ++ [Access.adv i j, Access.write (p + i)])

/-- The scan of one field (as `scanField`) with the accesses it makes: the cells the skip of
delimiters reads, the read of `*p`, then the accesses of `advquoted` or the cells `strcspn`
reads. -/
def scanFieldLogged (delim : Nat) (compress : Bool) (stack : List Nat) (sline : List Nat)
    (p : Nat) :
    Option ((List Nat × Nat × Nat) × List Access) :=
  match (if compress then skipDelims delim (sline.drop p) else some 0) with
  | none => none
  | some n =>
    match load sline (p + n) with
    | none => none
    | some c =>
      if c = QUOTE then
        (advquotedLogged sline (p + n + 1) delim stack).map (fun r =>
          ((r.1.1, p + n + 1, r.1.2),
            (if compress then reads p (n + 1) else []) ++ [Access.read (p + n)] ++ r.2))
      else
        (strcspn (rejectAt delim stack) (sline.drop (p + n))).map (fun k =>
          ((sline, p + n, p + n + k),
            (if compress then reads p (n + 1) else []) ++ [Access.read (p + n)] ++
              reads (p + n) (k + 1)))

/-- The loop of `split` (as `splitLoop`) with the accesses it makes. -/
def splitLoopLogged (delim : Nat) (compress : Bool) (stack : Nat → List Nat) :
    Nat → Heap → List Nat → List Nat → Nat → Nat → Nat → Option (SplitOut × List Access)
  | 0, _, _, _, _, _, _ => none
  | fuel + 1, h, sline, field, maxfield, nfield, p =>
    match growTable h field maxfield nfield with
    | (none, h1, maxfield1) => some (⟨NOMEM, h1, sline, field, maxfield1, nfield⟩, [])
    | (some field1, h1, maxfield1) =>
      match scanFieldLogged delim compress (stack nfield) sline p with
      | none => none
      | some ((sline1, p2, sepp), log) =>
        match load sline1 sepp with
        | none => none
        | some sepc =>
          match store sline1 sepp NUL with
          | none => none
          | some sline2 =>
            match store field1 nfield p2 with
            | none => none
            | some field2 =>
              if sepc = delim then
                (splitLoopLogged delim compress stack fuel h1 sline2 field2 maxfield1
                  (nfield + 1) (sepp + 1)).map (fun r =>
                  (r.1, log ++ [Access.read sepp, Access.write sepp,
                    Access.table nfield maxfield1 p2] ++ r.2))
              else
                some (⟨(nfield + 1 : Nat), h1, sline2, field2, maxfield1, nfield + 1⟩,
                  log ++ [Access.read sepp, Access.write sepp,
                    Access.table nfield maxfield1 p2])

/-- The function `split` (as `split`) with the accesses it makes to the working copy and to
the field table; `strcpy` writes the record and its `NUL`. -/
def splitLogged (h : Heap) (s : Session) (delim : Nat) (compress : Bool)
    (stack : Nat → List Nat) : Option ((Int × Heap × Session) × List Access) :=
  match s.line, s.sline, s.field with
  | some line, some sline, some field =>
    match load line 0 with
    | none => none
    | some c =>
      if c = NUL then some ((0, h, { s with nfield := 0 }), [])
      else
        match strcpy sline line with
        | none => none
        | some sline1 =>
          match splitLoopLogged delim compress stack (sline1.length + 1) h sline1 field
            s.maxfield 0 0 with
          | none => none
          | some (r, log) =>
            some ((r.ret, r.heap,
              { s with sline := some r.sline, field := some r.field,
                       maxfield := r.maxfield, nfield := r.nfield }),
              writes 0 ((line.takeWhile (· != NUL)).length + 1) ++ log)
  | _, _, _ => none

/-- What the caller sees after a call of `csvgetline`: the pointer returned, the string read
through it, `csvnfield()`, and the strings of the fields. -/
def Outcome.seen (o : Outcome) : Ptr × Option (List Nat) × Int × Option (List (List Nat)) :=
  (o.ret, o.text, csvnfield o.session, o.session.fields)

/-! ## Blocks and library functions -/

theorem load_append (a b : List Nat) (x n : Nat) (h : n = a.length) :
    load (a ++ x :: b) n = some x := by
  subst h
  induction a with
  | nil => simp [load]
  | cons y ys ih => simpa [load] using ih

theorem store_append (a b : List Nat) (x v n : Nat) (h : n = a.length) :
    store (a ++ x :: b) n v = some (a ++ v :: b) := by
  subst h; simp [store]

theorem drop_append_eq (a b : List Nat) (n : Nat) (h : n = a.length) :
    (a ++ b).drop n = b := by
  subst h; simp

theorem cstr_append (t post : List Nat) (ht : NUL ∉ t) :
    cstr (t ++ NUL :: post) = some t := by
  induction t with
  | nil => simp [cstr]
  | cons c cs ih =>
    have hc : c ≠ NUL := fun h => ht (by simp [h])
    have hcs : NUL ∉ cs := fun h => ht (by simp [h])
    simp [cstr, hc, ih hcs]

theorem cstr_nul_free : ∀ (m t : List Nat), cstr m = some t → NUL ∉ t
  | [], t, h => by simp [cstr] at h
  | c :: cs, t, h => by
    simp only [cstr] at h
    split at h
    · cases h; simp
    · rename_i hc
      cases h2 : cstr cs with
      | none => simp [h2] at h
      | some u =>
        simp [h2] at h
        subst h
        have := cstr_nul_free cs u h2
        simp [this, Ne.symm hc]

theorem cstr_decompose : ∀ (m t : List Nat), cstr m = some t → ∃ post, m = t ++ NUL :: post
  | [], t, h => by simp [cstr] at h
  | c :: cs, t, h => by
    simp only [cstr] at h
    split at h
    · rename_i hc
      cases h; exact ⟨cs, by simp [hc]⟩
    · cases h2 : cstr cs with
      | none => simp [h2] at h
      | some u =>
        simp [h2] at h
        subst h
        obtain ⟨post, hp⟩ := cstr_decompose cs u h2
        exact ⟨post, by simp [hp]⟩

theorem strcspn_append (reject : List Nat) (t post : List Nat) (ht : NUL ∉ t) :
    strcspn reject (t ++ NUL :: post) = some (t.takeWhile (· ∉ reject)).length := by
  induction t with
  | nil => simp [strcspn]
  | cons c cs ih =>
    have hc : c ≠ NUL := fun h => ht (by simp [h])
    have hcs : NUL ∉ cs := fun h => ht (by simp [h])
    by_cases hd : c ∈ reject
    · simp [strcspn, hd, List.takeWhile_cons]
    · simp [strcspn, hc, hd, ih hcs, List.takeWhile_cons]

theorem skipDelims_append (delim : Nat) (t post : List Nat) (hd : delim ≠ NUL) :
    skipDelims delim (t ++ NUL :: post) = some (t.takeWhile (· == delim)).length := by
  induction t with
  | nil => simp [skipDelims, Ne.symm hd]
  | cons c cs ih =>
    by_cases hc : c = delim
    · simp [skipDelims, hc, hd, ih, List.takeWhile_cons]
    · simp [skipDelims, hc, List.takeWhile_cons]

/-! ## `advquoted` -/

theorem quotedField_quote_nil (delim : Nat) : quotedField delim [QUOTE] = ([], []) := by
  rw [quotedField.eq_def]; simp

theorem quotedField_quote_quote (delim : Nat) (ds : List Nat) :
    quotedField delim (QUOTE :: QUOTE :: ds) =
      (QUOTE :: (quotedField delim ds).1, (quotedField delim ds).2) := by
  rw [quotedField.eq_def]; simp

theorem quotedField_quote_other (delim d : Nat) (ds : List Nat) (hd : d ≠ QUOTE) :
    quotedField delim (QUOTE :: d :: ds) =
      ((d :: ds).takeWhile (· != delim), (d :: ds).dropWhile (· != delim)) := by
  rw [quotedField.eq_def]; simp [hd]

theorem quotedField_other (delim c : Nat) (cs : List Nat) (hc : c ≠ QUOTE) :
    quotedField delim (c :: cs) = (c :: (quotedField delim cs).1, (quotedField delim cs).2) := by
  rw [quotedField.eq_def]; simp [hc]

theorem dropWhile_ne_head (delim : Nat) (t : List Nat) :
    t.dropWhile (· != delim) = [] ∨
      ∃ rest, t.dropWhile (· != delim) = delim :: rest ∧ rest.length < t.length := by
  induction t with
  | nil => simp
  | cons c cs ih =>
    by_cases h : c = delim
    · right; exact ⟨cs, by simp [List.dropWhile_cons, h]⟩
    · rcases ih with ih | ⟨rest, h1, h2⟩
      · left; simp [List.dropWhile_cons, h, ih]
      · right; exact ⟨rest, by simp [List.dropWhile_cons, h, h1], by simp; omega⟩

theorem quotedField_rest (delim : Nat) (R : List Nat) :
    (quotedField delim R).2 = [] ∨
      ∃ rest, (quotedField delim R).2 = delim :: rest ∧ rest.length < R.length := by
  induction R using quotedField.induct delim with
  | case1 => simp [quotedField]
  | case2 => simp [quotedField_quote_nil]
  | case3 ds ih =>
    rw [quotedField_quote_quote]
    rcases ih with ih | ⟨rest, h1, h2⟩
    · left; simp [ih]
    · right; exact ⟨rest, by simp [h1], by simp; omega⟩
  | case4 d ds hd =>
    rw [quotedField_quote_other delim d ds hd]
    rcases dropWhile_ne_head delim (d :: ds) with h | ⟨rest, h1, h2⟩
    · left; exact h
    · right; exact ⟨rest, h1, by simp at h2 ⊢; omega⟩
  | case5 c cs hc ih =>
    rw [quotedField_other delim c cs hc]
    rcases ih with ih | ⟨rest, h1, h2⟩
    · left; simp [ih]
    · right; exact ⟨rest, by simp [h1], by simp; omega⟩

theorem quotedFieldWith_quote_nil (reject : List Nat) : quotedFieldWith reject [QUOTE] = ([], []) := by
  rw [quotedFieldWith.eq_def]; simp

theorem quotedFieldWith_quote_quote (reject : List Nat) (ds : List Nat) :
    quotedFieldWith reject (QUOTE :: QUOTE :: ds) =
      (QUOTE :: (quotedFieldWith reject ds).1, (quotedFieldWith reject ds).2) := by
  rw [quotedFieldWith.eq_def]; simp

theorem quotedFieldWith_quote_other (reject : List Nat) (d : Nat) (ds : List Nat) (hd : d ≠ QUOTE) :
    quotedFieldWith reject (QUOTE :: d :: ds) =
      ((d :: ds).takeWhile (· ∉ reject), (d :: ds).dropWhile (· ∉ reject)) := by
  rw [quotedFieldWith.eq_def]; simp [hd]

theorem quotedFieldWith_other (reject : List Nat) (c : Nat) (cs : List Nat) (hc : c ≠ QUOTE) :
    quotedFieldWith reject (c :: cs) = (c :: (quotedFieldWith reject cs).1, (quotedFieldWith reject cs).2) := by
  rw [quotedFieldWith.eq_def]; simp [hc]

theorem dropWhile_notMem_head (reject : List Nat) (t : List Nat) :
    t.dropWhile (· ∉ reject) = [] ∨
      ∃ x rest, t.dropWhile (· ∉ reject) = x :: rest ∧ x ∈ reject ∧ rest.length < t.length := by
  induction t with
  | nil => simp
  | cons c cs ih =>
    by_cases h : c ∈ reject
    · right
      exact ⟨c, cs, List.dropWhile_cons_of_neg (by simpa using h), h, by simp⟩
    · have e : (c :: cs).dropWhile (· ∉ reject) = cs.dropWhile (· ∉ reject) :=
        List.dropWhile_cons_of_pos (by simpa using h)
      rcases ih with ih | ⟨x, rest, h1, hx, h2⟩
      · left; rw [e, ih]
      · right; exact ⟨x, rest, by rw [e, h1], hx, by simp; omega⟩

theorem quotedFieldWith_rest (reject : List Nat) (R : List Nat) :
    (quotedFieldWith reject R).2 = [] ∨
      ∃ x rest, (quotedFieldWith reject R).2 = x :: rest ∧ x ∈ reject ∧
        rest.length < R.length := by
  induction R using quotedFieldWith.induct reject with
  | case1 => simp [quotedFieldWith]
  | case2 => simp [quotedFieldWith_quote_nil]
  | case3 ds ih =>
    rw [quotedFieldWith_quote_quote]
    rcases ih with ih | ⟨x, rest, h1, hx, h2⟩
    · left; simp [ih]
    · right; exact ⟨x, rest, by simp [h1], hx, by simp; omega⟩
  | case4 d ds hd =>
    rw [quotedFieldWith_quote_other reject d ds hd]
    rcases dropWhile_notMem_head reject (d :: ds) with h | ⟨x, rest, h1, hx, h2⟩
    · left; exact h
    · right; exact ⟨x, rest, h1, hx, by simp at h2 ⊢; omega⟩
  | case5 c cs hc ih =>
    rw [quotedFieldWith_other reject c cs hc]
    rcases ih with ih | ⟨x, rest, h1, hx, h2⟩
    · left; simp [ih]
    · right; exact ⟨x, rest, by simp [h1], hx, by simp; omega⟩

/-- Writing `c` at the first cell after `X`, when the cells from there on are `G ++ c :: Y`. -/
theorem store_gap (X G Y : List Nat) (c n : Nat) (hn : n = X.length) :
    ∃ G2, G2.length = G.length ∧
      store (X ++ (G ++ c :: Y)) n c = some ((X ++ [c]) ++ (G2 ++ Y)) := by
  cases G with
  | nil => exact ⟨[], rfl, by simpa using store_append X Y c c n hn⟩
  | cons g gs =>
    exact ⟨gs ++ [c], by simp, by simpa using store_append X (gs ++ c :: Y) g c n hn⟩

/-- The block move of `advquoted`: the span `T` that follows the gap `M` is copied over it. -/
theorem memmove_gap (X M T Z : List Nat) (dst src : Nat) (hd : dst = X.length)
    (hs : src = X.length + M.length) :
    memmove (X ++ (M ++ (T ++ Z))) dst src T.length =
      some (X ++ (T ++ ((M ++ T).drop T.length ++ Z))) := by
  subst hd hs
  have h1 : (X ++ (M ++ (T ++ Z))).take X.length = X := by simp
  have h2 : (X ++ (M ++ (T ++ Z))).drop (X.length + M.length) = T ++ Z := by
    rw [← List.append_assoc]; exact drop_append_eq _ _ _ (by simp)
  have h3 : (X ++ (M ++ (T ++ Z))).drop (X.length + T.length) = (M ++ T).drop T.length ++ Z := by
    rw [← List.drop_drop, List.drop_left, ← List.append_assoc, List.drop_append_of_le_length]
    simp
  simp only [memmove, h1, h2, h3]
  rw [if_pos]
  · simp
  · simp; omega

theorem advquotedLoop_nul (reject : List Nat) (p fuel : Nat) (buf : List Nat) (i j : Nat)
    (h : load buf (p + j) = some NUL) :
    advquotedLoop reject p (fuel + 1) buf i j = some (buf, i, j) := by
  rw [advquotedLoop, h]; simp

theorem advquotedLoop_plain (reject : List Nat) (p fuel : Nat) (buf buf1 : List Nat) (i j c : Nat)
    (h : load buf (p + j) = some c) (hc : c ≠ NUL) (hq : c ≠ QUOTE)
    (hs : store buf (p + i) c = some buf1) :
    advquotedLoop reject p (fuel + 1) buf i j = advquotedLoop reject p fuel buf1 (i + 1) (j + 1) := by
  rw [advquotedLoop, h]; simp [hc, hq, hs]

theorem advquotedLoop_escaped (reject : List Nat) (p fuel : Nat) (buf buf1 : List Nat) (i j : Nat)
    (h : load buf (p + j) = some QUOTE) (h2 : load buf (p + (j + 1)) = some QUOTE)
    (hs : store buf (p + i) QUOTE = some buf1) :
    advquotedLoop reject p (fuel + 1) buf i j =
      advquotedLoop reject p fuel buf1 (i + 1) (j + 1 + 1) := by
  have hqn : QUOTE ≠ NUL := by decide
  rw [advquotedLoop, h]; simp [h2, hs, hqn]

theorem advquotedLoop_close (reject : List Nat) (p fuel : Nat) (buf buf1 : List Nat) (i j d k : Nat)
    (h : load buf (p + j) = some QUOTE) (h2 : load buf (p + (j + 1)) = some d) (hd : d ≠ QUOTE)
    (hk : strcspn reject (buf.drop (p + (j + 1))) = some k)
    (hm : memmove buf (p + i) (p + (j + 1)) k = some buf1) :
    advquotedLoop reject p (fuel + 1) buf i j = some (buf1, i + k, j + 1 + k) := by
  have hqn : QUOTE ≠ NUL := by decide
  rw [advquotedLoop, h]; simp [h2, hd, hk, hm, hqn]

/-- The loop of `advquoted` on a block that holds the `NUL`-free text `R` at `p + j`. -/
theorem advquotedLoop_spec (reject : List Nat) (p : Nat) (post : List Nat) : ∀ (R : List Nat) (fuel : Nat)
    (X G : List Nat) (i j : Nat),
    NUL ∉ R → R.length < fuel → X.length = p + i → X.length + G.length = p + j →
    ∃ G' j', advquotedLoop reject p fuel (X ++ (G ++ (R ++ NUL :: post))) i j =
        some (X ++ ((quotedFieldWith reject R).1 ++ (G' ++ ((quotedFieldWith reject R).2 ++ NUL :: post))),
          i + (quotedFieldWith reject R).1.length, j') ∧
      X.length + (quotedFieldWith reject R).1.length + G'.length = p + j' ∧
      ((quotedFieldWith reject R).2 ≠ [] → G' ≠ []) := by
  intro R
  induction R using quotedFieldWith.induct reject with
  | case1 =>
    intro fuel X G i j _ hf hX hG
    obtain ⟨fuel, rfl⟩ : ∃ f, fuel = f + 1 := ⟨fuel - 1, by simp at hf; omega⟩
    have hl : load (X ++ (G ++ ([] ++ NUL :: post))) (p + j) = some NUL := by
      rw [← List.append_assoc]; exact load_append _ _ _ _ (by simp; omega)
    refine ⟨G, j, ?_, by simpa [quotedFieldWith] using hG, by simp [quotedFieldWith]⟩
    rw [advquotedLoop_nul _ _ _ _ _ _ hl]; simp [quotedFieldWith]
  | case2 =>
    intro fuel X G i j _ hf hX hG
    obtain ⟨fuel, rfl⟩ : ∃ f, fuel = f + 1 := ⟨fuel - 1, by simp at hf; omega⟩
    have e : X ++ (G ++ ([QUOTE] ++ NUL :: post)) = X ++ ((G ++ [QUOTE]) ++ ([] ++ NUL :: post)) := by
      simp
    have hl : load (X ++ (G ++ ([QUOTE] ++ NUL :: post))) (p + j) = some QUOTE := by
      rw [← List.append_assoc]; exact load_append _ _ _ _ (by simp; omega)
    have hl2 : load (X ++ (G ++ ([QUOTE] ++ NUL :: post))) (p + (j + 1)) = some NUL := by
      rw [e, ← List.append_assoc]; exact load_append _ _ _ _ (by simp; omega)
    have hdrop : strcspn reject ((X ++ (G ++ ([QUOTE] ++ NUL :: post))).drop (p + (j + 1))) = some 0 := by
      rw [e, ← List.append_assoc, drop_append_eq _ _ _ (by simp; omega)]; simp [strcspn]
    have hmm : memmove (X ++ (G ++ ([QUOTE] ++ NUL :: post))) (p + i) (p + (j + 1)) 0 =
        some (X ++ (G ++ ([QUOTE] ++ NUL :: post))) := by
      have := memmove_gap X (G ++ [QUOTE]) [] (NUL :: post) (p + i) (p + (j + 1)) hX.symm
        (by simp; omega)
      simpa using this
    refine ⟨G ++ [QUOTE], j + 1, ?_, by simp [quotedFieldWith_quote_nil]; omega,
      by simp [quotedFieldWith_quote_nil]⟩
    rw [advquotedLoop_close _ _ _ _ _ _ _ _ _ hl hl2 (by simp [NUL, QUOTE]) hdrop hmm]
    simp [quotedFieldWith_quote_nil]
  | case3 ds ih =>
    intro fuel X G i j hR hf hX hG
    obtain ⟨fuel, rfl⟩ : ∃ f, fuel = f + 1 := ⟨fuel - 1, by simp at hf; omega⟩
    have hds : NUL ∉ ds := fun h => hR (by simp [h])
    have hl : load (X ++ (G ++ (QUOTE :: QUOTE :: ds ++ NUL :: post))) (p + j) = some QUOTE := by
      rw [← List.append_assoc]; exact load_append _ _ _ _ (by simp; omega)
    have hl2 : load (X ++ (G ++ (QUOTE :: QUOTE :: ds ++ NUL :: post))) (p + (j + 1)) = some QUOTE := by
      have e : X ++ (G ++ (QUOTE :: QUOTE :: ds ++ NUL :: post)) =
          (X ++ G ++ [QUOTE]) ++ QUOTE :: (ds ++ NUL :: post) := by simp
      rw [e]; exact load_append _ _ _ _ (by simp; omega)
    obtain ⟨G2, hG2, hs⟩ := store_gap X G (QUOTE :: ds ++ NUL :: post) QUOTE (p + i) hX.symm
    have hs' : store (X ++ (G ++ (QUOTE :: QUOTE :: ds ++ NUL :: post))) (p + i) QUOTE =
        some ((X ++ [QUOTE]) ++ ((G2 ++ [QUOTE]) ++ (ds ++ NUL :: post))) := by
      simpa using hs
    obtain ⟨G', j', h1, h2, h3⟩ := ih fuel (X ++ [QUOTE]) (G2 ++ [QUOTE]) (i + 1) (j + 1 + 1) hds
      (by simp at hf; omega) (by simp; omega) (by simp; omega)
    refine ⟨G', j', ?_, ?_, ?_⟩
    · rw [advquotedLoop_escaped _ _ _ _ _ _ _ hl hl2 hs', h1]
      simp [quotedFieldWith_quote_quote]; omega
    · simp [quotedFieldWith_quote_quote] at h2 ⊢; omega
    · simpa [quotedFieldWith_quote_quote] using h3
  | case4 d ds hd =>
    intro fuel X G i j hR hf hX hG
    obtain ⟨fuel, rfl⟩ : ∃ f, fuel = f + 1 := ⟨fuel - 1, by simp at hf; omega⟩
    have hds : NUL ∉ d :: ds := fun h => hR (by simp at h ⊢; tauto)
    have e : X ++ (G ++ (QUOTE :: d :: ds ++ NUL :: post)) =
        (X ++ G ++ [QUOTE]) ++ d :: (ds ++ NUL :: post) := by simp
    have hl : load (X ++ (G ++ (QUOTE :: d :: ds ++ NUL :: post))) (p + j) = some QUOTE := by
      rw [← List.append_assoc]; exact load_append _ _ _ _ (by simp; omega)
    have hl2 : load (X ++ (G ++ (QUOTE :: d :: ds ++ NUL :: post))) (p + (j + 1)) = some d := by
      rw [e]; exact load_append _ _ _ _ (by simp; omega)
    have hk : strcspn reject ((X ++ (G ++ (QUOTE :: d :: ds ++ NUL :: post))).drop (p + (j + 1))) =
        some ((d :: ds).takeWhile (· ∉ reject)).length := by
      rw [e, drop_append_eq _ _ _ (by simp; omega)]
      exact strcspn_append reject (d :: ds) post hds
    have hsplit : d :: ds = (d :: ds).takeWhile (· ∉ reject) ++ (d :: ds).dropWhile (· ∉ reject) :=
      (List.takeWhile_append_dropWhile _ _).symm
    have hmm := memmove_gap X (G ++ [QUOTE]) ((d :: ds).takeWhile (· ∉ reject))
      ((d :: ds).dropWhile (· ∉ reject) ++ NUL :: post) (p + i) (p + (j + 1)) hX.symm
      (by simp; omega)
    have e2 : X ++ (G ++ [QUOTE] ++ ((d :: ds).takeWhile (· ∉ reject) ++
        ((d :: ds).dropWhile (· ∉ reject) ++ NUL :: post))) =
        X ++ (G ++ (QUOTE :: d :: ds ++ NUL :: post)) := by
      rw [← List.append_assoc ((d :: ds).takeWhile _), ← hsplit]; simp
    rw [e2] at hmm
    refine ⟨((G ++ [QUOTE]) ++ (d :: ds).takeWhile (· ∉ reject)).drop
      ((d :: ds).takeWhile (· ∉ reject)).length, j + 1 + ((d :: ds).takeWhile (· ∉ reject)).length,
      ?_, ?_, ?_⟩
    · rw [advquotedLoop_close _ _ _ _ _ _ _ _ _ hl hl2 hd hk hmm, quotedFieldWith_quote_other _ _ _ hd]
    · rw [quotedFieldWith_quote_other _ _ _ hd]; simp; omega
    · intro _ h
      have := congrArg List.length h
      simp at this
      omega
  | case5 c cs hc ih =>
    intro fuel X G i j hR hf hX hG
    obtain ⟨fuel, rfl⟩ : ∃ f, fuel = f + 1 := ⟨fuel - 1, by simp at hf; omega⟩
    have hcs : NUL ∉ cs := fun h => hR (by simp [h])
    have hc0 : c ≠ NUL := fun h => hR (by simp [h])
    have hl : load (X ++ (G ++ (c :: cs ++ NUL :: post))) (p + j) = some c := by
      rw [← List.append_assoc]; exact load_append _ _ _ _ (by simp; omega)
    obtain ⟨G2, hG2, hs⟩ := store_gap X G (cs ++ NUL :: post) c (p + i) hX.symm
    have hs' : store (X ++ (G ++ (c :: cs ++ NUL :: post))) (p + i) c =
        some ((X ++ [c]) ++ (G2 ++ (cs ++ NUL :: post))) := by
      simpa using hs
    obtain ⟨G', j', h1, h2, h3⟩ := ih fuel (X ++ [c]) G2 (i + 1) (j + 1) hcs
      (by simp at hf; omega) (by simp; omega) (by simp; omega)
    refine ⟨G', j', ?_, ?_, ?_⟩
    · rw [advquotedLoop_plain _ _ _ _ _ _ _ _ hl hc0 hc hs', h1]
      simp [quotedFieldWith_other _ _ _ hc]; omega
    · simp [quotedFieldWith_other _ _ _ hc] at h2 ⊢; omega
    · simpa [quotedFieldWith_other _ _ _ hc] using h3

theorem quotedFieldWith_nul_free (reject : List Nat) (R : List Nat) (h : NUL ∉ R) :
    NUL ∉ (quotedFieldWith reject R).1 := by
  induction R using quotedFieldWith.induct reject with
  | case1 => simp [quotedFieldWith]
  | case2 => simp [quotedFieldWith_quote_nil]
  | case3 ds ih =>
    rw [quotedFieldWith_quote_quote]
    have : NUL ∉ ds := fun h' => h (by simp [h'])
    have hq : NUL ≠ QUOTE := by decide
    simp [ih this, hq]
  | case4 d ds hd =>
    rw [quotedFieldWith_quote_other reject d ds hd]
    intro h'
    have h'' : NUL ∈ (d :: ds).takeWhile (· ∉ reject) := h'
    exact h (List.mem_cons_of_mem _ ((List.takeWhile_sublist _).subset h''))
  | case5 c cs hc ih =>
    rw [quotedFieldWith_other reject c cs hc]
    have : NUL ∉ cs := fun h' => h (by simp [h'])
    have hc0 : NUL ≠ c := fun h' => h (by simp [h'])
    simp [ih this, hc0]

/-- `advquoted` on a block that holds the `NUL`-free text `R` right after the opening quote:
the field is compacted at `p`, terminated, and the separator position is returned. -/
theorem advquoted_spec (delim p : Nat) (stack : List Nat) (X R post : List Nat) (hR : NUL ∉ R)
    (hX : X.length = p) :
    ∃ W, advquoted (X ++ (R ++ NUL :: post)) p delim stack =
        some (X ++ ((quotedFieldWith (rejectAt delim stack) R).1 ++ (W ++ ((quotedFieldWith (rejectAt delim stack) R).2 ++ NUL :: post))),
          (X ++ ((quotedFieldWith (rejectAt delim stack) R).1 ++ W)).length) ∧
      ((W = [] ∧ (quotedFieldWith (rejectAt delim stack) R).2 = []) ∨ ∃ W', W = NUL :: W') := by
  obtain ⟨G', j', h1, h2, h3⟩ := advquotedLoop_spec (rejectAt delim stack) p post R
    (X ++ (R ++ NUL :: post)).length X [] 0 0 hR (by simp; omega) (by simpa using hX)
    (by simpa using hX)
  simp only [List.nil_append] at h1
  cases G' with
  | nil =>
    have hR' : (quotedFieldWith (rejectAt delim stack) R).2 = [] := by
      by_contra hne; exact h3 hne rfl
    refine ⟨[], ?_, Or.inl ⟨rfl, hR'⟩⟩
    have hs : store (X ++ ((quotedFieldWith (rejectAt delim stack) R).1 ++ ([] ++ ((quotedFieldWith (rejectAt delim stack) R).2 ++ NUL :: post))))
        (p + (0 + (quotedFieldWith (rejectAt delim stack) R).1.length)) NUL =
        some (X ++ ((quotedFieldWith (rejectAt delim stack) R).1 ++ ([] ++ ((quotedFieldWith (rejectAt delim stack) R).2 ++ NUL :: post)))) := by
      rw [hR']
      have := store_append (X ++ (quotedFieldWith (rejectAt delim stack) R).1) post NUL NUL
        (p + (0 + (quotedFieldWith (rejectAt delim stack) R).1.length)) (by simp; omega)
      simpa using this
    simp only [advquoted, h1, hs]
    simp at h2 ⊢
    omega
  | cons g G'' =>
    refine ⟨NUL :: G'', ?_, Or.inr ⟨G'', rfl⟩⟩
    have hs : store (X ++ ((quotedFieldWith (rejectAt delim stack) R).1 ++ (g :: G'' ++ ((quotedFieldWith (rejectAt delim stack) R).2 ++ NUL :: post))))
        (p + (0 + (quotedFieldWith (rejectAt delim stack) R).1.length)) NUL =
        some (X ++ ((quotedFieldWith (rejectAt delim stack) R).1 ++ (NUL :: G'' ++ ((quotedFieldWith (rejectAt delim stack) R).2 ++ NUL :: post)))) := by
      have := store_append (X ++ (quotedFieldWith (rejectAt delim stack) R).1) (G'' ++ ((quotedFieldWith (rejectAt delim stack) R).2 ++ NUL :: post))
        g NUL (p + (0 + (quotedFieldWith (rejectAt delim stack) R).1.length)) (by simp; omega)
      simpa using this
    simp only [advquoted, h1, hs]
    simp at h2 ⊢
    omega

theorem nextField_rest (delim : Nat) (compress : Bool) (t : List Nat) :
    (nextField delim compress t).2 = [] ∨
      ∃ rest, (nextField delim compress t).2 = delim :: rest ∧ rest.length < t.length := by
  have hs : (skipped delim compress t).length ≤ t.length := by
    unfold skipped
    split
    · exact (List.dropWhile_sublist _).length_le
    · exact le_rfl
  unfold nextField
  split
  · simp
  · rename_i c cs heq
    rw [heq] at hs
    split
    · rcases quotedField_rest delim cs with h | ⟨rest, h1, h2⟩
      · exact Or.inl h
      · exact Or.inr ⟨rest, h1, by simp at hs; omega⟩
    · rcases dropWhile_ne_head delim (c :: cs) with h | ⟨rest, h1, h2⟩
      · exact Or.inl h
      · exact Or.inr ⟨rest, h1, by omega⟩

theorem nextFieldWith_nul_free (delim : Nat) (compress : Bool) (reject : List Nat)
    (t : List Nat) (h : NUL ∉ t) : NUL ∉ (nextFieldWith delim compress reject t).1 := by
  have hs : NUL ∉ skipped delim compress t := by
    intro h'
    unfold skipped at h'
    split at h'
    · exact h ((List.dropWhile_sublist _).subset h')
    · exact h h'
  unfold nextFieldWith
  split
  · simp
  · rename_i c cs heq
    rw [heq] at hs
    split
    · exact quotedFieldWith_nul_free reject cs (fun h' => hs (List.mem_cons_of_mem _ h'))
    · intro h'
      have h'' : NUL ∈ (c :: cs).takeWhile (· ∉ reject) := h'
      exact hs ((List.takeWhile_sublist _).subset h'')

theorem nextFieldWith_rest (delim : Nat) (compress : Bool) (reject : List Nat) (t : List Nat) :
    (nextFieldWith delim compress reject t).2 = [] ∨
      ∃ x rest, (nextFieldWith delim compress reject t).2 = x :: rest ∧ x ∈ reject ∧
        rest.length < t.length := by
  have hs : (skipped delim compress t).length ≤ t.length := by
    unfold skipped
    split
    · exact (List.dropWhile_sublist _).length_le
    · exact le_rfl
  unfold nextFieldWith
  split
  · simp
  · rename_i c cs heq
    rw [heq] at hs
    split
    · rcases quotedFieldWith_rest reject cs with h | ⟨x, rest, h1, hx, h2⟩
      · exact Or.inl h
      · exact Or.inr ⟨x, rest, h1, hx, by simp at hs; omega⟩
    · rcases dropWhile_notMem_head reject (c :: cs) with h | ⟨x, rest, h1, hx, h2⟩
      · exact Or.inl h
      · exact Or.inr ⟨x, rest, h1, hx, by omega⟩

/-- One field scan on a block that holds the `NUL`-free text `t` at `p`. -/
theorem scanField_spec (delim : Nat) (compress : Bool) (stack : List Nat) (hd : delim ≠ NUL)
    (done t post : List Nat) (ht : NUL ∉ t) (p : Nat) (hp : p = done.length) :
    ∃ X W, scanField delim compress stack (done ++ (t ++ NUL :: post)) p =
        some (X ++ ((nextFieldWith delim compress (rejectAt delim stack) t).1 ++
                (W ++ ((nextFieldWith delim compress (rejectAt delim stack) t).2 ++ NUL :: post))),
          X.length, (X ++ ((nextFieldWith delim compress (rejectAt delim stack) t).1 ++ W)).length) ∧
      (∃ e, X = done ++ e ∧ e.length = fieldStart delim compress t) ∧
      (W = [] ∨ ∃ W', W = NUL :: W') := by
  subst hp
  -- the skipped run of delimiters
  obtain ⟨S, hS, hn⟩ : ∃ S, t = S ++ skipped delim compress t ∧
      (if compress then skipDelims delim ((done ++ (t ++ NUL :: post)).drop done.length)
        else some 0) = some S.length := by
    cases compress with
    | false => exact ⟨[], by simp [skipped], by simp⟩
    | true =>
      refine ⟨t.takeWhile (· == delim), by simp [skipped], ?_⟩
      simp only [if_true]
      rw [drop_append_eq _ _ _ rfl]
      exact skipDelims_append delim t post hd
  have hbuf : done ++ (t ++ NUL :: post) =
      (done ++ S) ++ (skipped delim compress t ++ NUL :: post) := by
    conv_lhs => rw [hS]
    simp
  have hsk : NUL ∉ skipped delim compress t := by
    intro h'; apply ht; rw [hS]; exact List.mem_append_right _ h'
  have hSl : t.length - (skipped delim compress t).length = S.length := by
    have := congrArg List.length hS
    simp at this
    omega
  have hstart : ∀ c cs, skipped delim compress t = c :: cs →
      fieldStart delim compress t = S.length + (if c = QUOTE then 1 else 0) := by
    intro c cs hcs
    unfold fieldStart
    rw [hSl, hcs]
    simp
  have hstart0 : skipped delim compress t = [] → fieldStart delim compress t = S.length := by
    intro hcs
    unfold fieldStart
    rw [hSl, hcs]
    simp
  unfold scanField
  rw [hn]
  simp only
  unfold nextFieldWith
  cases hsk' : skipped delim compress t with
  | nil =>
    rw [hsk'] at hbuf
    have hl : load (done ++ (t ++ NUL :: post)) (done.length + S.length) = some NUL := by
      rw [hbuf]; exact load_append _ _ _ _ (by simp)
    have hdr : (done ++ (t ++ NUL :: post)).drop (done.length + S.length) = NUL :: post := by
      rw [hbuf]; exact drop_append_eq _ _ _ (by simp)
    have hnq : NUL ≠ QUOTE := by decide
    refine ⟨done ++ S, [], ?_, ⟨S, rfl, (hstart0 hsk').symm⟩, Or.inl rfl⟩
    rw [hl]
    simp [hnq, hdr, strcspn, hbuf]
  | cons c cs =>
    rw [hsk'] at hbuf hsk
    have hl : load (done ++ (t ++ NUL :: post)) (done.length + S.length) = some c := by
      rw [hbuf]; exact load_append _ _ _ _ (by simp)
    rw [hl]
    simp only
    by_cases hq : c = QUOTE
    · have hcs : NUL ∉ cs := fun h' => hsk (List.mem_cons_of_mem _ h')
      have hbuf2 : done ++ (t ++ NUL :: post) = (done ++ S ++ [c]) ++ (cs ++ NUL :: post) := by
        rw [hbuf]; simp
      obtain ⟨W, hW, hW2⟩ := advquoted_spec delim (done.length + S.length + 1) stack
        (done ++ S ++ [c]) cs post hcs (by simp; omega)
      refine ⟨done ++ S ++ [c], W, ?_, ⟨S ++ [c], by simp, by simp [hstart c cs hsk', hq]⟩, ?_⟩
      · rw [if_pos hq, if_pos hq, hbuf2, hW]
        simp; omega
      · rcases hW2 with ⟨h1, _⟩ | h2
        · exact Or.inl h1
        · exact Or.inr h2
    · have hdr : (done ++ (t ++ NUL :: post)).drop (done.length + S.length) =
          (c :: cs) ++ NUL :: post := by
        rw [hbuf]; exact drop_append_eq _ _ _ (by simp)
      refine ⟨done ++ S, [], ?_, ⟨S, rfl, by simp [hstart c cs hsk', hq]⟩, Or.inl rfl⟩
      rw [if_neg hq, if_neg hq, hdr, strcspn_append (rejectAt delim stack) (c :: cs) post hsk]
      simp only [Option.map_some', List.nil_append]
      rw [hbuf]
      congr 2
      · congr 1
        have := List.takeWhile_append_dropWhile (· ∉ rejectAt delim stack) (c :: cs)
        rw [← List.append_assoc, this]
      · simp; omega

theorem store_length (buf buf1 : List Nat) (i v : Nat) (h : store buf i v = some buf1) :
    buf1.length = buf.length := by
  unfold store at h
  split at h
  · cases h; simp
  · cases h

theorem memmove_length (buf buf1 : List Nat) (dst src k : Nat)
    (h : memmove buf dst src k = some buf1) : buf1.length = buf.length := by
  unfold memmove at h
  split at h
  · rename_i hc
    cases h
    simp
    omega
  · cases h

theorem advquotedLoop_length (reject : List Nat) (p : Nat) : ∀ (fuel : Nat) (buf : List Nat) (i j : Nat)
    (r : List Nat × Nat × Nat), advquotedLoop reject p fuel buf i j = some r →
    r.1.length = buf.length := by
  intro fuel
  induction fuel with
  | zero => intro buf i j r h; simp [advquotedLoop] at h
  | succ fuel ih =>
    intro buf i j r h
    rw [advquotedLoop] at h
    split at h
    · cases h
    · split at h
      · cases h; rfl
      · split at h
        · split at h
          · cases h
          · split at h
            · split at h
              · cases h
              · split at h
                · cases h
                · rename_i hm
                  cases h
                  exact memmove_length _ _ _ _ _ hm
            · split at h
              · cases h
              · rename_i hs
                rw [ih _ _ _ _ h]
                exact store_length _ _ _ _ hs
        · split at h
          · cases h
          · rename_i hs
            rw [ih _ _ _ _ h]
            exact store_length _ _ _ _ hs

theorem advquoted_length (buf : List Nat) (p delim : Nat) (stack : List Nat)
    (r : List Nat × Nat) (h : advquoted buf p delim stack = some r) : r.1.length = buf.length := by
  unfold advquoted at h
  split at h
  · cases h
  · rename_i b i j hl
    split at h
    · cases h
    · rename_i hs
      cases h
      simp only
      rw [store_length _ _ _ _ hs]
      exact advquotedLoop_length _ _ _ _ _ _ _ hl

theorem scanField_length (delim : Nat) (compress : Bool) (stack : List Nat) (sline : List Nat)
    (p : Nat) (r : List Nat × Nat × Nat) (h : scanField delim compress stack sline p = some r) :
    r.1.length = sline.length := by
  unfold scanField at h
  split at h
  · cases h
  · split at h
    · cases h
    · rename_i n _ _ _
      split at h
      · simp only [Option.map_eq_some'] at h
        obtain ⟨q, ha, rfl⟩ := h
        exact advquoted_length _ _ _ _ _ ha
      · simp only [Option.map_eq_some'] at h
        obtain ⟨q, _, rfl⟩ := h
        rfl

theorem splitLoop_length (delim : Nat) (compress : Bool) (stack : Nat → List Nat) :
    ∀ (fuel : Nat) (h : Heap)
    (sline field : List Nat) (maxfield nfield p : Nat) (o : SplitOut),
    splitLoop delim compress stack fuel h sline field maxfield nfield p = some o →
    o.sline.length = sline.length := by
  intro fuel
  induction fuel with
  | zero => intro h sline field maxfield nfield p o ho; simp [splitLoop] at ho
  | succ fuel ih =>
    intro h sline field maxfield nfield p o ho
    rw [splitLoop] at ho
    split at ho
    · cases ho; rfl
    · split at ho
      · cases ho
      · rename_i hsc
        split at ho
        · cases ho
        · split at ho
          · cases ho
          · rename_i hst
            split at ho
            · cases ho
            · have e1 := scanField_length _ _ _ _ _ _ hsc
              have e2 := store_length _ _ _ _ hst
              simp only at e1
              split at ho
              · rw [ih _ _ _ _ _ _ _ ho, e2, e1]
              · cases ho
                simp only
                rw [e2, e1]

/-! ## The loop of `split` -/

theorem request_unlimited (h : Heap) (hh : h.Unlimited) : h.request = (true, h) := by
  unfold Heap.Unlimited at hh
  simp [Heap.request, hh]

theorem malloc_unlimited (h : Heap) (hh : h.Unlimited) (n : Nat) :
    malloc h n = (some (List.replicate n h.fill), h) := by
  simp [malloc, request_unlimited h hh]

theorem realloc_unlimited (h : Heap) (hh : h.Unlimited) (buf : List Nat) (n : Nat)
    (hn : buf.length ≤ n) :
    realloc h buf n = (some (buf ++ List.replicate (n - buf.length) h.fill), h) := by
  simp only [realloc, request_unlimited h hh, if_true]
  congr 2
  apply List.take_of_length_le
  simp; omega

theorem growTable_spec (h : Heap) (hh : h.Unlimited) (field : List Nat) (mf nf : Nat)
    (hf : field.length = mf) (hn : nf ≤ mf) (hm : 1 ≤ mf) :
    ∃ ext mf1, growTable h field mf nf = (some (field ++ ext), h, mf1) ∧
      (field ++ ext).length = mf1 ∧ nf < mf1 ∧ mf ≤ mf1 := by
  unfold growTable
  by_cases hc : nf ≥ mf
  · refine ⟨List.replicate (mf * 2 - field.length) h.fill, mf * 2, ?_, ?_, by omega, by omega⟩
    · rw [if_pos hc, realloc_unlimited h hh field (mf * 2) (by omega)]
    · simp; omega
  · exact ⟨[], mf, by simp [hc], by simpa using hf, by omega, le_rfl⟩

theorem fieldEntries_zero (sl f : List Nat) : fieldEntries sl f 0 = some [] := rfl

theorem mapM_option_snoc {α β : Type} (g : α → Option β) (l : List α) (a : α) :
    (l ++ [a]).mapM g =
      (l.mapM g).bind (fun prev => (g a).bind (fun x => some (prev ++ [x]))) := by
  rw [List.mapM_append, List.mapM_cons, List.mapM_nil]
  cases h1 : List.mapM g l with
  | none => rfl
  | some prev =>
    cases h2 : g a with
    | none => rfl
    | some x => rfl

theorem mapM_option_congr {α β : Type} (f g : α → Option β) : ∀ (l : List α),
    (∀ a, a ∈ l → f a = g a) → l.mapM f = l.mapM g := by
  intro l
  induction l with
  | nil => intro _; rfl
  | cons a l ih =>
    intro h
    rw [List.mapM_cons, List.mapM_cons, h a (by simp), ih (fun b hb => h b (by simp [hb]))]

theorem mapM_option_map {α β γ : Type} (f : α → Option β) (g : β → γ) : ∀ (l : List α),
    l.mapM (fun a => (f a).map g) = (l.mapM f).map (List.map g) := by
  intro l
  induction l with
  | nil => rfl
  | cons a l ih =>
    rw [List.mapM_cons, List.mapM_cons, ih]
    cases f a with
    | none => rfl
    | some b =>
      cases List.mapM f l with
      | none => rfl
      | some bs => rfl

theorem fieldEntries_succ (sl f : List Nat) (n : Nat) :
    fieldEntries sl f (n + 1) =
      (fieldEntries sl f n).bind (fun prev => (fieldAt sl f n).bind (fun x => some (prev ++ [x]))) := by
  unfold fieldEntries
  rw [List.range_succ, mapM_option_snoc]

theorem fieldEntries_congr (sl sl' f f' : List Nat) : ∀ (n : Nat),
    (∀ k, k < n → fieldAt sl f k = fieldAt sl' f' k) →
    fieldEntries sl f n = fieldEntries sl' f' n := by
  intro n
  induction n with
  | zero => intro _; simp [fieldEntries_zero]
  | succ n ih =>
    intro h
    rw [fieldEntries_succ, fieldEntries_succ, ih (fun k hk => h k (by omega)), h n (by omega)]

theorem fieldEntries_length (sl f : List Nat) : ∀ (n : Nat) (fs : List (Nat × List Nat)),
    fieldEntries sl f n = some fs → fs.length = n := by
  intro n
  induction n with
  | zero => intro fs h; simp [fieldEntries_zero] at h; subst h; rfl
  | succ n ih =>
    intro fs h
    rw [fieldEntries_succ] at h
    cases h1 : fieldEntries sl f n with
    | none => simp [h1] at h
    | some prev =>
      cases h2 : fieldAt sl f n with
      | none => simp [h1, h2] at h
      | some x =>
        simp [h1, h2] at h
        subst h
        simp [ih prev h1]

/-- Entry `k` of the table, once the first `n > k` entries are known. -/
theorem fieldEntries_get (sl f : List Nat) : ∀ (n : Nat) (fs : List (Nat × List Nat)),
    fieldEntries sl f n = some fs → ∀ k, k < n → fieldAt sl f k = fs[k]? := by
  intro n
  induction n with
  | zero => intro fs _ k hk; omega
  | succ n ih =>
    intro fs h k hk
    rw [fieldEntries_succ] at h
    cases h1 : fieldEntries sl f n with
    | none => simp [h1] at h
    | some prev =>
      cases h2 : fieldAt sl f n with
      | none => simp [h1, h2] at h
      | some x =>
        simp [h1, h2] at h
        subst h
        have hl := fieldEntries_length sl f n prev h1
        by_cases hkn : k < n
        · rw [ih prev h1 k hkn, List.getElem?_append_left (by omega)]
        · have : k = n := by omega
          subst this
          rw [h2, List.getElem?_append_right (by omega)]
          simp [hl]

/-- The field recorded by one iteration, read through the table once its separator is
overwritten, whatever the block holds further on. -/
theorem fieldEntries_step (done e out W ext : List Nat) (field : List Nat)
    (prev : List (Nat × List Nat)) (nf : Nat)
    (hnf : nf < (field ++ ext).length) (hnf2 : nf ≤ field.length) (hout : NUL ∉ out)
    (hW : W = [] ∨ ∃ W', W = NUL :: W')
    (hprev : ∀ x, fieldEntries (done ++ x) field nf = some prev)
    (field2 : List Nat) (hf2 : store (field ++ ext) nf (done ++ e).length = some field2) (x : List Nat) :
    fieldEntries (((done ++ e) ++ (out ++ W)) ++ NUL :: x) field2 (nf + 1) =
      some (prev ++ [((done ++ e).length, out)]) := by
  have hf2' : field2 = (field ++ ext).set nf (done ++ e).length := by
    unfold store at hf2
    rw [if_pos hnf] at hf2
    exact (Option.some.inj hf2).symm
  have hbuf : ((done ++ e) ++ (out ++ W)) ++ NUL :: x = done ++ (e ++ (out ++ W) ++ NUL :: x) := by
    simp
  rw [fieldEntries_succ]
  have h1 : fieldEntries (((done ++ e) ++ (out ++ W)) ++ NUL :: x) field2 nf = some prev := by
    rw [hbuf, ← hprev (e ++ (out ++ W) ++ NUL :: x)]
    apply fieldEntries_congr
    intro k hk
    unfold fieldAt load
    rw [hf2', List.getElem?_set_ne (by omega), List.getElem?_append_left (by omega)]
  have h2 : fieldAt (((done ++ e) ++ (out ++ W)) ++ NUL :: x) field2 nf =
      some ((done ++ e).length, out) := by
    unfold fieldAt load
    rw [hf2', List.getElem?_set_self hnf]
    show (if (done ++ e).length < (((done ++ e) ++ (out ++ W)) ++ NUL :: x).length then
      (cstr ((((done ++ e) ++ (out ++ W)) ++ NUL :: x).drop (done ++ e).length)).map
        (fun f => ((done ++ e).length, f)) else none) = some ((done ++ e).length, out)
    rw [if_pos (by simp)]
    have : (((done ++ e) ++ (out ++ W)) ++ NUL :: x).drop (done ++ e).length =
        out ++ (W ++ NUL :: x) := by
      rw [List.append_assoc, List.append_assoc out, drop_append_eq _ _ _ rfl]
    rw [this]
    rcases hW with rfl | ⟨W', rfl⟩
    · rw [List.nil_append, cstr_append out x hout]; rfl
    · rw [List.cons_append, cstr_append out _ hout]; rfl
  rw [h1, h2]; rfl

theorem quotedField_rest_subset (delim : Nat) (R : List Nat) :
    (quotedField delim R).2 ⊆ R := by
  induction R using quotedField.induct delim with
  | case1 => simp [quotedField]
  | case2 => simp [quotedField_quote_nil]
  | case3 ds ih =>
    rw [quotedField_quote_quote]
    intro x hx
    exact List.mem_cons_of_mem _ (List.mem_cons_of_mem _ (ih hx))
  | case4 d ds hd =>
    rw [quotedField_quote_other delim d ds hd]
    intro x hx
    have hx' : x ∈ (d :: ds).dropWhile (· != delim) := hx
    exact List.mem_cons_of_mem _ ((List.dropWhile_sublist _).subset hx')
  | case5 c cs hc ih =>
    rw [quotedField_other delim c cs hc]
    intro x hx
    exact List.mem_cons_of_mem _ (ih hx)

theorem nextField_rest_subset (delim : Nat) (compress : Bool) (t : List Nat) :
    (nextField delim compress t).2 ⊆ t := by
  have hs : skipped delim compress t ⊆ t := by
    unfold skipped
    split
    · exact (List.dropWhile_sublist _).subset
    · exact fun _ h => h
  unfold nextField
  split
  · simp
  · rename_i c cs heq
    rw [heq] at hs
    split
    · intro x hx
      exact hs (List.mem_cons_of_mem _ (quotedField_rest_subset delim cs hx))
    · intro x hx
      have hx' : x ∈ (c :: cs).dropWhile (· != delim) := hx
      exact hs ((List.dropWhile_sublist _).subset hx')

theorem entriesFrom_succ_nil (delim : Nat) (compress : Bool) (fuel base : Nat) (t : List Nat)
    (h : (nextField delim compress t).2 = []) :
    entriesFrom delim compress (fuel + 1) base t =
      [(base + fieldStart delim compress t, (nextField delim compress t).1)] := by
  rw [entriesFrom, h]

theorem entriesFrom_succ_cons (delim : Nat) (compress : Bool) (fuel base : Nat) (t : List Nat)
    (d : Nat) (rest : List Nat) (h : (nextField delim compress t).2 = d :: rest) :
    entriesFrom delim compress (fuel + 1) base t =
      (base + fieldStart delim compress t, (nextField delim compress t).1) ::
        entriesFrom delim compress fuel (base + (t.length - rest.length)) rest := by
  rw [entriesFrom, h]

theorem fieldsFrom_succ_nil (delim : Nat) (compress : Bool) (fuel : Nat) (t : List Nat)
    (h : (nextField delim compress t).2 = []) :
    fieldsFrom delim compress (fuel + 1) t = [(nextField delim compress t).1] := by
  rw [fieldsFrom, h]

theorem fieldsFrom_succ_cons (delim : Nat) (compress : Bool) (fuel : Nat) (t : List Nat)
    (d : Nat) (rest : List Nat) (h : (nextField delim compress t).2 = d :: rest) :
    fieldsFrom delim compress (fuel + 1) t =
      (nextField delim compress t).1 :: fieldsFrom delim compress fuel rest := by
  rw [fieldsFrom, h]

theorem entriesFrom_snd (delim : Nat) (compress : Bool) : ∀ (fuel base : Nat) (t : List Nat),
    (entriesFrom delim compress fuel base t).map Prod.snd = fieldsFrom delim compress fuel t := by
  intro fuel
  induction fuel with
  | zero => intro base t; rfl
  | succ fuel ih =>
    intro base t
    cases hr : (nextField delim compress t).2 with
    | nil => rw [entriesFrom_succ_nil _ _ _ _ _ hr, fieldsFrom_succ_nil _ _ _ _ hr]; rfl
    | cons d rest =>
      rw [entriesFrom_succ_cons _ _ _ _ _ _ _ hr, fieldsFrom_succ_cons _ _ _ _ _ _ hr]
      simp [ih]

theorem quotedFieldWith_rest_subset (reject : List Nat) (R : List Nat) :
    (quotedFieldWith reject R).2 ⊆ R := by
  induction R using quotedFieldWith.induct reject with
  | case1 => simp [quotedFieldWith]
  | case2 => simp [quotedFieldWith_quote_nil]
  | case3 ds ih =>
    rw [quotedFieldWith_quote_quote]
    intro x hx
    exact List.mem_cons_of_mem _ (List.mem_cons_of_mem _ (ih hx))
  | case4 d ds hd =>
    rw [quotedFieldWith_quote_other reject d ds hd]
    intro x hx
    have hx' : x ∈ (d :: ds).dropWhile (· ∉ reject) := hx
    exact List.mem_cons_of_mem _ ((List.dropWhile_sublist _).subset hx')
  | case5 c cs hc ih =>
    rw [quotedFieldWith_other reject c cs hc]
    intro x hx
    exact List.mem_cons_of_mem _ (ih hx)

theorem nextFieldWith_rest_subset (delim : Nat) (compress : Bool) (reject : List Nat)
    (t : List Nat) : (nextFieldWith delim compress reject t).2 ⊆ t := by
  have hs : skipped delim compress t ⊆ t := by
    unfold skipped
    split
    · exact (List.dropWhile_sublist _).subset
    · exact fun _ h => h
  unfold nextFieldWith
  split
  · simp
  · rename_i c cs heq
    rw [heq] at hs
    split
    · intro x hx
      exact hs (List.mem_cons_of_mem _ (quotedFieldWith_rest_subset reject cs hx))
    · intro x hx
      have hx' : x ∈ (c :: cs).dropWhile (· ∉ reject) := hx
      exact hs ((List.dropWhile_sublist _).subset hx')

theorem entriesFromWith_succ_nil (delim : Nat) (compress : Bool) (stack : Nat → List Nat)
    (fuel n base : Nat) (t : List Nat)
    (h : (nextFieldWith delim compress (rejectAt delim (stack n)) t).2 = []) :
    entriesFromWith delim compress stack (fuel + 1) n base t =
      [(base + fieldStart delim compress t,
        (nextFieldWith delim compress (rejectAt delim (stack n)) t).1)] := by
  rw [entriesFromWith, h]

theorem entriesFromWith_succ_cons (delim : Nat) (compress : Bool) (stack : Nat → List Nat)
    (fuel n base : Nat) (t : List Nat) (rest : List Nat)
    (h : (nextFieldWith delim compress (rejectAt delim (stack n)) t).2 = delim :: rest) :
    entriesFromWith delim compress stack (fuel + 1) n base t =
      (base + fieldStart delim compress t,
          (nextFieldWith delim compress (rejectAt delim (stack n)) t).1) ::
        entriesFromWith delim compress stack fuel (n + 1) (base + (t.length - rest.length))
          rest := by
  rw [entriesFromWith, h]
  simp

theorem entriesFromWith_succ_stop (delim : Nat) (compress : Bool) (stack : Nat → List Nat)
    (fuel n base : Nat) (t : List Nat) (x : Nat) (rest : List Nat)
    (h : (nextFieldWith delim compress (rejectAt delim (stack n)) t).2 = x :: rest)
    (hx : x ≠ delim) :
    entriesFromWith delim compress stack (fuel + 1) n base t =
      [(base + fieldStart delim compress t,
        (nextFieldWith delim compress (rejectAt delim (stack n)) t).1)] := by
  rw [entriesFromWith, h]
  simp [hx]

theorem fieldsFromWith_succ_nil (delim : Nat) (compress : Bool) (stack : Nat → List Nat)
    (fuel n : Nat) (t : List Nat)
    (h : (nextFieldWith delim compress (rejectAt delim (stack n)) t).2 = []) :
    fieldsFromWith delim compress stack (fuel + 1) n t =
      [(nextFieldWith delim compress (rejectAt delim (stack n)) t).1] := by
  rw [fieldsFromWith, h]

theorem fieldsFromWith_succ_cons (delim : Nat) (compress : Bool) (stack : Nat → List Nat)
    (fuel n : Nat) (t : List Nat) (rest : List Nat)
    (h : (nextFieldWith delim compress (rejectAt delim (stack n)) t).2 = delim :: rest) :
    fieldsFromWith delim compress stack (fuel + 1) n t =
      (nextFieldWith delim compress (rejectAt delim (stack n)) t).1 ::
        fieldsFromWith delim compress stack fuel (n + 1) rest := by
  rw [fieldsFromWith, h]
  simp

theorem fieldsFromWith_succ_stop (delim : Nat) (compress : Bool) (stack : Nat → List Nat)
    (fuel n : Nat) (t : List Nat) (x : Nat) (rest : List Nat)
    (h : (nextFieldWith delim compress (rejectAt delim (stack n)) t).2 = x :: rest)
    (hx : x ≠ delim) :
    fieldsFromWith delim compress stack (fuel + 1) n t =
      [(nextFieldWith delim compress (rejectAt delim (stack n)) t).1] := by
  rw [fieldsFromWith, h]
  simp [hx]

/-- The three ways an iteration of the loop of `split` ends on the text `t`: at the end of the
text, at a delimiter (the loop goes on with a shorter text), or at another byte of the reject
string (the loop stops). -/
theorem nextFieldWith_cases (delim : Nat) (compress : Bool) (reject : List Nat) (t : List Nat) :
    (nextFieldWith delim compress reject t).2 = [] ∨
      (∃ rest, (nextFieldWith delim compress reject t).2 = delim :: rest ∧
        rest.length < t.length) ∨
      (∃ x rest, (nextFieldWith delim compress reject t).2 = x :: rest ∧ x ≠ delim ∧
        x ∈ reject ∧ rest.length < t.length) := by
  rcases nextFieldWith_rest delim compress reject t with h | ⟨x, rest, h, hx, hl⟩
  · exact Or.inl h
  · by_cases hxd : x = delim
    · subst hxd; exact Or.inr (Or.inl ⟨rest, h, hl⟩)
    · exact Or.inr (Or.inr ⟨x, rest, h, hxd, hx, hl⟩)

theorem entriesFromWith_snd (delim : Nat) (compress : Bool) (stack : Nat → List Nat) :
    ∀ (fuel n base : Nat) (t : List Nat),
    (entriesFromWith delim compress stack fuel n base t).map Prod.snd =
      fieldsFromWith delim compress stack fuel n t := by
  intro fuel
  induction fuel with
  | zero => intro n base t; rfl
  | succ fuel ih =>
    intro n base t
    rcases nextFieldWith_cases delim compress (rejectAt delim (stack n)) t with
      hr | ⟨rest, hr, -⟩ | ⟨x, rest, hr, hx, -, -⟩
    · rw [entriesFromWith_succ_nil _ _ _ _ _ _ _ hr, fieldsFromWith_succ_nil _ _ _ _ _ _ hr]; rfl
    · rw [entriesFromWith_succ_cons _ _ _ _ _ _ _ _ hr, fieldsFromWith_succ_cons _ _ _ _ _ _ _ hr]
      simp [ih]
    · rw [entriesFromWith_succ_stop _ _ _ _ _ _ _ _ _ hr hx,
        fieldsFromWith_succ_stop _ _ _ _ _ _ _ _ hr hx]
      rfl

/-- The loop of `split` on a block that holds the `NUL`-free text `t` at `p`, with an
allocator that never refuses: it returns the number of fields, and the entries read through
the table are the earlier ones followed by the entries of `t`. -/
theorem splitLoop_spec (delim : Nat) (compress : Bool) (stack : Nat → List Nat)
    (hd : delim ≠ NUL) (h : Heap)
    (hh : h.Unlimited) (post : List Nat) : ∀ (fuel : Nat) (t done field : List Nat) (mf nf : Nat)
    (prev : List (Nat × List Nat)),
    NUL ∉ t → t.length < fuel → field.length = mf → nf ≤ mf → 1 ≤ mf →
    (∀ x, fieldEntries (done ++ x) field nf = some prev) →
    ∃ o, splitLoop delim compress stack fuel h (done ++ (t ++ NUL :: post)) field mf nf
        done.length = some o ∧
      o.ret = ((nf + (entriesFromWith delim compress stack fuel nf done.length t).length : Nat)
        : Int) ∧
      o.heap = h ∧
      o.nfield = nf + (entriesFromWith delim compress stack fuel nf done.length t).length ∧
      fieldEntries o.sline o.field o.nfield =
        some (prev ++ entriesFromWith delim compress stack fuel nf done.length t) ∧
      o.field.length = o.maxfield ∧ o.nfield ≤ o.maxfield ∧ mf ≤ o.maxfield := by
  intro fuel
  induction fuel with
  | zero => intro t done field mf nf prev _ hf; omega
  | succ fuel ih =>
    intro t done field mf nf prev ht hfuel hfl hnf hmf hprev
    obtain ⟨ext, mf1, hg, hgl, hg1, hg2⟩ := growTable_spec h hh field mf nf hfl hnf hmf
    obtain ⟨X, W, hsc, ⟨e, rfl, he⟩, hW⟩ :=
      scanField_spec delim compress (stack nf) hd done t post ht done.length rfl
    have hscl := scanField_length _ _ _ _ _ _ hsc
    have hout := nextFieldWith_nul_free delim compress (rejectAt delim (stack nf)) t ht
    obtain ⟨field2, hf2⟩ : ∃ field2, store (field ++ ext) nf (done ++ e).length = some field2 := by
      unfold store; rw [if_pos (by omega)]; exact ⟨_, rfl⟩
    have hf2l : field2.length = mf1 := by rw [store_length _ _ _ _ hf2, hgl]
    have hstep := fieldEntries_step done e
      (nextFieldWith delim compress (rejectAt delim (stack nf)) t).1 W ext field prev nf
      (by omega) (by omega) hout hW hprev field2 hf2
    have hoff : (done ++ e).length = done.length + fieldStart delim compress t := by
      simp [he]
    rw [hoff] at hstep
    have hshape : ∀ Y : List Nat, (done ++ e) ++
        ((nextFieldWith delim compress (rejectAt delim (stack nf)) t).1 ++ (W ++ Y)) =
        ((done ++ e) ++ ((nextFieldWith delim compress (rejectAt delim (stack nf)) t).1 ++ W))
          ++ Y := by
      intro Y; simp
    rw [splitLoop, hg]
    simp only [hsc]
    rcases nextFieldWith_cases delim compress (rejectAt delim (stack nf)) t with
      hr | ⟨rest, hr, hrl⟩ | ⟨x, rest, hr, hx, -, hrl⟩
    · rw [hr, List.nil_append, hshape,
        load_append _ _ _ _ rfl, ]
      simp only
      rw [store_append _ _ _ _ _ rfl]
      simp only [hf2]
      rw [if_neg (Ne.symm hd)]
      refine ⟨_, rfl, ?_, rfl, ?_, ?_, hf2l, by simp only []; omega, hg2⟩
      · simp [entriesFromWith_succ_nil _ _ _ _ _ _ _ hr]
      · simp [entriesFromWith_succ_nil _ _ _ _ _ _ _ hr]
      · simp only [entriesFromWith_succ_nil _ _ _ _ _ _ _ hr]
        exact hstep post
    · have hrest : NUL ∉ rest := fun h' =>
        ht (nextFieldWith_rest_subset delim compress _ t
          (by rw [hr]; exact List.mem_cons_of_mem _ h'))
      rw [hr, hshape] at hscl
      rw [hr, hshape, List.cons_append, load_append _ _ _ _ rfl]
      simp only
      rw [store_append _ _ _ _ _ rfl]
      simp only [hf2, if_true]
      have hbuf : ((done ++ e) ++
            ((nextFieldWith delim compress (rejectAt delim (stack nf)) t).1 ++ W)) ++
            NUL :: (rest ++ NUL :: post)
          = (((done ++ e) ++
            ((nextFieldWith delim compress (rejectAt delim (stack nf)) t).1 ++ W)) ++ [NUL]) ++
            (rest ++ NUL :: post) := by
        simp
      have hlen : ((done ++ e) ++
            ((nextFieldWith delim compress (rejectAt delim (stack nf)) t).1 ++ W)).length + 1 =
          ((((done ++ e) ++
            ((nextFieldWith delim compress (rejectAt delim (stack nf)) t).1 ++ W)) ++
              [NUL])).length := by
        simp; omega
      have hbase : ((((done ++ e) ++
            ((nextFieldWith delim compress (rejectAt delim (stack nf)) t).1 ++ W)) ++
              [NUL])).length =
          done.length + (t.length - rest.length) := by
        simp at hscl ⊢
        omega
      rw [hbuf, hlen]
      obtain ⟨o, ho, h1, h2, h3, h4, h5, h6, h7⟩ := ih rest
        ((((done ++ e) ++
          ((nextFieldWith delim compress (rejectAt delim (stack nf)) t).1 ++ W)) ++ [NUL]))
        field2 mf1 (nf + 1)
        (prev ++ [(done.length + fieldStart delim compress t,
          (nextFieldWith delim compress (rejectAt delim (stack nf)) t).1)])
        hrest (by omega) hf2l (by omega)
        (by omega) (by
          intro x
          have := hstep x
          rw [List.append_assoc _ [NUL] x]
          exact this)
      rw [hbase] at h1 h3 h4
      refine ⟨o, ho, ?_, h2, ?_, ?_, h5, h6, by omega⟩
      · rw [h1, entriesFromWith_succ_cons _ _ _ _ _ _ _ _ hr]; simp; omega
      · rw [h3, entriesFromWith_succ_cons _ _ _ _ _ _ _ _ hr]; simp; omega
      · rw [h4, entriesFromWith_succ_cons _ _ _ _ _ _ _ _ hr]; simp
    · rw [hr, hshape, List.cons_append, load_append _ _ _ _ rfl]
      simp only
      rw [store_append _ _ _ _ _ rfl]
      simp only [hf2]
      rw [if_neg hx]
      refine ⟨_, rfl, ?_, rfl, ?_, ?_, hf2l, by simp only []; omega, hg2⟩
      · simp [entriesFromWith_succ_stop _ _ _ _ _ _ _ _ _ hr hx]
      · simp [entriesFromWith_succ_stop _ _ _ _ _ _ _ _ _ hr hx]
      · simp only [entriesFromWith_succ_stop _ _ _ _ _ _ _ _ _ hr hx]
        exact hstep (rest ++ NUL :: post)

theorem entriesFrom_fuel (delim : Nat) (compress : Bool) : ∀ (f1 f2 base : Nat) (t : List Nat),
    t.length < f1 → t.length < f2 →
    entriesFrom delim compress f1 base t = entriesFrom delim compress f2 base t := by
  intro f1
  induction f1 with
  | zero => intro f2 base t h; omega
  | succ f1 ih =>
    intro f2 base t h1 h2
    obtain ⟨f2, rfl⟩ : ∃ f, f2 = f + 1 := ⟨f2 - 1, by omega⟩
    rcases nextField_rest delim compress t with hr | ⟨rest, hr, hrl⟩
    · rw [entriesFrom_succ_nil _ _ _ _ _ hr, entriesFrom_succ_nil _ _ _ _ _ hr]
    · rw [entriesFrom_succ_cons _ _ _ _ _ _ _ hr, entriesFrom_succ_cons _ _ _ _ _ _ _ hr,
        ih f2 _ rest (by omega) (by omega)]

theorem fieldsFrom_fuel (delim : Nat) (compress : Bool) (f1 f2 : Nat) (t : List Nat)
    (h1 : t.length < f1) (h2 : t.length < f2) :
    fieldsFrom delim compress f1 t = fieldsFrom delim compress f2 t := by
  rw [← entriesFrom_snd delim compress f1 0 t, ← entriesFrom_snd delim compress f2 0 t,
    entriesFrom_fuel delim compress f1 f2 0 t h1 h2]

theorem entriesOf_snd (delim : Nat) (compress : Bool) (t : List Nat) :
    (entriesOf delim compress t).map Prod.snd = fieldsOf delim compress t :=
  entriesFrom_snd _ _ _ _ _

theorem entriesFromWith_fuel (delim : Nat) (compress : Bool) (stack : Nat → List Nat) :
    ∀ (f1 f2 n base : Nat) (t : List Nat), t.length < f1 → t.length < f2 →
    entriesFromWith delim compress stack f1 n base t =
      entriesFromWith delim compress stack f2 n base t := by
  intro f1
  induction f1 with
  | zero => intro f2 n base t h; omega
  | succ f1 ih =>
    intro f2 n base t h1 h2
    obtain ⟨f2, rfl⟩ : ∃ f, f2 = f + 1 := ⟨f2 - 1, by omega⟩
    rcases nextFieldWith_cases delim compress (rejectAt delim (stack n)) t with
      hr | ⟨rest, hr, hrl⟩ | ⟨x, rest, hr, hx, -, -⟩
    · rw [entriesFromWith_succ_nil _ _ _ _ _ _ _ hr, entriesFromWith_succ_nil _ _ _ _ _ _ _ hr]
    · rw [entriesFromWith_succ_cons _ _ _ _ _ _ _ _ hr,
        entriesFromWith_succ_cons _ _ _ _ _ _ _ _ hr, ih f2 _ _ rest (by omega) (by omega)]
    · rw [entriesFromWith_succ_stop _ _ _ _ _ _ _ _ _ hr hx,
        entriesFromWith_succ_stop _ _ _ _ _ _ _ _ _ hr hx]

theorem fieldsFromWith_fuel (delim : Nat) (compress : Bool) (stack : Nat → List Nat)
    (f1 f2 n : Nat) (t : List Nat) (h1 : t.length < f1) (h2 : t.length < f2) :
    fieldsFromWith delim compress stack f1 n t = fieldsFromWith delim compress stack f2 n t := by
  rw [← entriesFromWith_snd delim compress stack f1 n 0 t,
    ← entriesFromWith_snd delim compress stack f2 n 0 t,
    entriesFromWith_fuel delim compress stack f1 f2 n 0 t h1 h2]

theorem entriesWith_snd (delim : Nat) (compress : Bool) (stack : Nat → List Nat) (t : List Nat) :
    (entriesWith delim compress stack t).map Prod.snd = fieldsWith delim compress stack t :=
  entriesFromWith_snd _ _ _ _ _ _ _

/-! ### Reject strings that do not meet the text -/

theorem mem_rejectAt_self (delim : Nat) (stack : List Nat) (hd : delim ≠ NUL) :
    delim ∈ rejectAt delim stack := by
  unfold rejectAt
  rw [List.takeWhile_cons_of_pos (by simpa using hd)]
  exact List.mem_cons_self _ _

theorem takeWhile_reject_clean (delim : Nat) (reject : List Nat) (hm : delim ∈ reject) :
    ∀ (u : List Nat), (∀ b ∈ reject, b = delim ∨ b ∉ u) →
    u.takeWhile (· ∉ reject) = u.takeWhile (· != delim) ∧
      u.dropWhile (· ∉ reject) = u.dropWhile (· != delim)
  | [], _ => ⟨rfl, rfl⟩
  | c :: cs, h => by
    by_cases hc : c = delim
    · subst hc
      rw [List.takeWhile_cons_of_neg (by simpa using hm), List.dropWhile_cons_of_neg (by simpa using hm),
        List.takeWhile_cons_of_neg (by simp), List.dropWhile_cons_of_neg (by simp)]
      exact ⟨rfl, rfl⟩
    · have hcr : c ∉ reject := by
        intro hcr
        rcases h c hcr with h1 | h1
        · exact hc h1
        · exact h1 (List.mem_cons_self _ _)
      obtain ⟨a, b⟩ := takeWhile_reject_clean delim reject hm cs
        (fun b hb => (h b hb).imp id (fun h2 h3 => h2 (List.mem_cons_of_mem _ h3)))
      rw [List.takeWhile_cons_of_pos (by simpa using hcr),
        List.dropWhile_cons_of_pos (by simpa using hcr),
        List.takeWhile_cons_of_pos (by simpa using hc),
        List.dropWhile_cons_of_pos (by simpa using hc), a, b]
      exact ⟨rfl, rfl⟩

theorem quotedFieldWith_clean (delim : Nat) (reject : List Nat) (hm : delim ∈ reject)
    (R : List Nat) (h : ∀ b ∈ reject, b = delim ∨ b ∉ R) :
    quotedFieldWith reject R = quotedField delim R := by
  induction R using quotedField.induct delim with
  | case1 => simp [quotedField, quotedFieldWith]
  | case2 => rw [quotedField_quote_nil, quotedFieldWith_quote_nil]
  | case3 ds ih =>
    rw [quotedField_quote_quote, quotedFieldWith_quote_quote,
      ih (fun b hb => (h b hb).imp id
        (fun h2 h3 => h2 (List.mem_cons_of_mem _ (List.mem_cons_of_mem _ h3))))]
  | case4 d ds hd =>
    rw [quotedField_quote_other delim d ds hd, quotedFieldWith_quote_other reject d ds hd]
    obtain ⟨a, b⟩ := takeWhile_reject_clean delim reject hm (d :: ds)
      (fun b hb => (h b hb).imp id (fun h2 h3 => h2 (List.mem_cons_of_mem _ h3)))
    rw [a, b]
  | case5 c cs hc ih =>
    rw [quotedField_other delim c cs hc, quotedFieldWith_other reject c cs hc,
      ih (fun b hb => (h b hb).imp id (fun h2 h3 => h2 (List.mem_cons_of_mem _ h3)))]

theorem nextFieldWith_clean (delim : Nat) (compress : Bool) (reject : List Nat)
    (hm : delim ∈ reject) (t : List Nat) (h : ∀ b ∈ reject, b = delim ∨ b ∉ t) :
    nextFieldWith delim compress reject t = nextField delim compress t := by
  have hs : skipped delim compress t ⊆ t := by
    unfold skipped
    split
    · exact (List.dropWhile_sublist _).subset
    · exact fun _ h => h
  unfold nextFieldWith nextField
  cases hsk : skipped delim compress t with
  | nil => rfl
  | cons c cs =>
    rw [hsk] at hs
    simp only
    by_cases hq : c = QUOTE
    · rw [if_pos hq, if_pos hq]
      exact quotedFieldWith_clean delim reject hm cs
        (fun b hb => (h b hb).imp id (fun h2 h3 => h2 (hs (List.mem_cons_of_mem _ h3))))
    · rw [if_neg hq, if_neg hq]
      obtain ⟨a, b⟩ := takeWhile_reject_clean delim reject hm (c :: cs)
        (fun b hb => (h b hb).imp id (fun h2 h3 => h2 (hs h3)))
      rw [a, b]

theorem Clean.mono {delim : Nat} {stack : Nat → List Nat} {t u : List Nat}
    (h : Clean delim stack t) (hu : u ⊆ t) : Clean delim stack u :=
  fun n b hb => (h n b hb).imp id (fun h2 h3 => h2 (hu h3))

/-- When no byte of the reject strings other than `delim` occurs in the text, the loop of
`split` produces the entries of the scan for `delim` alone. -/
theorem entriesFromWith_clean (delim : Nat) (compress : Bool) (stack : Nat → List Nat)
    (hd : delim ≠ NUL) : ∀ (fuel n base : Nat) (t : List Nat), Clean delim stack t →
    entriesFromWith delim compress stack fuel n base t = entriesFrom delim compress fuel base t := by
  intro fuel
  induction fuel with
  | zero => intro n base t _; rfl
  | succ fuel ih =>
    intro n base t hc
    have he := nextFieldWith_clean delim compress (rejectAt delim (stack n))
      (mem_rejectAt_self delim (stack n) hd) t (hc n)
    rcases nextField_rest delim compress t with hr | ⟨rest, hr, -⟩
    · rw [entriesFromWith_succ_nil _ _ _ _ _ _ _ (by rw [he]; exact hr),
        entriesFrom_succ_nil _ _ _ _ _ hr, he]
    · rw [entriesFromWith_succ_cons _ _ _ _ _ _ _ _ (by rw [he]; exact hr),
        entriesFrom_succ_cons _ _ _ _ _ _ _ hr, he,
        ih _ _ rest (hc.mono (fun x hx => nextField_rest_subset delim compress t
          (by rw [hr]; exact List.mem_cons_of_mem _ hx)))]

theorem entriesWith_clean (delim : Nat) (compress : Bool) (stack : Nat → List Nat)
    (hd : delim ≠ NUL) (t : List Nat) (hc : Clean delim stack t) :
    entriesWith delim compress stack t = entriesOf delim compress t :=
  entriesFromWith_clean delim compress stack hd _ _ _ t hc

theorem fieldsWith_clean (delim : Nat) (compress : Bool) (stack : Nat → List Nat)
    (hd : delim ≠ NUL) (t : List Nat) (hc : Clean delim stack t) :
    fieldsWith delim compress stack t = fieldsOf delim compress t := by
  rw [← entriesWith_snd, ← entriesOf_snd, entriesWith_clean delim compress stack hd t hc]

/-- Unfolding of `fieldsOf`: the last field. -/
theorem fieldsOf_last (delim : Nat) (compress : Bool) (t : List Nat)
    (h : (nextField delim compress t).2 = []) :
    fieldsOf delim compress t = [(nextField delim compress t).1] :=
  fieldsFrom_succ_nil _ _ _ _ h

/-- Unfolding of `fieldsOf`: a field followed by a delimiter. -/
theorem fieldsOf_more (delim : Nat) (compress : Bool) (t : List Nat) (d : Nat) (rest : List Nat)
    (h : (nextField delim compress t).2 = d :: rest) :
    fieldsOf delim compress t = (nextField delim compress t).1 :: fieldsOf delim compress rest := by
  unfold fieldsOf
  rw [fieldsFrom_succ_cons _ _ _ _ _ _ h]
  rcases nextField_rest delim compress t with hr | ⟨rest', hr, hrl⟩
  · rw [hr] at h; cases h
  · rw [hr] at h
    cases h
    rw [fieldsFrom_fuel delim compress t.length (rest.length + 1) rest hrl (by omega)]

theorem Session.fields_of_entries (s : Session) (es : List (Nat × List Nat))
    (h : s.entries = some es) : s.fields = some (es.map Prod.snd) := by
  unfold Session.entries at h
  cases h1 : s.sline with
  | none => rw [h1] at h; cases h
  | some sl =>
    cases h2 : s.field with
    | none => rw [h1, h2] at h; cases h
    | some f =>
      rw [h1, h2] at h
      simp only at h
      have : s.fields = (List.range s.nfield).mapM (fun k => (fieldAt sl f k).map Prod.snd) := by
        unfold Session.fields
        apply mapM_option_congr
        intro k hk
        have hk' : k < s.nfield := by simpa using hk
        unfold Session.fieldText csvfield fieldAt
        rw [if_neg (by omega), h2]
        simp only [Int.toNat_ofNat]
        cases load f k with
        | none => rfl
        | some off =>
          show (s.text (Ptr.sline off)) = Option.map Prod.snd
            (if off < sl.length then Option.map (fun f => (off, f)) (cstr (List.drop off sl))
              else none)
          simp only [Session.text, h1]
          show (if off < sl.length then cstr (List.drop off sl) else none) = _
          by_cases hlt : off < sl.length
          · rw [if_pos hlt, if_pos hlt]
            cases cstr (List.drop off sl) <;> rfl
          · rw [if_neg hlt, if_neg hlt]; rfl
      rw [this, mapM_option_map]
      unfold fieldEntries at h
      rw [h]; rfl

/-- What `csvfield(k)` returns and designates, for `k` below `nfield`. -/
theorem Session.csvfield_of_entries (s : Session) (es : List (Nat × List Nat))
    (h : s.entries = some es) (k : Nat) (hk : k < s.nfield) :
    ∃ off str, es[k]? = some (off, str) ∧ csvfield s k = some (Ptr.sline off) ∧
      s.text (Ptr.sline off) = some str := by
  unfold Session.entries at h
  cases h1 : s.sline with
  | none => rw [h1] at h; cases h
  | some sl =>
    cases h2 : s.field with
    | none => rw [h1, h2] at h; cases h
    | some f =>
      rw [h1, h2] at h
      simp only at h
      have hl := fieldEntries_length sl f _ es h
      have hg := fieldEntries_get sl f _ es h k hk
      obtain ⟨⟨off, str⟩, he⟩ : ∃ x, es[k]? = some x :=
        ⟨es[k], List.getElem?_eq_getElem (by omega)⟩
      rw [he] at hg
      refine ⟨off, str, he, ?_, ?_⟩
      · unfold csvfield
        rw [if_neg (by omega), h2]
        simp only [Int.toNat_ofNat]
        unfold fieldAt at hg
        cases hlo : load f k with
        | none => rw [hlo] at hg; cases hg
        | some o =>
          rw [hlo] at hg
          replace hg : (if o < sl.length then
            Option.map (fun f => (o, f)) (cstr (List.drop o sl)) else none) = some (off, str) := hg
          split at hg
          · cases hc : cstr (List.drop o sl) with
            | none => rw [hc] at hg; cases hg
            | some u => rw [hc] at hg; cases hg; rfl
          · cases hg
      · unfold fieldAt at hg
        cases hlo : load f k with
        | none => rw [hlo] at hg; cases hg
        | some o =>
          rw [hlo] at hg
          replace hg : (if o < sl.length then
            Option.map (fun f => (o, f)) (cstr (List.drop o sl)) else none) = some (off, str) := hg
          split at hg
          · rename_i hlt
            cases hc : cstr (List.drop o sl) with
            | none => rw [hc] at hg; cases hg
            | some u =>
              rw [hc] at hg
              cases hg
              simp [Session.text, h1, hlt, hc]
          · cases hg

theorem Session.Holds.unpack {s : Session} {t : List Nat} (hs : s.Holds t) :
    ∃ line sline field lpost, s.line = some line ∧ s.sline = some sline ∧
      s.field = some field ∧ line = t ++ NUL :: lpost ∧ NUL ∉ t ∧
      line.length = s.maxline ∧ sline.length = s.maxline ∧ field.length = s.maxfield ∧
      1 ≤ s.maxfield ∧ s.nfield ≤ s.maxfield := by
  obtain ⟨hv, ht⟩ := hs
  unfold Session.Valid at hv
  cases hl : s.line with
  | none => rw [hl] at ht; cases ht
  | some line =>
    rw [hl] at hv ht
    cases hsl : s.sline with
    | none => rw [hsl] at hv; cases hf : s.field <;> rw [hf] at hv <;> exact hv.elim
    | some sline =>
      cases hf : s.field with
      | none => rw [hsl, hf] at hv; exact hv.elim
      | some field =>
        rw [hsl, hf] at hv
        simp only at hv
        obtain ⟨v1, v2, v3, v4, v5, v6⟩ := hv
        have ht' : cstr line = some t := by simpa using ht
        obtain ⟨lpost, hlp⟩ := cstr_decompose line t ht'
        exact ⟨line, sline, field, lpost, rfl, rfl, rfl, hlp, cstr_nul_free line t ht',
          v1, v2, v3, v5, v6⟩

/-- `split` on an empty record: no field, nothing but `nfield` changes. -/
theorem split_empty (h : Heap) (s : Session) (hs : s.Holds []) (delim : Nat) (compress : Bool)
    (stack : Nat → List Nat) :
    split h s delim compress stack = some (0, h, { s with nfield := 0 }) := by
  obtain ⟨line, sline, field, lpost, h1, h2, h3, h4, -⟩ := hs.unpack
  unfold split
  rw [h1, h2, h3]
  simp only
  subst h4
  simp [load]

/-- `split` on a non-empty record `t` with an allocator that never refuses: it returns the
number of fields, the entries read back are `entriesWith delim compress stack t`, and `line`,
`maxline` are untouched. -/
theorem split_spec (h : Heap) (hh : h.Unlimited) (s : Session) (t : List Nat) (hs : s.Holds t)
    (hne : t ≠ []) (delim : Nat) (hd : delim ≠ NUL) (compress : Bool)
    (stack : Nat → List Nat) :
    ∃ s' : Session, split h s delim compress stack =
        some ((((fieldsWith delim compress stack t).length : Nat) : Int), h, s') ∧
      s'.entries = some (entriesWith delim compress stack t) ∧
      s'.fields = some (fieldsWith delim compress stack t) ∧
      s'.nfield = (fieldsWith delim compress stack t).length ∧
      s'.line = s.line ∧ s'.maxline = s.maxline ∧ s'.Holds t := by
  obtain ⟨line, sline, field, lpost, h1, h2, h3, h4, h5, h6, h7, h8, h9, h10⟩ := hs.unpack
  obtain ⟨c, cs, rfl⟩ : ∃ c cs, t = c :: cs := by
    cases t with
    | nil => exact (hne rfl).elim
    | cons c cs => exact ⟨c, cs, rfl⟩
  have hc : c ≠ NUL := fun h' => h5 (by simp [h'])
  have hcst : cstr line = some (c :: cs) := by rw [h4]; exact cstr_append _ _ h5
  have hlen : (c :: cs).length + 1 ≤ sline.length := by
    rw [h7, ← h6, h4]; simp
  have hcpy : strcpy sline line =
      some ([] ++ ((c :: cs) ++ NUL :: sline.drop ((c :: cs).length + 1))) := by
    unfold strcpy; rw [hcst]; simp only; rw [if_pos hlen]; rfl
  obtain ⟨o, ho, o1, o2, o3, o4, o5, o6, o7⟩ := splitLoop_spec delim compress stack hd h hh
    (sline.drop ((c :: cs).length + 1))
    (([] ++ ((c :: cs) ++ NUL :: sline.drop ((c :: cs).length + 1))).length + 1)
    (c :: cs) [] field s.maxfield 0 [] h5 (by simp; omega) h8 (by omega) h9
    (fun x => fieldEntries_zero _ _)
  have ol := splitLoop_length _ _ _ _ _ _ _ _ _ _ _ ho
  rw [show ([] : List Nat).length = 0 from rfl] at ho o1 o3 o4
  rw [entriesFromWith_fuel _ _ _ _ ((c :: cs).length + 1) _ _ _ (by simp; omega) (by omega)]
    at o1 o3 o4
  simp only [List.nil_append, Nat.zero_add] at o1 o3 o4
  have hlenE : (entriesFromWith delim compress stack ((c :: cs).length + 1) 0 0 (c :: cs)).length =
      (fieldsWith delim compress stack (c :: cs)).length := by
    rw [← entriesWith_snd, List.length_map]; rfl
  rw [hlenE] at o1 o3
  have hent : (⟨s.line, some o.sline, s.maxline, some o.field, o.maxfield, o.nfield⟩ :
      Session).entries = some (entriesWith delim compress stack (c :: cs)) := o4
  refine ⟨⟨s.line, some o.sline, s.maxline, some o.field, o.maxfield, o.nfield⟩,
    ?_, hent, ?_, o3, rfl, rfl, ?_⟩
  · unfold split
    rw [h1, h2, h3]
    simp only
    have hl0 : load line 0 = some c := by rw [h4]; simp [load]
    rw [hl0]
    simp only [hc, if_false, hcpy]
    rw [ho]
    simp only [o1, o2, h1]
  · rw [Session.fields_of_entries _ _ hent, entriesWith_snd]
  · refine ⟨?_, ?_⟩
    · unfold Session.Valid
      simp only [h1]
      refine ⟨h6, ?_, o5, ?_, by omega, o6⟩
      · rw [ol, ← h7]
        simp
        have := hlen
        simp at this
        omega
      · rw [← h6, h4]; simp
    · simp only [h1]
      simpa using hcst

/-- `split` on a non-empty record `t` none of whose bytes is in a reject string, except
`delim`: the fields are those of the scan for `delim` alone. -/
theorem split_spec_clean (h : Heap) (hh : h.Unlimited) (s : Session) (t : List Nat)
    (hs : s.Holds t) (hne : t ≠ []) (delim : Nat) (hd : delim ≠ NUL) (compress : Bool)
    (stack : Nat → List Nat) (hc : Clean delim stack t) :
    ∃ s' : Session, split h s delim compress stack =
        some ((((fieldsOf delim compress t).length : Nat) : Int), h, s') ∧
      s'.entries = some (entriesOf delim compress t) ∧
      s'.fields = some (fieldsOf delim compress t) ∧
      s'.nfield = (fieldsOf delim compress t).length ∧
      s'.line = s.line ∧ s'.maxline = s.maxline ∧ s'.Holds t := by
  have := split_spec h hh s t hs hne delim hd compress stack
  rw [fieldsWith_clean delim compress stack hd t hc,
    entriesWith_clean delim compress stack hd t hc] at this
  exact this

/-! ## Facts about the reference functions -/

theorem takeWhile_ne_eq_self (delim : Nat) (t : List Nat) (h : delim ∉ t) :
    t.takeWhile (· != delim) = t := by
  rw [List.takeWhile_eq_self_iff]
  intro x hx
  simp only [bne_iff_ne, ne_eq]
  intro he; exact h (he ▸ hx)

theorem dropWhile_ne_eq_nil (delim : Nat) (t : List Nat) (h : delim ∉ t) :
    t.dropWhile (· != delim) = [] := by
  rw [List.dropWhile_eq_nil_iff]
  intro x hx
  simp only [bne_iff_ne, ne_eq]
  intro he; exact h (he ▸ hx)

theorem takeWhile_ne_not_mem (delim : Nat) (t : List Nat) : delim ∉ t.takeWhile (· != delim) := by
  intro h
  have := List.mem_takeWhile_imp h
  simp at this

/-- What `quotedField` makes of an escaped string, its closing quote and the text after it. -/
theorem quotedField_escape (delim : Nat) (s tail : List Nat) (ht : tail.head? ≠ some QUOTE) :
    quotedField delim (escape s ++ QUOTE :: tail) =
      (s ++ tail.takeWhile (· != delim), tail.dropWhile (· != delim)) := by
  induction s with
  | nil =>
    cases tail with
    | nil => simp [escape, quotedField_quote_nil]
    | cons d ds =>
      have hd : d ≠ QUOTE := fun h => ht (by simp [h])
      simp [escape, quotedField_quote_other delim d ds hd]
  | cons c cs ih =>
    by_cases hc : c = QUOTE
    · subst hc
      have : escape (QUOTE :: cs) ++ QUOTE :: tail =
          QUOTE :: QUOTE :: (escape cs ++ QUOTE :: tail) := by
        simp [escape]
      rw [this, quotedField_quote_quote]
      unfold escape at ih
      simp [escape, ih]
    · have : escape (c :: cs) ++ QUOTE :: tail = c :: (escape cs ++ QUOTE :: tail) := by
        simp [escape, hc]
      rw [this, quotedField_other delim c _ hc, ih]
      simp

theorem escape_of_not_mem (s : List Nat) (h : QUOTE ∉ s) : escape s = s := by
  induction s with
  | nil => rfl
  | cons c cs ih =>
    have hc : c ≠ QUOTE := fun h' => h (by simp [h'])
    have hcs : QUOTE ∉ cs := fun h' => h (by simp [h'])
    have := ih hcs
    unfold escape at this ⊢
    simp [hc, this]

theorem skipped_quote (delim : Nat) (compress : Bool) (hq : delim ≠ QUOTE) (t : List Nat) :
    skipped delim compress (QUOTE :: t) = QUOTE :: t := by
  unfold skipped
  split
  · simp [List.dropWhile_cons, Ne.symm hq]
  · rfl

theorem nextField_quote (delim : Nat) (compress : Bool) (hq : delim ≠ QUOTE) (t : List Nat) :
    nextField delim compress (QUOTE :: t) = quotedField delim t := by
  unfold nextField
  rw [skipped_quote delim compress hq]
  simp

/-- The fields of a text that starts with a quoted field followed by a delimiter. -/
theorem fieldsOf_quote_more (delim : Nat) (compress : Bool) (hq : delim ≠ QUOTE)
    (s u rest : List Nat) (hu : delim ∉ u) (hu2 : u.head? ≠ some QUOTE) :
    fieldsOf delim compress (QUOTE :: (escape s ++ QUOTE :: (u ++ delim :: rest))) =
      (s ++ u) :: fieldsOf delim compress rest := by
  have h1 : (u ++ delim :: rest).takeWhile (· != delim) = u := by
    rw [List.takeWhile_append_of_pos]
    · simp
    · intro x hx; simp only [bne_iff_ne, ne_eq]; intro he; exact hu (he ▸ hx)
  have h2 : (u ++ delim :: rest).dropWhile (· != delim) = delim :: rest := by
    rw [List.dropWhile_append_of_pos]
    · simp
    · intro x hx; simp only [bne_iff_ne, ne_eq]; intro he; exact hu (he ▸ hx)
  have h3 : (u ++ delim :: rest).head? ≠ some QUOTE := by
    cases u with
    | nil => simp; exact hq
    | cons a as => simpa using hu2
  have hn : nextField delim compress (QUOTE :: (escape s ++ QUOTE :: (u ++ delim :: rest))) =
      (s ++ u, delim :: rest) := by
    rw [nextField_quote delim compress hq, quotedField_escape delim s _ h3, h1, h2]
  rw [fieldsOf_more delim compress _ delim rest (by rw [hn]), hn]

/-- The fields of a text that is one quoted field. -/
theorem fieldsOf_quote_last (delim : Nat) (compress : Bool) (hq : delim ≠ QUOTE)
    (s u : List Nat) (hu : delim ∉ u) (hu2 : u.head? ≠ some QUOTE) :
    fieldsOf delim compress (QUOTE :: (escape s ++ QUOTE :: u)) = [s ++ u] := by
  have hn : nextField delim compress (QUOTE :: (escape s ++ QUOTE :: u)) = (s ++ u, []) := by
    rw [nextField_quote delim compress hq, quotedField_escape delim s _ hu2,
      takeWhile_ne_eq_self delim u hu, dropWhile_ne_eq_nil delim u hu]
  rw [fieldsOf_last delim compress _ (by rw [hn]), hn]

theorem nextField_plain (delim : Nat) (c : Nat) (cs : List Nat) (hc : c ≠ QUOTE) :
    nextField delim false (c :: cs) =
      ((c :: cs).takeWhile (· != delim), (c :: cs).dropWhile (· != delim)) := by
  simp [nextField, skipped, hc]

theorem nextField_nil (delim : Nat) (compress : Bool) : nextField delim compress [] = ([], []) := by
  unfold nextField skipped; cases compress <;> simp

theorem splitOn_first (delim : Nat) (xs rest : List Nat) (h : delim ∉ xs) :
    (xs ++ delim :: rest).splitOn delim = xs :: rest.splitOn delim := by
  unfold List.splitOn
  exact List.splitOnP_first _ _ (by intro x hx; simp; intro he; exact h (he ▸ hx)) delim (by simp) rest

theorem splitOn_single (delim : Nat) (xs : List Nat) (h : delim ∉ xs) :
    xs.splitOn delim = [xs] := by
  unfold List.splitOn
  exact List.splitOnP_eq_single _ _ (by intro x hx; simp; intro he; exact h (he ▸ hx))

/-- Without compression the fields of a quote-free text are its pieces between delimiters. -/
theorem fieldsOf_plain (delim : Nat) : ∀ (n : Nat) (t : List Nat), t.length ≤ n → QUOTE ∉ t →
    fieldsOf delim false t = t.splitOn delim ∧
      (fieldsOf delim false t).length = t.count delim + 1 ∧
      ∀ f ∈ fieldsOf delim false t, delim ∉ f := by
  intro n
  induction n with
  | zero =>
    intro t hl _
    have : t = [] := List.length_eq_zero.mp (Nat.le_zero.mp hl)
    subst this
    rw [fieldsOf_last delim false [] (by rw [nextField_nil]), nextField_nil]
    simp [List.splitOn_nil]
  | succ n ih =>
    intro t hl hq
    cases t with
    | nil =>
      rw [fieldsOf_last delim false [] (by rw [nextField_nil]), nextField_nil]
      simp [List.splitOn_nil]
    | cons c cs =>
      have hc : c ≠ QUOTE := fun h' => hq (by simp [h'])
      have hn := nextField_plain delim c cs hc
      have hsplit := List.takeWhile_append_dropWhile (· != delim) (c :: cs)
      rcases dropWhile_ne_head delim (c :: cs) with hr | ⟨rest, hr, hrl⟩
      · have hnot : delim ∉ c :: cs := by
          intro hm
          rw [← hsplit, hr, List.append_nil] at hm
          exact takeWhile_ne_not_mem delim _ hm
        rw [fieldsOf_last delim false _ (by rw [hn]; exact hr), hn,
          takeWhile_ne_eq_self delim _ hnot, splitOn_single delim _ hnot]
        refine ⟨rfl, by simp [List.count_eq_zero_of_not_mem hnot], ?_⟩
        intro f hf
        rw [List.mem_singleton.mp hf]
        exact hnot
      · have hrq : QUOTE ∉ rest := by
          intro hm
          apply hq
          rw [← hsplit, hr]
          exact List.mem_append_right _ (List.mem_cons_of_mem _ hm)
        obtain ⟨ih1, ih2, ih3⟩ := ih rest (by simp at hl hrl; omega) hrq
        rw [fieldsOf_more delim false _ delim rest (by rw [hn]; exact hr), hn]
        simp only
        refine ⟨?_, ?_, ?_⟩
        · rw [ih1]
          conv_rhs => rw [← hsplit, hr]
          rw [splitOn_first delim _ rest (takeWhile_ne_not_mem delim _)]
        · rw [List.length_cons, ih2]
          conv_rhs => rw [← hsplit, hr]
          rw [List.count_append, List.count_cons_self,
            List.count_eq_zero_of_not_mem (takeWhile_ne_not_mem delim _)]
          omega
        · intro f hf
          rcases List.mem_cons.mp hf with rfl | hf'
          · exact takeWhile_ne_not_mem delim _
          · exact ih3 f hf'

theorem nextField_compress (delim : Nat) (t : List Nat) (c : Nat) (cs : List Nat)
    (h : t.dropWhile (· == delim) = c :: cs) (hc : c ≠ QUOTE) :
    nextField delim true t =
      ((c :: cs).takeWhile (· != delim), (c :: cs).dropWhile (· != delim)) := by
  simp [nextField, skipped, h, hc]

theorem splitOn_skip (delim : Nat) (S u : List Nat) (hS : ∀ x ∈ S, x = delim) :
    ((S ++ u).splitOn delim).filter (· ≠ []) = (u.splitOn delim).filter (· ≠ []) := by
  induction S with
  | nil => rfl
  | cons a as ih =>
    have ha : a = delim := hS a (by simp)
    subst ha
    have := splitOn_first a [] (as ++ u) (by simp)
    simp only [List.nil_append] at this
    rw [List.cons_append, this, List.filter_cons_of_neg (by simp)]
    exact ih (fun x hx => hS x (by simp [hx]))

theorem getLast?_all_eq (delim : Nat) (t : List Nat) (hne : t ≠ []) (h : ∀ x ∈ t, x = delim) :
    t.getLast? = some delim := by
  rw [List.getLast?_eq_getLast _ hne, h _ (List.getLast_mem hne)]

/-- With compression the fields of a quote-free text that does not end with the delimiter are
its non-empty pieces between delimiters. -/
theorem fieldsOf_compress (delim : Nat) : ∀ (n : Nat) (t : List Nat), t.length ≤ n → t ≠ [] →
    QUOTE ∉ t → t.getLast? ≠ some delim →
    fieldsOf delim true t = (t.splitOn delim).filter (· ≠ []) := by
  intro n
  induction n with
  | zero =>
    intro t hl hne
    exact (hne (List.length_eq_zero.mp (Nat.le_zero.mp hl))).elim
  | succ n ih =>
    intro t hl hne hq hlast
    have hS := List.takeWhile_append_dropWhile (· == delim) t
    have hSall : ∀ x ∈ t.takeWhile (· == delim), x = delim := by
      intro x hx
      simpa using List.mem_takeWhile_imp hx
    cases h1 : t.dropWhile (· == delim) with
    | nil =>
      exfalso
      apply hlast
      apply getLast?_all_eq delim t hne
      rw [h1, List.append_nil] at hS
      rw [← hS]; exact hSall
    | cons c cs =>
      have hsub : ∀ x ∈ c :: cs, x ∈ t := by
        intro x hx; rw [← hS, h1]; exact List.mem_append_right _ hx
      have hcq : c ≠ QUOTE := fun h' => hq (h' ▸ hsub c (by simp))
      have hcd : c ≠ delim := by
        have := List.head_dropWhile_not (· == delim) t (by rw [h1]; simp)
        simp only [h1, List.head_cons] at this
        simpa using this
      have hn := nextField_compress delim t c cs h1 hcq
      have hsplit := List.takeWhile_append_dropWhile (· != delim) (c :: cs)
      have hT : (c :: cs).takeWhile (· != delim) ≠ [] := by
        simp [List.takeWhile_cons, hcd]
      have hrhs : (t.splitOn delim).filter (· ≠ []) =
          ((c :: cs).splitOn delim).filter (· ≠ []) := by
        conv_lhs => rw [← hS, h1]
        exact splitOn_skip delim _ _ hSall
      rw [hrhs]
      rcases dropWhile_ne_head delim (c :: cs) with hr | ⟨rest, hr, hrl⟩
      · have hnot : delim ∉ c :: cs := by
          intro hm
          rw [← hsplit, hr, List.append_nil] at hm
          exact takeWhile_ne_not_mem delim _ hm
        rw [fieldsOf_last delim true _ (by rw [hn]; exact hr), hn,
          takeWhile_ne_eq_self delim _ hnot, splitOn_single delim _ hnot]
        simp
      · have ht : t = (t.takeWhile (· == delim) ++ (c :: cs).takeWhile (· != delim) ++ [delim])
            ++ rest := by
          conv_lhs => rw [← hS, h1, ← hsplit, hr]
          simp
        have hrne : rest ≠ [] := by
          intro h'
          apply hlast
          rw [ht, h', List.append_nil, List.getLast?_append]
          simp
        have hrlast : rest.getLast? ≠ some delim := by
          intro h'
          apply hlast
          rw [ht, List.getLast?_append_of_ne_nil _ hrne]
          exact h'
        have hrq : QUOTE ∉ rest := by
          intro hm
          apply hq
          rw [ht]
          exact List.mem_append_right _ hm
        have hrlen : rest.length ≤ n := by
          have := congrArg List.length ht
          simp at this
          omega
        rw [fieldsOf_more delim true _ delim rest (by rw [hn]; exact hr), hn,
          ih rest hrlen hrne hrq hrlast]
        conv_rhs => rw [← hsplit, hr]
        rw [splitOn_first delim _ rest (takeWhile_ne_not_mem delim _),
          List.filter_cons_of_pos (by simpa using hT)]

theorem quotedField_rest_suffix (delim : Nat) (R : List Nat) :
    ∃ U, R = U ++ (quotedField delim R).2 := by
  induction R using quotedField.induct delim with
  | case1 => exact ⟨[], rfl⟩
  | case2 => exact ⟨[QUOTE], by simp [quotedField_quote_nil]⟩
  | case3 ds ih =>
    obtain ⟨U, hU⟩ := ih
    refine ⟨QUOTE :: QUOTE :: U, ?_⟩
    rw [quotedField_quote_quote]
    simpa using hU
  | case4 d ds hd =>
    rw [quotedField_quote_other delim d ds hd]
    refine ⟨QUOTE :: (d :: ds).takeWhile (· != delim), ?_⟩
    simp only [List.cons_append]
    rw [List.takeWhile_append_dropWhile]
  | case5 c cs hc ih =>
    obtain ⟨U, hU⟩ := ih
    refine ⟨c :: U, ?_⟩
    rw [quotedField_other delim c cs hc]
    simpa using hU

theorem nextField_rest_suffix (delim : Nat) (compress : Bool) (t : List Nat) :
    ∃ U, t = U ++ (nextField delim compress t).2 := by
  obtain ⟨S, hS⟩ : ∃ S, t = S ++ skipped delim compress t := by
    unfold skipped
    split
    · exact ⟨_, (List.takeWhile_append_dropWhile _ _).symm⟩
    · exact ⟨[], rfl⟩
  unfold nextField
  split
  · exact ⟨t, by simp⟩
  · rename_i c cs heq
    rw [heq] at hS
    split
    · obtain ⟨U, hU⟩ := quotedField_rest_suffix delim cs
      refine ⟨S ++ c :: U, ?_⟩
      rw [List.append_assoc, List.cons_append, ← hU]
      exact hS
    · refine ⟨S ++ (c :: cs).takeWhile (· != delim), ?_⟩
      rw [List.append_assoc, List.takeWhile_append_dropWhile]
      exact hS

/-- With compression, an entry whose string is empty and whose start does not follow a quote
character is the last one, and then the text ends with the delimiter. -/
theorem entriesFrom_empty (delim : Nat) : ∀ (fuel : Nat)
    (pre t : List Nat), t.length < fuel → (pre = [] ∨ pre.getLast? = some delim) →
    pre ++ t ≠ [] → ∀ (k off : Nat),
    (entriesFrom delim true fuel pre.length t)[k]? = some (off, []) →
    (off = 0 ∨ (pre ++ t)[off - 1]? ≠ some QUOTE) →
    k + 1 = (entriesFrom delim true fuel pre.length t).length ∧
      (pre ++ t).getLast? = some delim := by
  intro fuel
  induction fuel with
  | zero => intro pre t h; omega
  | succ fuel ih =>
    intro pre t hfuel hpre hne k off hk hoff
    have hS := List.takeWhile_append_dropWhile (· == delim) t
    have hSall : ∀ x ∈ t.takeWhile (· == delim), x = delim := by
      intro x hx
      simpa using List.mem_takeWhile_imp hx
    have hsk : skipped delim true t = t.dropWhile (· == delim) := by simp [skipped]
    have hSlen : t.length - (t.dropWhile (· == delim)).length =
        (t.takeWhile (· == delim)).length := by
      have := congrArg List.length hS
      rw [List.length_append] at this
      omega
    -- the entries after the first one
    have htail : ∀ (k' : Nat) (rest : List Nat), (nextField delim true t).2 = delim :: rest →
        rest.length < t.length →
        (entriesFrom delim true fuel (pre.length + (t.length - rest.length)) rest)[k']? =
          some (off, []) →
        k' + 1 = (entriesFrom delim true fuel (pre.length + (t.length - rest.length)) rest).length
          ∧ (pre ++ t).getLast? = some delim := by
      intro k' rest hr hrl hk'
      obtain ⟨U, hU⟩ := nextField_rest_suffix delim true t
      rw [hr] at hU
      have hlen : (pre ++ (U ++ [delim])).length = pre.length + (t.length - rest.length) := by
        have := congrArg List.length hU
        simp at this ⊢
        omega
      have hcat : (pre ++ (U ++ [delim])) ++ rest = pre ++ t := by
        conv_rhs => rw [hU]
        simp
      rw [← hlen] at hk' ⊢
      have := ih (pre ++ (U ++ [delim])) rest (by omega) (Or.inr (by simp [← List.append_assoc]))
        (by simp) k' off hk' (by rw [hcat]; exact hoff)
      rw [hcat] at this
      exact this
    cases h1 : t.dropWhile (· == delim) with
    | nil =>
      have hn : nextField delim true t = ([], []) := by simp [nextField, hsk, h1]
      rw [entriesFrom_succ_nil _ _ _ _ _ (by rw [hn])] at hk ⊢
      refine ⟨?_, ?_⟩
      · cases k with
        | zero => rfl
        | succ k => simp at hk
      · rw [h1, List.append_nil] at hS
        by_cases ht : t = []
        · subst ht
          rcases hpre with hp | hp
          · exact (hne (by simp [hp])).elim
          · simpa using hp
        · rw [List.getLast?_append_of_ne_nil _ ht]
          exact getLast?_all_eq delim t ht (by rw [← hS]; exact hSall)
    | cons c cs =>
      have ht : t = t.takeWhile (· == delim) ++ c :: cs := by rw [← h1, hS]
      have hcd : c ≠ delim := by
        have := List.head_dropWhile_not (· == delim) t (by rw [h1]; simp)
        simp only [h1, List.head_cons] at this
        simpa using this
      generalize hSd : t.takeWhile (· == delim) = S at hS hSall hSlen ht
      by_cases hc : c = QUOTE
      · -- a quoted field: its start follows the quote
        have hstart : fieldStart delim true t = S.length + 1 := by
          unfold fieldStart
          rw [hsk, hSlen, h1]
          simp [hc]
        have hk0 : ∀ x, (pre.length + fieldStart delim true t, x) ≠ (off, ([] : List Nat)) := by
          intro x hx
          have hoff' : off = pre.length + S.length + 1 := by
            have := congrArg Prod.fst hx
            simp only [hstart] at this
            omega
          rcases hoff with h0 | hne'
          · omega
          · apply hne'
            rw [hoff', ht, ← List.append_assoc]
            simp only [Nat.add_sub_cancel]
            rw [List.getElem?_append_right (by simp), hc]
            simp
        rcases nextField_rest delim true t with hr | ⟨rest, hr, hrl⟩
        · rw [entriesFrom_succ_nil _ _ _ _ _ hr] at hk
          cases k with
          | zero => simp at hk; exact (hk0 _ (by rw [Prod.mk.injEq]; exact hk)).elim
          | succ k => simp at hk
        · rw [entriesFrom_succ_cons _ _ _ _ _ _ _ hr] at hk ⊢
          cases k with
          | zero => simp at hk; exact (hk0 _ (by rw [Prod.mk.injEq]; exact hk)).elim
          | succ k =>
            simp only [List.getElem?_cons_succ] at hk
            obtain ⟨h2, h3⟩ := htail k rest hr hrl hk
            exact ⟨by simp [← h2], h3⟩
      · -- an unquoted field after the skip is not empty
        have hn := nextField_compress delim t c cs h1 hc
        have hT : (nextField delim true t).1 ≠ [] := by
          rw [hn]; simp [List.takeWhile_cons, hcd]
        rcases nextField_rest delim true t with hr | ⟨rest, hr, hrl⟩
        · rw [entriesFrom_succ_nil _ _ _ _ _ hr] at hk
          cases k with
          | zero =>
            simp at hk
            exact (hT hk.2).elim
          | succ k => simp at hk
        · rw [entriesFrom_succ_cons _ _ _ _ _ _ _ hr] at hk ⊢
          cases k with
          | zero =>
            simp at hk
            exact (hT hk.2).elim
          | succ k =>
            simp only [List.getElem?_cons_succ] at hk
            obtain ⟨h2, h3⟩ := htail k rest hr hrl hk
            exact ⟨by simp [← h2], h3⟩

/-! ## The reading loop and `csvgetline` -/

theorem cstr_takeWhile (rec post : List Nat) :
    cstr (rec ++ NUL :: post) = some (rec.takeWhile (· != NUL)) := by
  induction rec with
  | nil => simp [cstr]
  | cons c cs ih =>
    by_cases hc : c = NUL
    · simp [cstr, hc, List.takeWhile_cons]
    · simp [cstr, hc, ih, List.takeWhile_cons]

theorem endofline_plain (fin : List Nat) (c : Nat) (h1 : c ≠ CR) (h2 : c ≠ LF) :
    endofline fin (some c) = (false, fin) := by
  simp [endofline, h1, h2]

theorem endofline_eol (fin : List Nat) (c : Nat) (h : c = CR ∨ c = LF) :
    (endofline fin (some c)).1 = true := by
  unfold endofline
  have : (some c == some CR || some c == some LF) = true := by
    rcases h with h | h <;> simp [h]
  simp only [this]
  split
  · split
    · rfl
    · split <;> rfl
  · rfl

theorem take_succ_set : ∀ (L : List Nat) (i c : Nat), i < L.length →
    (L.set i c).take (i + 1) = L.take i ++ [c]
  | [], i, c, h => by simp at h
  | x :: xs, 0, c, _ => by simp
  | x :: xs, i + 1, c, h => by
    have := take_succ_set xs i c (by simpa using h)
    simp [this]

theorem intDouble_of_lt (m : Nat) (h : m * 2 < 2 ^ 31) : intDouble m = (m : Int) * 2 := by
  unfold intDouble
  have h' : m * 2 < 2147483648 := by simpa using h
  norm_num
  omega

theorem intDouble_of_ge (m : Nat) (h : 2 ^ 31 ≤ m * 2) : intDouble m ≠ (m : Int) * 2 := by
  unfold intDouble
  have h' : 2147483648 ≤ m * 2 := by simpa using h
  norm_num
  omega

/-- The reading loop on a stream that starts with the terminator-free bytes `rec`, with an
allocator that never refuses.  Either it stores `rec` from index `i` on, grows the blocks
together and stops after the terminator; or a doubling of `maxline` wrapped, which takes a
record of `2^30` bytes or more, and the loop stops on the failed `realloc`. -/
theorem readLoop_total (h : Heap) (hh : h.Unlimited) (tail : List Nat)
    (htail : ∀ c, tail.head? = some c → c = CR ∨ c = LF) : ∀ (rec : List Nat) (fuel : Nat)
    (line sline : List Nat) (maxline i : Nat),
    (∀ c ∈ rec, c ≠ CR ∧ c ≠ LF) → rec.length < fuel →
    line.length = maxline → sline.length = maxline → i < maxline →
    (∃ line' sline' maxline', readLoop fuel h (rec ++ tail) line sline maxline i =
        some (ReadOut.done h (afterTerminator tail) line' sline' maxline' tail.head?
          (i + rec.length)) ∧
      line'.length = maxline' ∧ sline'.length = maxline' ∧ i + rec.length < maxline' ∧
      line'.take (i + rec.length) = line.take i ++ rec ∧ maxline ≤ maxline' ∧
      (maxline' = maxline ∨ maxline' < 2 ^ 31) ∧ ∃ k, maxline' = maxline * 2 ^ k) ∨
    (∃ fin', readLoop fuel h (rec ++ tail) line sline maxline i = some (ReadOut.nomem h fin') ∧
      2 ^ 30 ≤ i + rec.length) := by
  intro rec
  induction rec with
  | nil =>
    intro fuel line sline maxline i _ hf hl hsl hi
    obtain ⟨fuel, rfl⟩ : ∃ f, fuel = f + 1 := ⟨fuel - 1, by simp at hf; omega⟩
    left
    refine ⟨line, sline, maxline, ?_, hl, hsl, by simpa using hi, by simp, le_rfl, Or.inl rfl,
      0, by simp⟩
    cases tail with
    | nil => simp [readLoop, getc, afterTerminator]
    | cons c rest =>
      have he := endofline_eol rest c (htail c rfl)
      rw [List.nil_append, readLoop]
      simp only [getc]
      cases hr : endofline rest (some c) with
      | mk b fin2 =>
        rw [hr] at he
        simp only at he
        subst he
        simp [afterTerminator, hr]
  | cons c cs ih =>
    intro fuel line sline maxline i hrec hf hl hsl hi
    obtain ⟨fuel, rfl⟩ : ∃ f, fuel = f + 1 := ⟨fuel - 1, by simp at hf; omega⟩
    obtain ⟨hc1, hc2⟩ := hrec c (by simp)
    have hcs : ∀ x ∈ cs, x ≠ CR ∧ x ≠ LF := fun x hx => hrec x (by simp [hx])
    rw [List.cons_append, readLoop]
    simp only [getc, endofline_plain _ c hc1 hc2]
    by_cases hg : i + 1 ≥ maxline
    · rw [if_pos hg]
      by_cases hw : maxline * 2 < 2 ^ 31
      · rw [if_pos (intDouble_of_lt maxline hw),
          realloc_unlimited h hh line (maxline * 2) (by omega)]
        simp only
        rw [realloc_unlimited h hh sline (maxline * 2) (by omega)]
        simp only
        have hst : store (line ++ List.replicate (maxline * 2 - line.length) h.fill) i c =
            some ((line ++ List.replicate (maxline * 2 - line.length) h.fill).set i c) := by
          unfold store; rw [if_pos (by simp; omega)]
        rw [hst]
        simp only
        rcases ih fuel
          ((line ++ List.replicate (maxline * 2 - line.length) h.fill).set i c)
          (sline ++ List.replicate (maxline * 2 - sline.length) h.fill) (maxline * 2) (i + 1)
          hcs (by simp at hf; omega) (by simp; omega) (by simp; omega) (by omega) with
          ⟨line', sline', maxline', h1, h2, h3, h4, h5, h6, h7, k, h8⟩ | ⟨fin', h1, h2⟩
        · left
          refine ⟨line', sline', maxline', ?_, h2, h3, by simp; omega, ?_, by omega,
            Or.inr (by omega), k + 1, by rw [h8, pow_succ]; ring⟩
          · rw [h1]; simp [Nat.add_assoc, Nat.add_comm 1]
          · have : i + (c :: cs).length = i + 1 + cs.length := by simp; omega
            rw [this, h5, take_succ_set _ _ _ (by simp; omega),
              List.take_append_of_le_length (by omega)]
            simp
        · right
          exact ⟨fin', h1, by simp; omega⟩
      · rw [if_neg (intDouble_of_ge maxline (by omega))]
        right
        refine ⟨_, rfl, ?_⟩
        simp only [List.length_cons]
        have : (2:Nat) ^ 31 = 2 * 2 ^ 30 := by norm_num
        omega
    · rw [if_neg hg]
      have hst : store line i c = some (line.set i c) := by
        unfold store; rw [if_pos (by omega)]
      rw [hst]
      simp only
      rcases ih fuel (line.set i c) sline maxline (i + 1)
        hcs (by simp at hf; omega) (by simp; omega) hsl (by omega) with
        ⟨line', sline', maxline', h1, h2, h3, h4, h5, h6, h7, h8⟩ | ⟨fin', h1, h2⟩
      · left
        refine ⟨line', sline', maxline', ?_, h2, h3, by simp; omega, ?_, by omega, h7, h8⟩
        · rw [h1]; simp [Nat.add_assoc, Nat.add_comm 1]
        · have : i + (c :: cs).length = i + 1 + cs.length := by simp; omega
          rw [this, h5, take_succ_set _ _ _ (by omega)]
          simp
      · right
        exact ⟨fin', h1, by simp; omega⟩

/-- The reading loop on a record shorter than `2^30` bytes: it stores `rec` from index `i` on,
grows the blocks together and stops after the terminator. -/
theorem readLoop_spec (h : Heap) (hh : h.Unlimited) (tail : List Nat)
    (htail : ∀ c, tail.head? = some c → c = CR ∨ c = LF) (rec : List Nat) (fuel : Nat)
    (line sline : List Nat) (maxline i : Nat)
    (hrec : ∀ c ∈ rec, c ≠ CR ∧ c ≠ LF) (hf : rec.length < fuel)
    (hl : line.length = maxline) (hsl : sline.length = maxline) (hi : i < maxline)
    (hlen : i + rec.length < 2 ^ 30) :
    ∃ line' sline' maxline', readLoop fuel h (rec ++ tail) line sline maxline i =
        some (ReadOut.done h (afterTerminator tail) line' sline' maxline' tail.head?
          (i + rec.length)) ∧
      line'.length = maxline' ∧ sline'.length = maxline' ∧ i + rec.length < maxline' ∧
      line'.take (i + rec.length) = line.take i ++ rec ∧ maxline ≤ maxline' := by
  rcases readLoop_total h hh tail htail rec fuel line sline maxline i hrec hf hl hsl hi with
    ⟨line', sline', maxline', h1, h2, h3, h4, h5, h6, -⟩ | ⟨fin', -, h2⟩
  · exact ⟨line', sline', maxline', h1, h2, h3, h4, h5, h6⟩
  · omega

theorem firstAlloc_spec (h : Heap) (hh : h.Unlimited) (s : Session) (hv : s.Valid) :
    ∃ s1 line sline field, firstAlloc h s = (some s1, h) ∧ s1.line = some line ∧
      s1.sline = some sline ∧ s1.field = some field ∧ line.length = s1.maxline ∧
      sline.length = s1.maxline ∧ field.length = s1.maxfield ∧ 1 ≤ s1.maxline ∧
      1 ≤ s1.maxfield ∧ s1.nfield ≤ s1.maxfield ∧ s.maxline ≤ s1.maxline ∧
      (s.line = none → s1.maxline = 1) ∧ (s.line ≠ none → s1 = s) := by
  unfold Session.Valid at hv
  unfold firstAlloc
  cases hl : s.line with
  | none =>
    rw [hl] at hv
    have hz : s.maxline = 0 ∧ s.maxfield = 0 ∧ s.nfield = 0 := by
      cases hsl : s.sline with
      | none =>
        cases hf : s.field with
        | none => rw [hsl, hf] at hv; exact hv
        | some f => rw [hsl, hf] at hv; exact hv.elim
      | some sl => rw [hsl] at hv; exact hv.elim
    simp only [if_true, malloc_unlimited h hh]
    exact ⟨_, [h.fill], [h.fill], [h.fill], rfl, rfl, rfl, rfl, rfl, rfl, rfl, le_rfl, le_rfl,
      by simp [hz.2.2], by simp [hz.1], fun _ => rfl, fun hne => (hne rfl).elim⟩
  | some line =>
    rw [hl] at hv
    cases hsl : s.sline with
    | none => rw [hsl] at hv; cases hf : s.field <;> rw [hf] at hv <;> exact hv.elim
    | some sline =>
      cases hf : s.field with
      | none => rw [hsl, hf] at hv; exact hv.elim
      | some field =>
        rw [hsl, hf] at hv
        simp only at hv
        obtain ⟨v1, v2, v3, v4, v5, v6⟩ := hv
        simp only [reduceCtorEq, if_false]
        exact ⟨s, line, sline, field, rfl, hl, hsl, hf, v1, v2, v3, v4, v5, v6, le_rfl,
          fun hc => False.elim hc, fun _ => rfl⟩

theorem set_eq_take_cons_drop (L : List Nat) (i v : Nat) (h : i < L.length) :
    L.set i v = L.take i ++ v :: L.drop (i + 1) := by
  induction L generalizing i with
  | nil => simp at h
  | cons x xs ih =>
    cases i with
    | zero => simp
    | succ i => simp [ih i (by simpa using h)]

/-- A call of `csvgetline` on a stream that starts with the terminator-free bytes `rec`
followed by a terminator or the end of the stream, with an allocator that never refuses.
Either the record is read and split, the record text being `rec` up to its first `NUL`; or a
doubling of `maxline` wrapped, which takes a record of `2^30` bytes or more, and the call
returns `NULL` with the session reset. -/
theorem csvgetline_cases (h : Heap) (hh : h.Unlimited) (s : Session) (hv : s.Valid)
    (rec tail : List Nat) (hrec : ∀ c ∈ rec, c ≠ CR ∧ c ≠ LF)
    (htail : ∀ c, tail.head? = some c → c = CR ∨ c = LF) (delim : Nat) (compress : Bool)
    (stack : Nat → List Nat) (hd : delim ≠ NUL ∨ rec.takeWhile (· != NUL) = []) :
    (∃ s' : Session, csvgetline h s (rec ++ tail) delim compress stack =
        some ⟨if tail = [] ∧ rec = [] then Ptr.null else Ptr.line 0, s',
          afterTerminator tail, h⟩ ∧
      s'.Holds (rec.takeWhile (· != NUL)) ∧
      (rec.takeWhile (· != NUL) = [] → s'.nfield = 0) ∧
      (rec.takeWhile (· != NUL) ≠ [] →
        s'.entries = some (entriesWith delim compress stack (rec.takeWhile (· != NUL))) ∧
        s'.fields = some (fieldsWith delim compress stack (rec.takeWhile (· != NUL))) ∧
        s'.nfield = (fieldsWith delim compress stack (rec.takeWhile (· != NUL))).length) ∧
      s.maxline ≤ s'.maxline ∧ rec.length < s'.maxline ∧
      (s.line = none → s'.maxline ≤ 2 ^ 30)) ∨
    (∃ fin', csvgetline h s (rec ++ tail) delim compress stack =
        some ⟨Ptr.null, Session.init, fin', h⟩ ∧ 2 ^ 30 ≤ rec.length) := by
  obtain ⟨s1, line, sline, field, a1, a2, a3, a4, a5, a6, a7, a8, a9, a10, a11, a12, -⟩ :=
    firstAlloc_spec h hh s hv
  rcases readLoop_total h hh tail htail rec
    ((rec ++ tail).length + 1) line sline s1.maxline 0 hrec (by simp; omega) a5 a6 (by omega)
    with ⟨line', sline', maxline', r1, r2, r3, r4, r5, r6, r7, k, r8⟩ | ⟨fin', r1, r2⟩
  swap
  · right
    refine ⟨fin', ?_, by simpa using r2⟩
    unfold csvgetline
    rw [a1]
    simp only [a2, a3, r1]
    rfl
  left
  simp only [Nat.zero_add, List.take_zero, List.nil_append] at r1 r4 r5
  have hfresh : s.line = none → maxline' ≤ 2 ^ 30 := by
    intro hn
    rw [a12 hn, Nat.one_mul] at r8
    rw [a12 hn] at r7
    rcases r7 with r7 | r7
    · rw [r7]; norm_num
    · by_contra hcon
      have hk : 31 ≤ k := by
        by_contra hk
        have : 2 ^ k ≤ 2 ^ 30 := Nat.pow_le_pow_right (by norm_num) (by omega)
        omega
      have : 2 ^ 31 ≤ 2 ^ k := Nat.pow_le_pow_right (by norm_num) hk
      omega
  have hst : store line' rec.length NUL = some (rec ++ NUL :: line'.drop (rec.length + 1)) := by
    unfold store
    rw [if_pos (by omega), set_eq_take_cons_drop _ _ _ (by omega), r5]
  have hcs : cstr (rec ++ NUL :: line'.drop (rec.length + 1)) =
      some (rec.takeWhile (· != NUL)) := cstr_takeWhile _ _
  have hl3 : (rec ++ NUL :: line'.drop (rec.length + 1)).length = maxline' := by
    rw [store_length _ _ _ _ hst, r2]
  -- the session handed to `split`
  have hholds : ∀ nf, nf ≤ s1.maxfield →
      (⟨some (rec ++ NUL :: line'.drop (rec.length + 1)), some sline', maxline', some field,
        s1.maxfield, nf⟩ : Session).Holds (rec.takeWhile (· != NUL)) := by
    intro nf hnf
    refine ⟨?_, ?_⟩
    · unfold Session.Valid
      exact ⟨hl3, r3, a7, by show 1 ≤ maxline'; omega, a9, hnf⟩
    · simpa using hcs
  have hs2 : (⟨some (rec ++ NUL :: line'.drop (rec.length + 1)), some sline', maxline',
      s1.field, s1.maxfield, s1.nfield⟩ : Session) =
      ⟨some (rec ++ NUL :: line'.drop (rec.length + 1)), some sline', maxline', some field,
        s1.maxfield, s1.nfield⟩ := by
    rw [← a4]
  have hnomem : ∀ n : Nat, ((n : Int) = NOMEM) = False := by
    intro n
    simp only [NOMEM, eq_iff_iff, iff_false]
    omega
  unfold csvgetline
  rw [a1]
  simp only [a2, a3, r1, hst, hs2]
  by_cases ht : rec.takeWhile (· != NUL) = []
  · have hsp := split_empty h _ (ht ▸ hholds s1.nfield a10) delim compress stack
    rw [hsp]
    have h0 : ((0 : Int) = NOMEM) = False := by simp [NOMEM]
    simp only [h0, if_false]
    refine ⟨_, ?_, hholds 0 (by omega), fun _ => rfl, fun hne => (hne ht).elim,
      (by show s.maxline ≤ maxline'; omega), r4, hfresh⟩
    congr 2
    cases tail <;> cases rec <;> simp
  · have hdn : delim ≠ NUL := by
      rcases hd with hd | hd
      · exact hd
      · exact (ht hd).elim
    obtain ⟨s', p1, p2, p3, p4, p5, p6, p7⟩ := split_spec h hh _ _ (hholds s1.nfield a10) ht delim
      hdn compress stack
    rw [p1]
    simp only [hnomem, if_false]
    refine ⟨s', ?_, p7, fun he => (ht he).elim, fun _ => ⟨p2, p3, p4⟩,
      (by rw [p6]; show s.maxline ≤ maxline'; omega), (by rw [p6]; exact r4),
      (by rw [p6]; exact hfresh)⟩
    congr 2
    cases tail <;> cases rec <;> simp

/-- A call of `csvgetline` on a record shorter than `2^30` bytes, with an allocator that never
refuses: the record is read and split.  The record text is `rec` up to its first `NUL`. -/
theorem csvgetline_spec (h : Heap) (hh : h.Unlimited) (s : Session) (hv : s.Valid)
    (rec tail : List Nat) (hrec : ∀ c ∈ rec, c ≠ CR ∧ c ≠ LF)
    (htail : ∀ c, tail.head? = some c → c = CR ∨ c = LF) (hlen : rec.length < 2 ^ 30)
    (delim : Nat) (compress : Bool) (stack : Nat → List Nat)
    (hd : delim ≠ NUL ∨ rec.takeWhile (· != NUL) = []) :
    ∃ s' : Session, csvgetline h s (rec ++ tail) delim compress stack =
        some ⟨if tail = [] ∧ rec = [] then Ptr.null else Ptr.line 0, s',
          afterTerminator tail, h⟩ ∧
      s'.Holds (rec.takeWhile (· != NUL)) ∧
      (rec.takeWhile (· != NUL) = [] → s'.nfield = 0) ∧
      (rec.takeWhile (· != NUL) ≠ [] →
        s'.entries = some (entriesWith delim compress stack (rec.takeWhile (· != NUL))) ∧
        s'.fields = some (fieldsWith delim compress stack (rec.takeWhile (· != NUL))) ∧
        s'.nfield = (fieldsWith delim compress stack (rec.takeWhile (· != NUL))).length) ∧
      s.maxline ≤ s'.maxline ∧ rec.length < s'.maxline := by
  rcases csvgetline_cases h hh s hv rec tail hrec htail delim compress stack hd with
    ⟨s', p1, p2, p3, p4, p5, p6, -⟩ | ⟨fin', -, p2⟩
  · exact ⟨s', p1, p2, p3, p4, p5, p6⟩
  · omega

/-- A record of `2^30` bytes or more read into a session that has no block yet: the doubling
of `maxline` at `2^30` wraps, `realloc` fails, and `csvgetline` returns `NULL` with the session
reset. -/
theorem csvgetline_too_long (h : Heap) (hh : h.Unlimited) (s : Session) (hv : s.Valid)
    (hfresh : s.line = none) (rec tail : List Nat) (hrec : ∀ c ∈ rec, c ≠ CR ∧ c ≠ LF)
    (htail : ∀ c, tail.head? = some c → c = CR ∨ c = LF) (hlen : 2 ^ 30 ≤ rec.length)
    (delim : Nat) (compress : Bool) (stack : Nat → List Nat) (hd : delim ≠ NUL) :
    ∃ fin', csvgetline h s (rec ++ tail) delim compress stack =
      some ⟨Ptr.null, Session.init, fin', h⟩ := by
  rcases csvgetline_cases h hh s hv rec tail hrec htail delim compress stack (Or.inl hd) with
    ⟨s', -, -, -, -, -, p6, p7⟩ | ⟨fin', p1, -⟩
  · have := p7 hfresh
    omega
  · exact ⟨fin', p1⟩

/-! ## Quoted fields under any reject string -/

/-- The reject string that `strcspn` reads when the byte after `delim` is `NUL` meets every
text only at the delimiter. -/
theorem clean_nil (delim : Nat) (t : List Nat) : Clean delim (fun _ => []) t := by
  intro n b hb
  left
  unfold rejectAt at hb
  simp only [List.takeWhile_cons, List.takeWhile_nil] at hb
  split at hb
  · simpa using hb
  · cases hb

theorem takeWhile_notMem_head (reject : List Nat) (x : Nat) (xs : List Nat) (h : x ∈ reject) :
    (x :: xs).takeWhile (· ∉ reject) = [] :=
  List.takeWhile_cons_of_neg (by simpa using h)

theorem dropWhile_notMem_cons (reject : List Nat) (x : Nat) (xs : List Nat) (h : x ∈ reject) :
    (x :: xs).dropWhile (· ∉ reject) = x :: xs :=
  List.dropWhile_cons_of_neg (by simpa using h)

/-- What `quotedFieldWith` makes of an escaped string, its closing quote and the text after
it. -/
theorem quotedFieldWith_escape (reject : List Nat) (s tail : List Nat)
    (ht : tail.head? ≠ some QUOTE) :
    quotedFieldWith reject (escape s ++ QUOTE :: tail) =
      (s ++ tail.takeWhile (· ∉ reject), tail.dropWhile (· ∉ reject)) := by
  induction s with
  | nil =>
    cases tail with
    | nil => simp [escape, quotedFieldWith_quote_nil]
    | cons d ds =>
      have hd : d ≠ QUOTE := fun h => ht (by simp [h])
      simp only [escape, List.flatMap_nil, List.nil_append]
      rw [quotedFieldWith_quote_other reject d ds hd]
  | cons c cs ih =>
    by_cases hc : c = QUOTE
    · subst hc
      have : escape (QUOTE :: cs) ++ QUOTE :: tail =
          QUOTE :: QUOTE :: (escape cs ++ QUOTE :: tail) := by
        simp [escape]
      rw [this, quotedFieldWith_quote_quote, ih]
      simp
    · have : escape (c :: cs) ++ QUOTE :: tail = c :: (escape cs ++ QUOTE :: tail) := by
        simp [escape, hc]
      rw [this, quotedFieldWith_other reject c _ hc, ih]
      simp

/-- An unclosed quoted field runs to the end of the text, whatever the reject string. -/
theorem quotedFieldWith_unclosed (reject : List Nat) (s : List Nat) (h : QUOTE ∉ s) :
    quotedFieldWith reject s = (s, []) := by
  induction s with
  | nil => rfl
  | cons c cs ih =>
    have hc : c ≠ QUOTE := fun h' => h (by simp [h'])
    have hcs : QUOTE ∉ cs := fun h' => h (by simp [h'])
    rw [quotedFieldWith_other reject c cs hc, ih hcs]

theorem nextFieldWith_quote (delim : Nat) (compress : Bool) (hq : delim ≠ QUOTE)
    (reject : List Nat) (t : List Nat) :
    nextFieldWith delim compress reject (QUOTE :: t) = quotedFieldWith reject t := by
  unfold nextFieldWith
  rw [skipped_quote delim compress hq]
  simp

/-- The iterations from number `n + 1` on see the stack bytes that a loop started one
iteration later sees from number `n` on. -/
theorem fieldsFromWith_shift (delim : Nat) (compress : Bool) (stack : Nat → List Nat) :
    ∀ (fuel n : Nat) (t : List Nat),
    fieldsFromWith delim compress stack fuel (n + 1) t =
      fieldsFromWith delim compress (fun k => stack (k + 1)) fuel n t := by
  intro fuel
  induction fuel with
  | zero => intro n t; rfl
  | succ f ih =>
    intro n t
    unfold fieldsFromWith
    cases hr : (nextFieldWith delim compress (rejectAt delim (stack (n + 1))) t).2 with
    | nil => simp
    | cons x rest =>
      simp only []
      by_cases hx : x = delim
      · rw [if_pos hx, if_pos hx, ih]
      · rw [if_neg hx, if_neg hx]

/-- The fields of a text that starts with a quoted field directly followed by a delimiter. -/
theorem fieldsWith_quote_more (delim : Nat) (compress : Bool) (hd : delim ≠ NUL)
    (hq : delim ≠ QUOTE) (stack : Nat → List Nat) (s rest : List Nat) :
    fieldsWith delim compress stack (QUOTE :: (escape s ++ QUOTE :: delim :: rest)) =
      s :: fieldsWith delim compress (fun k => stack (k + 1)) rest := by
  have hmem := mem_rejectAt_self delim (stack 0) hd
  have hn : nextFieldWith delim compress (rejectAt delim (stack 0))
      (QUOTE :: (escape s ++ QUOTE :: delim :: rest)) = (s, delim :: rest) := by
    rw [nextFieldWith_quote delim compress hq,
      quotedFieldWith_escape _ s _ (by simpa using hq),
      takeWhile_notMem_head _ delim rest hmem, dropWhile_notMem_cons _ delim rest hmem]
    simp
  unfold fieldsWith
  rw [fieldsFromWith_succ_cons delim compress stack _ 0 _ rest (by rw [hn]), hn,
    fieldsFromWith_shift,
    fieldsFromWith_fuel delim compress _ _ (rest.length + 1) 0 rest
      (by simp; omega) (by omega)]

/-- The fields of a text that is one quoted field. -/
theorem fieldsWith_quote_last (delim : Nat) (compress : Bool) (hq : delim ≠ QUOTE)
    (stack : Nat → List Nat) (s : List Nat) :
    fieldsWith delim compress stack (QUOTE :: (escape s ++ [QUOTE])) = [s] := by
  have hn : nextFieldWith delim compress (rejectAt delim (stack 0))
      (QUOTE :: (escape s ++ [QUOTE])) = (s, []) := by
    rw [nextFieldWith_quote delim compress hq, quotedFieldWith_escape _ s [] (by simp)]
    simp
  unfold fieldsWith
  rw [fieldsFromWith_succ_nil delim compress stack _ 0 _ (by rw [hn]), hn]

/-- The fields of a list of quoted strings joined by the delimiter, whatever bytes follow
`delim` in memory. -/
theorem fieldsWith_quoted_list (delim : Nat) (compress : Bool) (hd : delim ≠ NUL)
    (hq : delim ≠ QUOTE) :
    ∀ (l : List (List Nat)) (s : List Nat) (stack : Nat → List Nat),
    fieldsWith delim compress stack ([delim].intercalate ((s :: l).map quote)) = s :: l := by
  intro l
  induction l with
  | nil =>
    intro s stack
    have := fieldsWith_quote_last delim compress hq stack s
    simpa [List.intercalate, quote] using this
  | cons s2 l ih =>
    intro s stack
    have h := fieldsWith_quote_more delim compress hd hq stack s
      ([delim].intercalate ((s2 :: l).map quote))
    rw [ih s2] at h
    have e : [delim].intercalate ((s :: s2 :: l).map quote) =
        QUOTE :: (escape s ++ QUOTE :: delim :: [delim].intercalate ((s2 :: l).map quote)) := by
      simp [List.intercalate, quote, List.intersperse]
    rw [e, h]

/-- The fields of a text that is an opening quote and a quote-free string. -/
theorem fieldsWith_unclosed (delim : Nat) (compress : Bool) (hq : delim ≠ QUOTE)
    (stack : Nat → List Nat) (s : List Nat) (h : QUOTE ∉ s) :
    fieldsWith delim compress stack (QUOTE :: s) = [s] := by
  have hn : nextFieldWith delim compress (rejectAt delim (stack 0)) (QUOTE :: s) = (s, []) := by
    rw [nextFieldWith_quote delim compress hq, quotedFieldWith_unclosed _ s h]
  unfold fieldsWith
  rw [fieldsFromWith_succ_nil delim compress stack _ 0 _ (by rw [hn]), hn]

/-! ## The field splitter: unquoted, quoted and compressed records -/

/-- Unquoted records, compress off, when `strcspn` stops at the delimiter only
(`Clean delim stack t`: no byte that follows `delim` in memory before the first `NUL` occurs
in `t`).  For a non-empty quote-free record `t` (held in `line`, hence `NUL`-free) and a
delimiter other than `NUL`, `split` with compress off (and an allocator that never refuses)
returns the number of delimiter occurrences plus one, and the fields read back are the pieces
of `t` between successive delimiters, in order, empty pieces included: they are
`t.splitOn delim`, none of them contains the delimiter, and joining them with the delimiter
gives back `t`. -/
theorem split_plain_pieces (h : Heap) (hh : h.Unlimited) (s : Session) (t : List Nat)
    (delim : Nat) (hs : s.Holds t) (hne : t ≠ []) (hq : QUOTE ∉ t) (hd : delim ≠ NUL)
    (stack : Nat → List Nat) (hc : Clean delim stack t) :
    ∃ (s' : Session) (fs : List (List Nat)),
      split h s delim false stack = some ((fs.length : Int), h, s') ∧
      csvnfield s' = (fs.length : Int) ∧ s'.fields = some fs ∧
      fs = t.splitOn delim ∧ fs.length = t.count delim + 1 ∧
      [delim].intercalate fs = t ∧ ∀ f ∈ fs, delim ∉ f := by
  obtain ⟨s', p1, -, p3, p4, -⟩ := split_spec_clean h hh s t hs hne delim hd false stack hc
  obtain ⟨q1, q2, q3⟩ := fieldsOf_plain delim t.length t le_rfl hq
  refine ⟨s', fieldsOf delim false t, p1, ?_, p3, q1, q2, ?_, q3⟩
  · simp [csvnfield, p4]
  · rw [q1]; exact List.intercalate_splitOn t delim

theorem split_plain_pieces_witness :
    (Session.holding (bytes "a,,b")).Holds (bytes "a,,b") ∧
    ∃ (s' : Session) (fs : List (List Nat)),
      split ⟨[], 0⟩ (Session.holding (bytes "a,,b")) 44 false (fun _ => []) =
        some ((fs.length : Int), ⟨[], 0⟩, s') ∧
      csvnfield s' = (fs.length : Int) ∧ s'.fields = some fs ∧
      fs = (bytes "a,,b").splitOn 44 ∧ fs.length = (bytes "a,,b").count 44 + 1 ∧
      [44].intercalate fs = bytes "a,,b" ∧ ∀ f ∈ fs, 44 ∉ f :=
  ⟨by decide, split_plain_pieces ⟨[], 0⟩ (by decide) (Session.holding (bytes "a,,b"))
    (bytes "a,,b") 44 (by decide) (by decide) (by decide) (by decide) (fun _ => [])
    (clean_nil 44 _)⟩

/-- C1 (the code at the failing input): `split` passes `&delim`, the address of a single
`char`, to `strcspn` as its reject string, so the scan also stops at every byte that follows
`delim` in memory up to the first `NUL`.  When that byte is `U` (85), the quote-free record
`aUb,c` split at the comma with compress off yields the single field `a`, where the pieces
between the delimiters are `aUb` and `c`. -/
theorem split_plain_stray_reject :
    (split ⟨[], 0⟩ (Session.holding (bytes "aUb,c")) 44 false (fun _ => [85])).map
        (fun r => (r.1, r.2.2.fields)) = some (1, some [bytes "a"]) ∧
    QUOTE ∉ bytes "aUb,c" ∧ NUL ∉ bytes "aUb,c" ∧
    (bytes "aUb,c").splitOn 44 = [bytes "aUb", bytes "c"] ∧
    (bytes "aUb,c").count 44 + 1 = 2 := by
  decide

/-- A quoted first field, for any bytes after `delim` in memory.  For a quote-free string
`str` (delimiters allowed), a non-empty text `rest` and a delimiter other than `NUL` and the
quote character, splitting the record `"str"` + delimiter + `rest` with either compress
setting (and an allocator that never refuses) gives `str` as first field, followed by exactly
the fields that `split` gives for the record `rest` alone when its iterations read the same
reject strings as the iterations after the first of the longer split. -/
theorem split_quoted_first (h : Heap) (hh : h.Unlimited) (s s2 : Session)
    (str rest : List Nat) (delim : Nat) (compress : Bool)
    (hs : s.Holds (QUOTE :: (str ++ QUOTE :: delim :: rest))) (hs2 : s2.Holds rest)
    (hrest : rest ≠ []) (hq : QUOTE ∉ str) (hd : delim ≠ NUL) (hdq : delim ≠ QUOTE)
    (stack : Nat → List Nat) :
    ∃ (s' s2' : Session) (fs : List (List Nat)),
      split h s2 delim compress (fun k => stack (k + 1)) =
        some ((fs.length : Int), h, s2') ∧ s2'.fields = some fs ∧
      split h s delim compress stack = some (((fs.length + 1 : Nat) : Int), h, s') ∧
      s'.fields = some (str :: fs) := by
  obtain ⟨s', p1, -, p3, -⟩ := split_spec h hh s _ hs (by simp) delim hd compress stack
  obtain ⟨s2', r1, -, r3, -⟩ :=
    split_spec h hh s2 _ hs2 hrest delim hd compress (fun k => stack (k + 1))
  have hf := fieldsWith_quote_more delim compress hd hdq stack str rest
  rw [escape_of_not_mem str hq] at hf
  rw [hf] at p1 p3
  exact ⟨s', s2', fieldsWith delim compress (fun k => stack (k + 1)) rest, r1, r3,
    by simpa using p1, p3⟩

theorem split_quoted_first_witness :
    (Session.holding (bytes "\"hello, world\",2")).Holds
      (QUOTE :: (bytes "hello, world" ++ QUOTE :: 44 :: bytes "2")) ∧
    ∃ (s' s2' : Session) (fs : List (List Nat)),
      split ⟨[], 0⟩ (Session.holding (bytes "2")) 44 false (fun k => (fun _ => []) (k + 1)) =
        some ((fs.length : Int), ⟨[], 0⟩, s2') ∧ s2'.fields = some fs ∧
      split ⟨[], 0⟩ (Session.holding (bytes "\"hello, world\",2")) 44 false (fun _ => []) =
        some (((fs.length + 1 : Nat) : Int), ⟨[], 0⟩, s') ∧
      s'.fields = some (bytes "hello, world" :: fs) :=
  ⟨by decide, split_quoted_first ⟨[], 0⟩ (by decide) (Session.holding (bytes "\"hello, world\",2"))
    (Session.holding (bytes "2")) (bytes "hello, world") (bytes "2") 44 false (by decide)
    (by decide) (by decide) (by decide) (by decide) (by decide) (fun _ => [])⟩

/-- C2 (the code at the failing input): the fields that follow a quoted first field are cut
by `strcspn` with the reject string found at `&delim`, which holds the bytes that follow
`delim` in memory at that call.  When the byte after `delim` is `U` (85), the record
`"x",aUb` yields the fields `x` and `a`, while the text `aUb` split on its own in a call
where `NUL` follows `delim` yields the single field `aUb`. -/
theorem split_quoted_first_stray_reject :
    (split ⟨[], 0⟩ (Session.holding (bytes "\"x\",aUb")) 44 false (fun _ => [85])).map
        (fun r => (r.1, r.2.2.fields)) = some (2, some [bytes "x", bytes "a"]) ∧
    (split ⟨[], 0⟩ (Session.holding (bytes "aUb")) 44 false (fun _ => [])).map
        (fun r => (r.1, r.2.2.fields)) = some (1, some [bytes "aUb"]) := by
  decide

/-- C3: quoting round trip.  For a non-empty list `l` of strings (any bytes a record can hold:
delimiters and quote characters included, possibly empty) and a delimiter other than `NUL` and
the quote character, splitting the record made of the quoted forms of the strings (quotes
doubled, wrapped in quotes) joined by the delimiter, with either compress setting (and an
allocator that never refuses), returns `l.length` and the fields read back are exactly `l`,
whatever bytes follow `delim` in memory at each call of `strcspn` (`stack`). -/
theorem split_quote_roundtrip (h : Heap) (hh : h.Unlimited) (s : Session)
    (l : List (List Nat)) (delim : Nat) (compress : Bool) (stack : Nat → List Nat)
    (hl : l ≠ []) (hs : s.Holds ([delim].intercalate (l.map quote))) (hd : delim ≠ NUL)
    (hdq : delim ≠ QUOTE) :
    ∃ s' : Session, split h s delim compress stack = some ((l.length : Int), h, s') ∧
      s'.fields = some l := by
  obtain ⟨x, xs, rfl⟩ : ∃ x xs, l = x :: xs := by
    cases l with
    | nil => exact (hl rfl).elim
    | cons x xs => exact ⟨x, xs, rfl⟩
  have hne : [delim].intercalate ((x :: xs).map quote) ≠ [] := by
    cases xs <;> simp [List.intercalate, quote, List.intersperse]
  obtain ⟨s', p1, -, p3, -⟩ := split_spec h hh s _ hs hne delim hd compress stack
  rw [fieldsWith_quoted_list delim compress hd hdq xs x stack] at p1 p3
  exact ⟨s', p1, p3⟩

theorem split_quote_roundtrip_witness :
    (Session.holding (bytes "\"he said \"\"hi\"\"\"")).Holds
      ([44].intercalate ([bytes "he said \"hi\""].map quote)) ∧
    ∃ s' : Session, split ⟨[], 0⟩ (Session.holding (bytes "\"he said \"\"hi\"\"\"")) 44 true
        (fun _ => [104, 105]) =
        some ((([bytes "he said \"hi\""] : List (List Nat)).length : Int), ⟨[], 0⟩, s') ∧
      s'.fields = some [bytes "he said \"hi\""] :=
  ⟨by decide, split_quote_roundtrip ⟨[], 0⟩ (by decide)
    (Session.holding (bytes "\"he said \"\"hi\"\"\"")) [bytes "he said \"hi\""] 44 true
    (fun _ => [104, 105]) (by decide) (by decide) (by decide) (by decide)⟩

/-- The record made of two quote characters yields one empty field. -/
theorem split_two_quotes (stack : Nat → List Nat) :
    (split ⟨[], 0⟩ (Session.holding (bytes "\"\"")) 44 false stack).map
      (fun r => (r.1, r.2.2.fields)) = some (1, some [[]]) := by
  obtain ⟨s', p1, -, p3, -⟩ := split_spec ⟨[], 0⟩ (by decide) (Session.holding (bytes "\"\""))
    (QUOTE :: (escape [] ++ [QUOTE])) (by decide) (by decide) 44 (by decide) false stack
  rw [fieldsWith_quote_last 44 false (by decide) stack []] at p1 p3
  rw [p1]
  simp [p3]

/-- Unquoted records, compress on, when `strcspn` stops at the delimiter only
(`Clean delim stack t`).  For a non-empty quote-free record `t` whose last byte is not the
delimiter (and a delimiter other than `NUL`, an allocator that never refuses), `split` with
compress on gives exactly the non-empty pieces of `t` between delimiters, in order: a run of
delimiters, a leading one included, counts as one boundary. -/
theorem split_compress_pieces (h : Heap) (hh : h.Unlimited) (s : Session) (t : List Nat)
    (delim : Nat) (hs : s.Holds t) (hne : t ≠ []) (hq : QUOTE ∉ t)
    (hlast : t.getLast? ≠ some delim) (hd : delim ≠ NUL)
    (stack : Nat → List Nat) (hc : Clean delim stack t) :
    ∃ (s' : Session) (fs : List (List Nat)),
      split h s delim true stack = some ((fs.length : Int), h, s') ∧
      csvnfield s' = (fs.length : Int) ∧ s'.fields = some fs ∧
      fs = (t.splitOn delim).filter (· ≠ []) := by
  obtain ⟨s', p1, -, p3, p4, -⟩ := split_spec_clean h hh s t hs hne delim hd true stack hc
  refine ⟨s', fieldsOf delim true t, p1, ?_, p3, fieldsOf_compress delim t.length t le_rfl hne hq hlast⟩
  simp [csvnfield, p4]

theorem split_compress_pieces_witness :
    (Session.holding (bytes "a,,b")).Holds (bytes "a,,b") ∧
    ∃ (s' : Session) (fs : List (List Nat)),
      split ⟨[], 0⟩ (Session.holding (bytes "a,,b")) 44 true (fun _ => []) =
        some ((fs.length : Int), ⟨[], 0⟩, s') ∧
      csvnfield s' = (fs.length : Int) ∧ s'.fields = some fs ∧
      fs = ((bytes "a,,b").splitOn 44).filter (· ≠ []) :=
  ⟨by decide, split_compress_pieces ⟨[], 0⟩ (by decide) (Session.holding (bytes "a,,b"))
    (bytes "a,,b") 44 (by decide) (by decide) (by decide) (by decide) (by decide) (fun _ => [])
    (clean_nil 44 _)⟩

/-- C4 (the code at the failing input): with compress on too the scan of an unquoted field
stops at every byte found after `delim` in memory.  When that byte is `U` (85), the
quote-free record `a,Ub`, which does not end with the delimiter, yields the fields `a` and
the empty string, where the non-empty pieces between the delimiters are `a` and `Ub`. -/
theorem split_compress_stray_reject :
    (split ⟨[], 0⟩ (Session.holding (bytes "a,Ub")) 44 true (fun _ => [85])).map
        (fun r => (r.1, r.2.2.fields)) = some (2, some [bytes "a", []]) ∧
    QUOTE ∉ bytes "a,Ub" ∧ NUL ∉ bytes "a,Ub" ∧ (bytes "a,Ub").getLast? ≠ some 44 ∧
    ((bytes "a,Ub").splitOn 44).filter (· ≠ []) = [bytes "a", bytes "Ub"] := by
  decide

/-- The spec's round-trip example: `a,b,c` with compress off gives the three fields `a`, `b`,
`c` (here `NUL` follows `delim` in memory). -/
theorem split_plain_example :
    (split ⟨[], 0⟩ (Session.holding (bytes "a,b,c")) 44 false (fun _ => [])).map
        (fun r => (r.1, r.2.2.fields)) = some (3, some [bytes "a", bytes "b", bytes "c"]) := by
  decide

/-- The spec's compression example: `a,,b` gives two fields with compress on and three with
compress off (here `NUL` follows `delim` in memory). -/
theorem split_compress_example :
    (split ⟨[], 0⟩ (Session.holding (bytes "a,,b")) 44 true (fun _ => [])).map
        (fun r => (r.1, r.2.2.fields)) = some (2, some [bytes "a", bytes "b"]) ∧
    (split ⟨[], 0⟩ (Session.holding (bytes "a,,b")) 44 false (fun _ => [])).map
        (fun r => (r.1, r.2.2.fields)) = some (3, some [bytes "a", [], bytes "b"]) := by
  decide

/-- C5 (as amended): with compress on, a delimiter other than `NUL`, an allocator that never
refuses and a reject string that meets the record at the delimiter only (`Clean delim stack t`:
no byte that follows `delim` in memory before the first `NUL` occurs in the record), a field
that did not begin with a quote character in the record (its start is at offset `0` or the byte
before its start is not a quote) can be empty only if it is the last field and the record ends
with the delimiter.  In particular, for a quote-free record every field but the last is
non-empty, and the last one is non-empty too unless the record ends with the delimiter. -/
theorem split_compress_empty_field (h : Heap) (hh : h.Unlimited) (s : Session) (t : List Nat)
    (delim : Nat) (hs : s.Holds t) (hne : t ≠ []) (hd : delim ≠ NUL)
    (stack : Nat → List Nat) (hc : Clean delim stack t) :
    ∃ (s' : Session) (fs : List (List Nat)),
      split h s delim true stack = some ((fs.length : Int), h, s') ∧ s'.fields = some fs ∧
      s'.nfield = fs.length ∧
      (∀ (k off : Nat), k < fs.length → csvfield s' k = some (Ptr.sline off) →
        (off = 0 ∨ t[off - 1]? ≠ some QUOTE) → fs[k]? = some [] →
        k + 1 = fs.length ∧ t.getLast? = some delim) ∧
      (QUOTE ∉ t → ∀ k : Nat, fs[k]? = some [] →
        k + 1 = fs.length ∧ t.getLast? = some delim) := by
  obtain ⟨s', p1, p2, p3, p4, -⟩ := split_spec_clean h hh s t hs hne delim hd true stack hc
  have hlen : (entriesOf delim true t).length = (fieldsOf delim true t).length := by
    rw [← entriesOf_snd, List.length_map]
  have hkey : ∀ (k off : Nat), (entriesOf delim true t)[k]? = some (off, ([] : List Nat)) →
      (off = 0 ∨ t[off - 1]? ≠ some QUOTE) →
      k + 1 = (fieldsOf delim true t).length ∧ t.getLast? = some delim := by
    intro k off hk hoff
    have := entriesFrom_empty delim (t.length + 1) [] t (by omega) (Or.inl rfl)
      (by simpa using hne) k off hk (by simpa using hoff)
    rw [← hlen]
    simpa using this
  have hget : ∀ k : Nat, (fieldsOf delim true t)[k]? = some [] →
      ∃ off : Nat, (entriesOf delim true t)[k]? = some (off, ([] : List Nat)) := by
    intro k hk
    rw [← entriesOf_snd, List.getElem?_map] at hk
    cases he : (entriesOf delim true t)[k]? with
    | none => rw [he] at hk; cases hk
    | some e =>
      rw [he] at hk
      obtain ⟨off, str⟩ := e
      simp only [Option.map_some', Option.some.injEq] at hk
      exact ⟨off, by rw [hk]⟩
  refine ⟨s', fieldsOf delim true t, p1, p3, p4, ?_, ?_⟩
  · intro k off hk hcf hoff hempty
    obtain ⟨off', str, e1, e2, -⟩ := Session.csvfield_of_entries s' _ p2 k (by omega)
    rw [e2] at hcf
    have hoo : off' = off := by
      simpa using hcf
    subst hoo
    obtain ⟨off2, e3⟩ := hget k hempty
    rw [e3] at e1
    have : off2 = off' := by
      have := Option.some.inj e1
      exact congrArg Prod.fst this
    subst this
    exact hkey k off2 e3 hoff
  · intro hq k hempty
    obtain ⟨off, e3⟩ := hget k hempty
    refine hkey k off e3 (Or.inr ?_)
    intro hc
    exact hq (List.getElem?_mem hc)

theorem split_compress_empty_field_witness :
    (Session.holding (bytes "a,,b,")).Holds (bytes "a,,b,") ∧
    ∃ (s' : Session) (fs : List (List Nat)),
      split ⟨[], 0⟩ (Session.holding (bytes "a,,b,")) 44 true (fun _ => []) =
        some ((fs.length : Int), ⟨[], 0⟩, s') ∧ s'.fields = some fs ∧
      s'.nfield = fs.length ∧
      (∀ (k off : Nat), k < fs.length → csvfield s' k = some (Ptr.sline off) →
        (off = 0 ∨ (bytes "a,,b,")[off - 1]? ≠ some QUOTE) → fs[k]? = some [] →
        k + 1 = fs.length ∧ (bytes "a,,b,").getLast? = some 44) ∧
      (QUOTE ∉ bytes "a,,b," → ∀ k : Nat, fs[k]? = some [] →
        k + 1 = fs.length ∧ (bytes "a,,b,").getLast? = some 44) :=
  ⟨by decide, split_compress_empty_field ⟨[], 0⟩ (by decide) (Session.holding (bytes "a,,b,"))
    (bytes "a,,b,") 44 (by decide) (by decide) (by decide) (fun _ => []) (clean_nil 44 _)⟩

/-- C5 (counterexample): with compress on, the quote-free record `a,` that ends with the
delimiter yields two fields, the second of which is empty (here `NUL` follows `delim` in
memory, so that `strcspn` stops at the delimiter only). -/
theorem split_compress_trailing_delimiter :
    QUOTE ∉ bytes "a," ∧
    (split ⟨[], 0⟩ (Session.holding (bytes "a,")) 44 true (fun _ => [])).map
      (fun r => (r.1, r.2.2.fields)) = some (2, some [bytes "a", []]) := by
  decide

/-! ## The line reader -/

theorem notEol_takeWhile (fin : List Nat) : ∀ c ∈ fin.takeWhile notEol, c ≠ CR ∧ c ≠ LF := by
  intro c hc
  have := List.mem_takeWhile_imp hc
  simpa [notEol] using this

theorem notEol_dropWhile (fin : List Nat) :
    ∀ c, (fin.dropWhile notEol).head? = some c → c = CR ∨ c = LF := by
  intro c hc
  cases hd : fin.dropWhile notEol with
  | nil => rw [hd] at hc; cases hc
  | cons d ds =>
    rw [hd] at hc
    have hcd : d = c := by simpa using hc
    subst hcd
    have := List.head_dropWhile_not notEol fin (by rw [hd]; simp)
    simp only [hd, List.head_cons] at this
    simp only [notEol, Bool.and_eq_true, bne_iff_ne, ne_eq, not_and, Bool.not_eq_true,
      Bool.and_eq_false_imp] at this
    by_cases h1 : d = CR
    · exact Or.inl h1
    · right
      by_contra h2
      simp [notEol, h1, h2] at this

theorem takeWhile_ne_nul (t : List Nat) (h : NUL ∉ t) : t.takeWhile (· != NUL) = t :=
  takeWhile_ne_eq_self NUL t h

theorem Session.text_line_of_holds (s : Session) (t : List Nat) (hs : s.Holds t) :
    s.text (Ptr.line 0) = some t := by
  obtain ⟨line, sline, field, lpost, h1, -, -, h4, h5, -⟩ := hs.unpack
  subst h4
  simp [Session.text, h1, cstr_append _ _ h5]

/-- C6 (as amended): for a non-empty `NUL`-free remaining stream `fin` whose first record (the
longest prefix of `fin` without `'\r'` and `'\n'`) is shorter than `2 ^ 30` bytes, and any
valid prior session state (nothing allocated yet, or blocks of any capacity), with an
allocator that never refuses and a delimiter other than `NUL`, `csvgetline` returns `line`,
and the string it designates is byte for byte that record, whatever bytes follow `delim` in
memory. -/
theorem csvgetline_reads_record (h : Heap) (hh : h.Unlimited) (s : Session) (hv : s.Valid)
    (fin : List Nat) (delim : Nat) (compress : Bool) (stack : Nat → List Nat) (hne : fin ≠ [])
    (hnul : NUL ∉ fin) (hlen : (fin.takeWhile notEol).length < 2 ^ 30) (hd : delim ≠ NUL) :
    ∃ o : Outcome, csvgetline h s fin delim compress stack = some o ∧ o.ret = Ptr.line 0 ∧
      o.text = some (fin.takeWhile notEol) := by
  have hsplit := List.takeWhile_append_dropWhile notEol fin
  obtain ⟨s', p1, p2, -⟩ := csvgetline_spec h hh s hv (fin.takeWhile notEol)
    (fin.dropWhile notEol) (notEol_takeWhile fin) (notEol_dropWhile fin) hlen delim compress
    stack (Or.inl hd)
  rw [hsplit] at p1
  have hn : NUL ∉ fin.takeWhile notEol := fun hm => hnul ((List.takeWhile_sublist _).subset hm)
  rw [takeWhile_ne_nul _ hn] at p2
  have hret : ¬ (fin.dropWhile notEol = [] ∧ fin.takeWhile notEol = []) := by
    rintro ⟨h1, h2⟩
    rw [h1, h2] at hsplit
    exact hne hsplit.symm
  refine ⟨_, p1, by simp only [if_neg hret], ?_⟩
  simp only [Outcome.text, if_neg hret]
  exact Session.text_line_of_holds _ _ p2

theorem csvgetline_reads_record_witness :
    Session.init.Valid ∧ NUL ∉ bytes "abcdefghij,klm\r\nxyz" ∧
    ((bytes "abcdefghij,klm\r\nxyz").takeWhile notEol).length < 2 ^ 30 ∧
    ∃ o : Outcome, csvgetline ⟨[], 0⟩ Session.init (bytes "abcdefghij,klm\r\nxyz") 44 false
        (fun _ => [107]) = some o ∧ o.ret = Ptr.line 0 ∧
      o.text = some ((bytes "abcdefghij,klm\r\nxyz").takeWhile notEol) :=
  ⟨by decide, by decide, by decide,
    csvgetline_reads_record ⟨[], 0⟩ (by decide) Session.init (by decide)
    (bytes "abcdefghij,klm\r\nxyz") 44 false (fun _ => [107]) (by decide) (by decide)
    (by decide) (by decide)⟩

/-- A stream that starts with `n` bytes `a`, `n` at least `2 ^ 30`, read in a fresh session:
the doubling of `maxline` leaves the range of `int`, and `csvgetline` resets the session and
returns `NULL`. -/
theorem csvgetline_replicate (n : Nat) (hn : 2 ^ 30 ≤ n) (tail : List Nat)
    (htail : ∀ c, tail.head? = some c → c = CR ∨ c = LF) (delim : Nat) (compress : Bool)
    (stack : Nat → List Nat) (hd : delim ≠ NUL) :
    ∃ fin', csvgetline ⟨[], 0⟩ Session.init (List.replicate n 97 ++ tail) delim compress
      stack = some ⟨Ptr.null, Session.init, fin', ⟨[], 0⟩⟩ :=
  csvgetline_too_long ⟨[], 0⟩ (by decide) Session.init (by decide) rfl (List.replicate n 97)
    tail (fun c hc => by rw [List.eq_of_mem_replicate hc]; decide) htail
    (by rw [List.length_replicate]; exact hn) delim compress stack hd

theorem replicate_nul_free (n : Nat) (tail : List Nat) (ht : NUL ∉ tail) :
    NUL ∉ List.replicate n 97 ++ tail := by
  intro hm
  rcases List.mem_append.mp hm with hm | hm
  · exact absurd (List.eq_of_mem_replicate hm) (by decide)
  · exact ht hm

/-- C6 (counterexample): the stream made of `2 ^ 30` bytes `a` and a line feed is non-empty
and `NUL`-free, yet `csvgetline`, called in a fresh session with an allocator that never
refuses, returns `NULL` with the session reset instead of the record: the `int` capacity
`maxline` cannot be doubled past `2 ^ 30`. -/
theorem csvgetline_long_record_lost :
    List.replicate (2 ^ 30) 97 ++ [LF] ≠ [] ∧ NUL ∉ List.replicate (2 ^ 30) 97 ++ [LF] ∧
    ∃ o : Outcome, csvgetline ⟨[], 0⟩ Session.init (List.replicate (2 ^ 30) 97 ++ [LF]) 44
      false (fun _ => []) = some o ∧ o.ret = Ptr.null ∧ o.session = Session.init := by
  refine ⟨List.append_ne_nil_of_right_ne_nil _ (List.cons_ne_nil _ _),
    replicate_nul_free _ _ (by decide), ?_⟩
  obtain ⟨fin', e⟩ := csvgetline_replicate (2 ^ 30) (le_refl _) [LF]
    (fun c hc => Or.inr (Option.some.inj hc).symm) 44 false (fun _ => []) (by decide)
  exact ⟨_, e, rfl, rfl⟩

/-- C7: when allocation succeeds, that is with an allocator that never refuses and a first
record shorter than `2 ^ 30` bytes (so that no capacity handed to `realloc` has left the range
of `int`), and with a delimiter other than `NUL`, from any valid session state, any stream and
any bytes after `delim` in memory, `csvgetline` returns `NULL` exactly when the stream has no
remaining byte; with at least one byte left, a line terminator included, it returns `line`. -/
theorem csvgetline_null_iff_eof (h : Heap) (hh : h.Unlimited) (s : Session) (hv : s.Valid)
    (fin : List Nat) (delim : Nat) (compress : Bool) (stack : Nat → List Nat)
    (hlen : (fin.takeWhile notEol).length < 2 ^ 30) (hd : delim ≠ NUL) :
    ∃ o : Outcome, csvgetline h s fin delim compress stack = some o ∧
      (o.ret = Ptr.null ↔ fin = []) ∧ (fin ≠ [] → o.ret = Ptr.line 0) := by
  have hsplit := List.takeWhile_append_dropWhile notEol fin
  obtain ⟨s', p1, -⟩ := csvgetline_spec h hh s hv (fin.takeWhile notEol)
    (fin.dropWhile notEol) (notEol_takeWhile fin) (notEol_dropWhile fin) hlen delim compress
    stack (Or.inl hd)
  rw [hsplit] at p1
  have hiff : (fin.dropWhile notEol = [] ∧ fin.takeWhile notEol = []) ↔ fin = [] := by
    constructor
    · rintro ⟨h1, h2⟩
      rw [h1, h2] at hsplit
      exact hsplit.symm
    · intro h'; subst h'; simp
  refine ⟨_, p1, ?_, ?_⟩
  · simp only
    by_cases hf : fin = []
    · simp [hf]
    · rw [if_neg (fun hc => hf (hiff.mp hc))]
      simp [hf]
  · intro hf
    simp only
    rw [if_neg (fun hc => hf (hiff.mp hc))]

theorem csvgetline_null_iff_eof_witness :
    Session.init.Valid ∧ ((bytes "\n").takeWhile notEol).length < 2 ^ 30 ∧
    ∃ o : Outcome, csvgetline ⟨[], 0⟩ Session.init (bytes "\n") 44 true (fun _ => [85]) =
        some o ∧
      (o.ret = Ptr.null ↔ bytes "\n" = []) ∧ (bytes "\n" ≠ [] → o.ret = Ptr.line 0) :=
  ⟨by decide, by decide, csvgetline_null_iff_eof ⟨[], 0⟩ (by decide) Session.init (by decide)
    (bytes "\n") 44 true (fun _ => [85]) (by decide) (by decide)⟩

theorem Session.fields_of_nfield_zero (s : Session) (h : s.nfield = 0) : s.fields = some [] := by
  unfold Session.fields
  rw [h]
  rfl

/-- One read of a record `str`, shorter than `2 ^ 30` bytes, that is followed by the
terminator `tail`. -/
theorem csvgetline_record (h : Heap) (hh : h.Unlimited) (s : Session) (hv : s.Valid)
    (str tail : List Nat) (hstr : ∀ c ∈ str, c ≠ CR ∧ c ≠ LF ∧ c ≠ NUL)
    (htail : ∀ c, tail.head? = some c → c = CR ∨ c = LF) (htne : tail ≠ [])
    (hlen : str.length < 2 ^ 30) (delim : Nat) (compress : Bool) (stack : Nat → List Nat)
    (hd : delim ≠ NUL) :
    ∃ s' : Session, csvgetline h s (str ++ tail) delim compress stack =
        some ⟨Ptr.line 0, s', afterTerminator tail, h⟩ ∧ s'.Holds str ∧
      s'.fields = some (if str = [] then [] else fieldsWith delim compress stack str) := by
  obtain ⟨s', p1, p2, p3, p4, -⟩ := csvgetline_spec h hh s hv str tail
    (fun c hc => ⟨(hstr c hc).1, (hstr c hc).2.1⟩) htail hlen delim compress stack (Or.inl hd)
  have hn : NUL ∉ str := fun hm => (hstr NUL hm).2.2 rfl
  rw [takeWhile_ne_nul _ hn] at p2 p3 p4
  rw [if_neg (fun hc => htne hc.1)] at p1
  refine ⟨s', p1, p2, ?_⟩
  by_cases hs : str = []
  · rw [if_pos hs]; exact Session.fields_of_nfield_zero _ (p3 hs)
  · rw [if_neg hs]; exact (p4 hs).2.1

/-- A read from the exhausted stream returns `NULL` and leaves no field. -/
theorem csvgetline_eof (h : Heap) (hh : h.Unlimited) (s : Session) (hv : s.Valid)
    (delim : Nat) (compress : Bool) (stack : Nat → List Nat) :
    ∃ s' : Session, csvgetline h s [] delim compress stack = some ⟨Ptr.null, s', [], h⟩ ∧
      s'.Holds [] ∧ s'.nfield = 0 := by
  obtain ⟨s', p1, p2, p3, -⟩ := csvgetline_spec h hh s hv [] [] (by simp) (by simp)
    (by simp) delim compress stack (Or.inr rfl)
  exact ⟨s', by simpa [afterTerminator] using p1, by simpa using p2, p3 rfl⟩

/-- C8 (as amended): for a content `str` without `'\r'`, `'\n'` and `NUL` that is shorter
than `2 ^ 30` bytes, reading one record from `str ++ "\r"`, from `str ++ "\n"` and from
`str ++ "\r\n"` (the three reads may find different bytes after `delim` in memory: `st1`,
`st2`, `st3`) returns `line` holding the same text `str` in the three cases, and each time the
stream is left exhausted, so that the next read returns `NULL`; the three reads give the same
fields when `strcspn` stops in `str` at the delimiter only (`Clean`: no byte that follows
`delim` in memory before the first `NUL` occurs in `str`). -/
theorem csvgetline_terminators_agree (h : Heap) (hh : h.Unlimited) (s : Session) (hv : s.Valid)
    (str : List Nat) (hstr : ∀ c ∈ str, c ≠ CR ∧ c ≠ LF ∧ c ≠ NUL)
    (hlen : str.length < 2 ^ 30) (delim : Nat) (compress : Bool) (hd : delim ≠ NUL)
    (st1 st2 st3 st4 : Nat → List Nat) :
    ∃ (o1 o2 o3 : Outcome),
      csvgetline h s (str ++ [CR]) delim compress st1 = some o1 ∧
      csvgetline h s (str ++ [LF]) delim compress st2 = some o2 ∧
      csvgetline h s (str ++ [CR, LF]) delim compress st3 = some o3 ∧
      (o1.ret = Ptr.line 0 ∧ o2.ret = Ptr.line 0 ∧ o3.ret = Ptr.line 0) ∧
      (o1.text = some str ∧ o2.text = some str ∧ o3.text = some str) ∧
      (Clean delim st1 str → Clean delim st2 str → Clean delim st3 str →
        ∃ fs : List (List Nat), o1.session.fields = some fs ∧ o2.session.fields = some fs ∧
          o3.session.fields = some fs) ∧
      (o1.fin = [] ∧ o2.fin = [] ∧ o3.fin = []) ∧
      (∃ n1 n2 n3 : Outcome,
        csvgetline o1.heap o1.session o1.fin delim compress st4 = some n1 ∧
          n1.ret = Ptr.null ∧
        csvgetline o2.heap o2.session o2.fin delim compress st4 = some n2 ∧
          n2.ret = Ptr.null ∧
        csvgetline o3.heap o3.session o3.fin delim compress st4 = some n3 ∧
          n3.ret = Ptr.null) := by
  obtain ⟨s1, a1, a2, a3⟩ := csvgetline_record h hh s hv str [CR] hstr
    (by intro c hc; left; simpa using hc.symm) (by simp) hlen delim compress st1 hd
  obtain ⟨s2, b1, b2, b3⟩ := csvgetline_record h hh s hv str [LF] hstr
    (by intro c hc; right; simpa using hc.symm) (by simp) hlen delim compress st2 hd
  obtain ⟨s3, c1, c2, c3⟩ := csvgetline_record h hh s hv str [CR, LF] hstr
    (by intro c hc; left; simpa using hc.symm) (by simp) hlen delim compress st3 hd
  have e1 : afterTerminator [CR] = [] := by decide
  have e2 : afterTerminator [LF] = [] := by decide
  have e3 : afterTerminator [CR, LF] = [] := by decide
  rw [e1] at a1
  rw [e2] at b1
  rw [e3] at c1
  obtain ⟨t1, x1, -⟩ := csvgetline_eof h hh s1 a2.1 delim compress st4
  obtain ⟨t2, x2, -⟩ := csvgetline_eof h hh s2 b2.1 delim compress st4
  obtain ⟨t3, x3, -⟩ := csvgetline_eof h hh s3 c2.1 delim compress st4
  refine ⟨_, _, _, a1, b1, c1, ⟨rfl, rfl, rfl⟩,
    ⟨Session.text_line_of_holds _ _ a2, Session.text_line_of_holds _ _ b2,
      Session.text_line_of_holds _ _ c2⟩, ?_, ⟨rfl, rfl, rfl⟩,
    ⟨_, _, _, x1, rfl, x2, rfl, x3, rfl⟩⟩
  intro k1 k2 k3
  refine ⟨if str = [] then [] else fieldsOf delim compress str, ?_, ?_, ?_⟩
  · rw [← fieldsWith_clean delim compress st1 hd str k1]; exact a3
  · rw [← fieldsWith_clean delim compress st2 hd str k2]; exact b3
  · rw [← fieldsWith_clean delim compress st3 hd str k3]; exact c3

theorem csvgetline_terminators_agree_witness :
    Session.init.Valid ∧ (∀ c ∈ bytes "a,b", c ≠ CR ∧ c ≠ LF ∧ c ≠ NUL) ∧
    (bytes "a,b").length < 2 ^ 30 ∧
    ∃ (o1 o2 o3 : Outcome),
      csvgetline ⟨[], 0⟩ Session.init (bytes "a,b" ++ [CR]) 44 false (fun _ => []) = some o1 ∧
      csvgetline ⟨[], 0⟩ Session.init (bytes "a,b" ++ [LF]) 44 false (fun _ => [85]) =
        some o2 ∧
      csvgetline ⟨[], 0⟩ Session.init (bytes "a,b" ++ [CR, LF]) 44 false (fun _ => [86, 87]) =
        some o3 ∧
      (o1.ret = Ptr.line 0 ∧ o2.ret = Ptr.line 0 ∧ o3.ret = Ptr.line 0) ∧
      (o1.text = some (bytes "a,b") ∧ o2.text = some (bytes "a,b") ∧
        o3.text = some (bytes "a,b")) ∧
      (Clean 44 (fun _ => []) (bytes "a,b") → Clean 44 (fun _ => [85]) (bytes "a,b") →
        Clean 44 (fun _ => [86, 87]) (bytes "a,b") →
        ∃ fs : List (List Nat), o1.session.fields = some fs ∧ o2.session.fields = some fs ∧
          o3.session.fields = some fs) ∧
      (o1.fin = [] ∧ o2.fin = [] ∧ o3.fin = []) ∧
      (∃ n1 n2 n3 : Outcome,
        csvgetline o1.heap o1.session o1.fin 44 false (fun _ => []) = some n1 ∧
          n1.ret = Ptr.null ∧
        csvgetline o2.heap o2.session o2.fin 44 false (fun _ => []) = some n2 ∧
          n2.ret = Ptr.null ∧
        csvgetline o3.heap o3.session o3.fin 44 false (fun _ => []) = some n3 ∧
          n3.ret = Ptr.null) :=
  ⟨by decide, by decide, by decide, csvgetline_terminators_agree ⟨[], 0⟩ (by decide)
    Session.init (by decide) (bytes "a,b") (by decide) (by decide) 44 false (by decide)
    (fun _ => []) (fun _ => [85]) (fun _ => [86, 87]) (fun _ => [])⟩

/-- C8 (counterexample): the content made of `2 ^ 30` bytes `a` holds no `'\r'`, `'\n'` or
`NUL`, yet reading from that content followed by `"\r"`, by `"\n"` or by `"\r\n"` in a fresh
session (with an allocator that never refuses) returns `NULL` with the session reset, not a
record with the text of the content: the `int` capacity `maxline` cannot be doubled past
`2 ^ 30`. -/
theorem csvgetline_terminators_long_record :
    (∀ c ∈ List.replicate (2 ^ 30) 97, c ≠ CR ∧ c ≠ LF ∧ c ≠ NUL) ∧
    (∃ o : Outcome, csvgetline ⟨[], 0⟩ Session.init (List.replicate (2 ^ 30) 97 ++ [CR]) 44
      false (fun _ => []) = some o ∧ o.ret = Ptr.null ∧ o.session = Session.init) ∧
    (∃ o : Outcome, csvgetline ⟨[], 0⟩ Session.init (List.replicate (2 ^ 30) 97 ++ [LF]) 44
      false (fun _ => []) = some o ∧ o.ret = Ptr.null ∧ o.session = Session.init) ∧
    (∃ o : Outcome, csvgetline ⟨[], 0⟩ Session.init (List.replicate (2 ^ 30) 97 ++ [CR, LF]) 44
      false (fun _ => []) = some o ∧ o.ret = Ptr.null ∧ o.session = Session.init) := by
  refine ⟨fun c hc => by rw [List.eq_of_mem_replicate hc]; decide, ?_, ?_, ?_⟩
  · obtain ⟨fin', e⟩ := csvgetline_replicate (2 ^ 30) (le_refl _) [CR]
      (fun c hc => Or.inl (Option.some.inj hc).symm) 44 false (fun _ => []) (by decide)
    exact ⟨_, e, rfl, rfl⟩
  · obtain ⟨fin', e⟩ := csvgetline_replicate (2 ^ 30) (le_refl _) [LF]
      (fun c hc => Or.inr (Option.some.inj hc).symm) 44 false (fun _ => []) (by decide)
    exact ⟨_, e, rfl, rfl⟩
  · obtain ⟨fin', e⟩ := csvgetline_replicate (2 ^ 30) (le_refl _) [CR, LF]
      (fun c hc => Or.inl (Option.some.inj hc).symm) 44 false (fun _ => []) (by decide)
    exact ⟨_, e, rfl, rfl⟩

/-- C9: after `csvgetline` has read a record `rec` (bytes other than `'\r'` and `'\n'`, fewer
than `2 ^ 30` of them, the longest record the `int` capacity lets a read get through; the
allocator never refuses), the unread stream is what follows the terminator: after `"\r\n"`
when the record is followed by `'\r'` then `'\n'`; after the single `'\r'` when that is
followed by another byte `d`, which stays first in the stream, or by nothing; after the single
`'\n'` otherwise; and empty when the stream ended without a terminator; whatever bytes follow
`delim` in memory. -/
theorem csvgetline_remainder (h : Heap) (hh : h.Unlimited) (s : Session) (hv : s.Valid)
    (rec rest : List Nat) (hrec : ∀ c ∈ rec, c ≠ CR ∧ c ≠ LF) (hlen : rec.length < 2 ^ 30)
    (delim : Nat) (compress : Bool) (stack : Nat → List Nat) (hd : delim ≠ NUL) :
    (∃ o : Outcome, csvgetline h s (rec ++ CR :: LF :: rest) delim compress stack = some o ∧
      o.fin = rest) ∧
    (∀ d, d ≠ LF → ∃ o : Outcome,
      csvgetline h s (rec ++ CR :: d :: rest) delim compress stack = some o ∧
        o.fin = d :: rest) ∧
    (∃ o : Outcome, csvgetline h s (rec ++ [CR]) delim compress stack = some o ∧
      o.fin = []) ∧
    (∃ o : Outcome, csvgetline h s (rec ++ LF :: rest) delim compress stack = some o ∧
      o.fin = rest) ∧
    (∃ o : Outcome, csvgetline h s rec delim compress stack = some o ∧ o.fin = []) := by
  have key : ∀ tail : List Nat, (∀ c, tail.head? = some c → c = CR ∨ c = LF) →
      ∃ o : Outcome, csvgetline h s (rec ++ tail) delim compress stack = some o ∧
        o.fin = afterTerminator tail := by
    intro tail htail
    obtain ⟨s', p1, -⟩ := csvgetline_spec h hh s hv rec tail hrec htail hlen delim compress
      stack (Or.inl hd)
    exact ⟨_, p1, rfl⟩
  have hcl : CR ≠ LF := by decide
  have hlc : LF ≠ CR := by decide
  refine ⟨?_, ?_, ?_, ?_, ?_⟩
  · obtain ⟨o, h1, h2⟩ := key (CR :: LF :: rest) (by intro c hc; left; simpa using hc.symm)
    exact ⟨o, h1, by rw [h2]; simp [afterTerminator, endofline, getc]⟩
  · intro d hdl
    obtain ⟨o, h1, h2⟩ := key (CR :: d :: rest) (by intro c hc; left; simpa using hc.symm)
    exact ⟨o, h1, by rw [h2]; simp [afterTerminator, endofline, getc, ungetc, hdl]⟩
  · obtain ⟨o, h1, h2⟩ := key [CR] (by intro c hc; left; simpa using hc.symm)
    exact ⟨o, h1, by rw [h2]; simp [afterTerminator, endofline, getc]⟩
  · obtain ⟨o, h1, h2⟩ := key (LF :: rest) (by intro c hc; right; simpa using hc.symm)
    exact ⟨o, h1, by rw [h2]; simp [afterTerminator, endofline, hlc]⟩
  · obtain ⟨o, h1, h2⟩ := key [] (by simp)
    exact ⟨o, by simpa using h1, by rw [h2]; rfl⟩

theorem csvgetline_remainder_witness :
    Session.init.Valid ∧ (∀ c ∈ bytes "a", c ≠ CR ∧ c ≠ LF) ∧ (bytes "a").length < 2 ^ 30 ∧
    ((∃ o : Outcome, csvgetline ⟨[], 0⟩ Session.init (bytes "a" ++ CR :: LF :: bytes "b") 44 false
        (fun _ => [85]) = some o ∧ o.fin = bytes "b") ∧
    (∀ d, d ≠ LF → ∃ o : Outcome,
      csvgetline ⟨[], 0⟩ Session.init (bytes "a" ++ CR :: d :: bytes "b") 44 false
          (fun _ => [85]) = some o ∧
        o.fin = d :: bytes "b") ∧
    (∃ o : Outcome, csvgetline ⟨[], 0⟩ Session.init (bytes "a" ++ [CR]) 44 false
        (fun _ => [85]) = some o ∧
      o.fin = []) ∧
    (∃ o : Outcome, csvgetline ⟨[], 0⟩ Session.init (bytes "a" ++ LF :: bytes "b") 44 false
        (fun _ => [85]) = some o ∧ o.fin = bytes "b") ∧
    (∃ o : Outcome, csvgetline ⟨[], 0⟩ Session.init (bytes "a") 44 false (fun _ => [85]) =
        some o ∧
      o.fin = [])) :=
  ⟨by decide, by decide, by decide,
    csvgetline_remainder ⟨[], 0⟩ (by decide) Session.init (by decide)
    (bytes "a") (bytes "b") (by decide) (by decide) 44 false (fun _ => [85]) (by decide)⟩

/-- The spec's example: the stream `a\rb` is read as the record `a`, then the record `b`. -/
theorem csvgetline_cr_then_byte :
    ((csvgetline ⟨[], 0⟩ Session.init (bytes "a\rb") 44 false (fun _ => [])).map
      (fun o => (o.text, o.fin))) = some (some (bytes "a"), bytes "b") ∧
    ((csvgetline ⟨[], 0⟩ Session.init (bytes "a\rb") 44 false (fun _ => [])).bind
      (fun o => (csvgetline o.heap o.session o.fin 44 false (fun _ => [])).map
        (fun n => (n.text, n.fin)))) = some (some (bytes "b"), []) := by
  decide

/-- C10: when the next byte of the stream is a line terminator, `csvgetline` (with an
allocator that never refuses, from any valid session state, for every delimiter, either
compress setting and any bytes after `delim` in memory) returns `line`, the record text is
empty, `csvnfield()` is `0` and `csvfield(n)` is `NULL` for every `n`. -/
theorem csvgetline_empty_line (h : Heap) (hh : h.Unlimited) (s : Session) (hv : s.Valid)
    (c : Nat) (rest : List Nat) (hc : c = CR ∨ c = LF) (delim : Nat) (compress : Bool)
    (stack : Nat → List Nat) :
    ∃ o : Outcome, csvgetline h s (c :: rest) delim compress stack = some o ∧
      o.ret = Ptr.line 0 ∧ o.text = some [] ∧ csvnfield o.session = 0 ∧
      ∀ n : Int, csvfield o.session n = some Ptr.null := by
  obtain ⟨s', p1, p2, p3, -⟩ := csvgetline_spec h hh s hv [] (c :: rest) (by simp)
    (by intro d hd'; have : c = d := by simpa using hd'
        subst this; exact hc) (by simp) delim compress stack (Or.inr rfl)
  simp only [List.nil_append, reduceCtorEq, false_and, if_false, List.takeWhile_nil] at p1 p2
  have p4 : s'.nfield = 0 := p3 rfl
  refine ⟨_, p1, rfl, Session.text_line_of_holds _ _ p2, ?_, ?_⟩
  · simp [csvnfield, p4]
  · intro n
    simp only [csvfield, p4]
    rw [if_pos]
    simp only [Nat.cast_zero]
    omega

theorem csvgetline_empty_line_witness :
    Session.init.Valid ∧
    ∃ o : Outcome, csvgetline ⟨[], 0⟩ Session.init (LF :: bytes "x,y") 0 true (fun _ => [85]) =
        some o ∧
      o.ret = Ptr.line 0 ∧ o.text = some [] ∧ csvnfield o.session = 0 ∧
      ∀ n : Int, csvfield o.session n = some Ptr.null :=
  ⟨by decide, csvgetline_empty_line ⟨[], 0⟩ (by decide) Session.init (by decide) LF
    (bytes "x,y") (by decide) 0 true (fun _ => [85])⟩

/-! ## Field access -/

theorem mapM_option_get {α β : Type} (f : α → Option β) : ∀ (l : List α) (ys : List β),
    l.mapM f = some ys → ∀ k : Nat, k < l.length → ys[k]? = l[k]?.bind f := by
  intro l
  induction l with
  | nil => intro ys _ k hk; simp at hk
  | cons a l ih =>
    intro ys h k hk
    rw [List.mapM_cons] at h
    cases ha : f a with
    | none => rw [ha] at h; cases h
    | some b =>
      cases hl : List.mapM f l with
      | none => rw [ha, hl] at h; cases h
      | some bs =>
        rw [ha, hl] at h
        have hy : ys = b :: bs := by
          have := Option.some.inj h
          exact this.symm
        subst hy
        cases k with
        | zero => simp [ha]
        | succ k =>
          simp only [List.getElem?_cons_succ]
          exact ih bs hl k (by simpa using hk)

/-- C11: for every valid session state and every integer `n`, `csvfield(n)` returns `NULL`
exactly when `n < 0` or `n >= csvnfield()`; for `0 <= n < csvnfield()` it returns a pointer into
the working copy, and the string there is the `n`-th field (0-based) of the session.  After a
`split` of a non-empty record `t` (allocator never refusing, delimiter other than `NUL`, any
bytes after `delim` in memory) that string is the `n`-th field the loop of `split` produced
from `t` in that call: the `n`-th item of `fieldsWith delim compress stack t`, which follows
the loop with the reject strings that its calls of `strcspn` read at `&delim`. -/
theorem csvfield_in_range (s : Session) (hv : s.Valid) (n : Int) :
    (csvfield s n = some Ptr.null ↔ n < 0 ∨ n ≥ csvnfield s) ∧
    (0 ≤ n → n < csvnfield s → ∃ off, csvfield s n = some (Ptr.sline off)) ∧
    (∀ fs, s.fields = some fs → 0 ≤ n → n < csvnfield s →
      (csvfield s n).bind s.text = fs[n.toNat]?) ∧
    (∀ (h : Heap) (s0 : Session) (t : List Nat) (delim : Nat) (compress : Bool)
      (stack : Nat → List Nat) (r : Int),
      h.Unlimited → s0.Holds t → t ≠ [] → delim ≠ NUL →
      split h s0 delim compress stack = some (r, h, s) → 0 ≤ n → n < csvnfield s →
      (csvfield s n).bind s.text = (fieldsWith delim compress stack t)[n.toNat]?) := by
  have hrange : 0 ≤ n → n < csvnfield s → ∃ off, csvfield s n = some (Ptr.sline off) := by
    intro h0 h1
    unfold csvnfield at h1
    unfold Session.Valid at hv
    cases hl : s.line with
    | none =>
      rw [hl] at hv
      have hz : s.nfield = 0 := by
        cases hsl : s.sline with
        | none =>
          cases hf : s.field with
          | none => rw [hsl, hf] at hv; exact hv.2.2
          | some f => rw [hsl, hf] at hv; exact hv.elim
        | some sl => rw [hsl] at hv; exact hv.elim
      rw [hz] at h1
      omega
    | some line =>
      rw [hl] at hv
      cases hsl : s.sline with
      | none => rw [hsl] at hv; cases hf : s.field <;> rw [hf] at hv <;> exact hv.elim
      | some sline =>
        cases hf : s.field with
        | none => rw [hsl, hf] at hv; exact hv.elim
        | some field =>
          rw [hsl, hf] at hv
          simp only at hv
          obtain ⟨-, -, v3, -, -, v6⟩ := hv
          have hlt : n.toNat < field.length := by omega
          refine ⟨field[n.toNat], ?_⟩
          unfold csvfield
          rw [if_neg (by omega), hf]
          simp [load, List.getElem?_eq_getElem hlt]
  have hfs : ∀ fs, s.fields = some fs → 0 ≤ n → n < csvnfield s →
      (csvfield s n).bind s.text = fs[n.toNat]? := by
    intro fs hfs h0 h1
    unfold csvnfield at h1
    have hk : n.toNat < (List.range s.nfield).length := by simp; omega
    have := mapM_option_get s.fieldText (List.range s.nfield) fs hfs n.toNat hk
    rw [this, List.getElem?_range (by omega)]
    have hn : ((n.toNat : Nat) : Int) = n := Int.toNat_of_nonneg h0
    show (csvfield s n).bind s.text = (csvfield s ((n.toNat : Nat) : Int)).bind s.text
    rw [hn]
  refine ⟨?_, hrange, hfs, ?_⟩
  · constructor
    · intro hnull
      by_contra hc
      have h0 : 0 ≤ n := by omega
      have h1 : n < csvnfield s := by omega
      obtain ⟨off, ho⟩ := hrange h0 h1
      rw [ho] at hnull
      cases hnull
    · intro hc
      unfold csvfield
      unfold csvnfield at hc
      rw [if_pos hc]
  · intro h s0 t delim compress stack r hh hs0 hne hd hsp h0 h1
    obtain ⟨s', p1, -, p3, -⟩ := split_spec h hh s0 t hs0 hne delim hd compress stack
    rw [p1] at hsp
    have hs' : s' = s := by
      have := Option.some.inj hsp
      exact congrArg (fun x => x.2.2) this
    subst hs'
    exact hfs _ p3 h0 h1

theorem csvfield_in_range_witness :
    Session.sample.Valid ∧
    ((csvfield Session.sample 1 = some Ptr.null ↔
      (1 : Int) < 0 ∨ (1 : Int) ≥ csvnfield Session.sample) ∧
    ((0 : Int) ≤ 1 → (1 : Int) < csvnfield Session.sample →
      ∃ off, csvfield Session.sample 1 = some (Ptr.sline off)) ∧
    (∀ fs, Session.sample.fields = some fs → (0 : Int) ≤ 1 →
      (1 : Int) < csvnfield Session.sample →
      (csvfield Session.sample 1).bind Session.sample.text = fs[(1 : Int).toNat]?) ∧
    (∀ (h : Heap) (s0 : Session) (t : List Nat) (delim : Nat) (compress : Bool)
      (stack : Nat → List Nat) (r : Int),
      h.Unlimited → s0.Holds t → t ≠ [] → delim ≠ NUL →
      split h s0 delim compress stack = some (r, h, Session.sample) → (0 : Int) ≤ 1 →
      (1 : Int) < csvnfield Session.sample →
      (csvfield Session.sample 1).bind Session.sample.text =
        (fieldsWith delim compress stack t)[(1 : Int).toNat]?)) :=
  ⟨by decide, csvfield_in_range Session.sample (by decide) 1⟩

/-- The fields of `a,b` after a read, queried by index: `csvfield(0)` and `csvfield(1)` give
`a` and `b`, `csvfield(2)` and `csvfield(-1)` give `NULL`. -/
theorem csvfield_example :
    (csvgetline ⟨[], 0⟩ Session.init (bytes "a,b\n") 44 false (fun _ => [])).map
      (fun o => (csvnfield o.session, (csvfield o.session 0).bind o.session.text,
        (csvfield o.session 1).bind o.session.text, csvfield o.session 2,
        csvfield o.session (-1))) =
      some (2, some (bytes "a"), some (bytes "b"), some Ptr.null, some Ptr.null) := by
  rfl

/-- The fields after a read of `aUb,c` in a call where the byte `U` (85) follows `delim` in
memory: the split stopped at `U`, `csvnfield()` is `1`, `csvfield(0)` gives `a`, the one field
that the split produced, and `csvfield(1)` gives `NULL`. -/
theorem csvfield_stray_reject_example :
    (csvgetline ⟨[], 0⟩ Session.init (bytes "aUb,c\n") 44 false (fun _ => [85])).map
      (fun o => (csvnfield o.session, (csvfield o.session 0).bind o.session.text,
        csvfield o.session 1)) = some (1, some (bytes "a"), some Ptr.null) ∧
    fieldsWith 44 false (fun _ => [85]) (bytes "aUb,c") = [bytes "a"] := by
  exact ⟨rfl, rfl⟩

/-- C12: `csvnfield` and `csvfield` leave the whole session unchanged, so any sequence of
queries issued between two reads leaves the session as it was and answers every query as a
single query on the original session would: the same count and the same field for the same
index every time. -/
theorem queries_leave_session (s : Session) (qs : List Query) :
    (csvnfieldCall s).2 = s ∧ (∀ n, (csvfieldCall s n).2 = s) ∧
    (askAll s qs).2 = s ∧ (askAll s qs).1 = qs.map (fun q => (ask s q).1) := by
  have hask : ∀ q, (ask s q).2 = s := by
    intro q; cases q <;> rfl
  refine ⟨rfl, fun _ => rfl, ?_, ?_⟩
  · induction qs with
    | nil => rfl
    | cons q qs ih => simp only [askAll, hask q]; exact ih
  · induction qs with
    | nil => rfl
    | cons q qs ih => simp only [askAll, hask q, List.map_cons, ih]

/-! ## Quoted fields: open quotes and text after the closing quote -/

/-- C14: an opening quote that is never closed is closed by the end of the text.  For a
quote-free string `str` (delimiters allowed; `NUL`-free as it is held in `line`) and a
delimiter other than `NUL` and the quote character, splitting the record quote + `str` (with an
allocator that never refuses) yields exactly one field, equal to `str`, for either compress
setting and any bytes after `delim` in memory. -/
theorem split_unclosed_quote (h : Heap) (hh : h.Unlimited) (s : Session) (str : List Nat)
    (delim : Nat) (compress : Bool) (stack : Nat → List Nat) (hs : s.Holds (QUOTE :: str))
    (hq : QUOTE ∉ str) (hd : delim ≠ NUL) (hdq : delim ≠ QUOTE) :
    ∃ s' : Session, split h s delim compress stack = some (1, h, s') ∧ csvnfield s' = 1 ∧
      s'.fields = some [str] := by
  obtain ⟨s', p1, -, p3, p4, -⟩ := split_spec h hh s _ hs (by simp) delim hd compress stack
  rw [fieldsWith_unclosed delim compress hdq stack str hq] at p1 p3 p4
  exact ⟨s', by simpa using p1, by simp [csvnfield, p4], p3⟩

theorem split_unclosed_quote_witness :
    (Session.holding (bytes "\"a,b")).Holds (QUOTE :: bytes "a,b") ∧
    ∃ s' : Session, split ⟨[], 0⟩ (Session.holding (bytes "\"a,b")) 44 true (fun _ => [97]) =
        some (1, ⟨[], 0⟩, s') ∧ csvnfield s' = 1 ∧ s'.fields = some [bytes "a,b"] :=
  ⟨by decide, split_unclosed_quote ⟨[], 0⟩ (by decide) (Session.holding (bytes "\"a,b"))
    (bytes "a,b") 44 true (fun _ => [97]) (by decide) (by decide) (by decide) (by decide)⟩

/-- Text after a closing quote when `strcspn` stops at the delimiter only (`Clean`: no byte
that follows `delim` in memory before the first `NUL` occurs in the record).  For a quote-free
string `str`, a string `t` without delimiter that does not begin with a quote character, and a
delimiter other than `NUL` and the quote character (allocator never refusing, either compress
setting): splitting quote + `str` + quote + `t` yields the single field `str ++ t`, and
splitting quote + `str` + quote + `t` + delimiter + `rest` with `rest` non-empty yields
`str ++ t` followed by the fields `split` gives for `rest` alone. -/
theorem split_after_closing_quote (h : Heap) (hh : h.Unlimited) (s1 s2 s3 : Session)
    (str t rest : List Nat) (delim : Nat) (compress : Bool)
    (hs1 : s1.Holds (QUOTE :: (str ++ QUOTE :: t)))
    (hs2 : s2.Holds (QUOTE :: (str ++ QUOTE :: (t ++ delim :: rest))))
    (hs3 : s3.Holds rest) (hrest : rest ≠ []) (hq : QUOTE ∉ str) (ht : delim ∉ t)
    (ht2 : t.head? ≠ some QUOTE) (hd : delim ≠ NUL) (hdq : delim ≠ QUOTE)
    (st1 st2 st3 : Nat → List Nat) (hc1 : Clean delim st1 (QUOTE :: (str ++ QUOTE :: t)))
    (hc2 : Clean delim st2 (QUOTE :: (str ++ QUOTE :: (t ++ delim :: rest))))
    (hc3 : Clean delim st3 rest) :
    (∃ s' : Session, split h s1 delim compress st1 = some (1, h, s') ∧
      s'.fields = some [str ++ t]) ∧
    (∃ (s' s3' : Session) (fs : List (List Nat)),
      split h s3 delim compress st3 = some ((fs.length : Int), h, s3') ∧
      s3'.fields = some fs ∧
      split h s2 delim compress st2 = some (((fs.length + 1 : Nat) : Int), h, s') ∧
      s'.fields = some ((str ++ t) :: fs)) := by
  constructor
  · obtain ⟨s', p1, -, p3, -⟩ :=
      split_spec_clean h hh s1 _ hs1 (by simp) delim hd compress st1 hc1
    have hf := fieldsOf_quote_last delim compress hdq str t ht ht2
    rw [escape_of_not_mem str hq] at hf
    rw [hf] at p1 p3
    exact ⟨s', by simpa using p1, p3⟩
  · obtain ⟨s', p1, -, p3, -⟩ :=
      split_spec_clean h hh s2 _ hs2 (by simp) delim hd compress st2 hc2
    obtain ⟨s3', r1, -, r3, -⟩ :=
      split_spec_clean h hh s3 _ hs3 hrest delim hd compress st3 hc3
    have hf := fieldsOf_quote_more delim compress hdq str t rest ht ht2
    rw [escape_of_not_mem str hq] at hf
    rw [hf] at p1 p3
    exact ⟨s', s3', fieldsOf delim compress rest, r1, r3, by simpa using p1, p3⟩

theorem split_after_closing_quote_witness :
    (Session.holding (bytes "\"a,b\"c\"d")).Holds
      (QUOTE :: (bytes "a,b" ++ QUOTE :: bytes "c\"d")) ∧
    (Session.holding (bytes "\"a,b\"c\"d,e,f")).Holds
      (QUOTE :: (bytes "a,b" ++ QUOTE :: (bytes "c\"d" ++ 44 :: bytes "e,f"))) ∧
    (Session.holding (bytes "e,f")).Holds (bytes "e,f") ∧
    ((∃ s' : Session, split ⟨[], 0⟩ (Session.holding (bytes "\"a,b\"c\"d")) 44 false
        (fun _ => []) = some (1, ⟨[], 0⟩, s') ∧
      s'.fields = some [bytes "a,b" ++ bytes "c\"d"]) ∧
    (∃ (s' s3' : Session) (fs : List (List Nat)),
      split ⟨[], 0⟩ (Session.holding (bytes "e,f")) 44 false (fun _ => []) =
        some ((fs.length : Int), ⟨[], 0⟩, s3') ∧ s3'.fields = some fs ∧
      split ⟨[], 0⟩ (Session.holding (bytes "\"a,b\"c\"d,e,f")) 44 false (fun _ => []) =
        some (((fs.length + 1 : Nat) : Int), ⟨[], 0⟩, s') ∧
      s'.fields = some ((bytes "a,b" ++ bytes "c\"d") :: fs))) :=
  ⟨by decide, by decide, by decide,
    split_after_closing_quote ⟨[], 0⟩ (by decide) (Session.holding (bytes "\"a,b\"c\"d"))
      (Session.holding (bytes "\"a,b\"c\"d,e,f")) (Session.holding (bytes "e,f"))
      (bytes "a,b") (bytes "c\"d") (bytes "e,f") 44 false (by decide) (by decide) (by decide)
      (by decide) (by decide) (by decide) (by decide) (by decide) (by decide)
      (fun _ => []) (fun _ => []) (fun _ => []) (clean_nil 44 _) (clean_nil 44 _)
      (clean_nil 44 _)⟩

/-- C15 (the code at the failing input): `advquoted` copies the text after a closing quote
up to where `strcspn(p+j, &delim)` stops, and that scan reads as reject string the bytes found
at `&delim`: `delim` and the bytes that follow it in memory up to the first `NUL`.  When the
byte after `delim` is `U` (85), the record `"ab"cUd` yields the single field `abc`, where the
text `cUd` after the closing quote holds no delimiter and does not begin with a quote
character, so that the field should be `abcUd`. -/
theorem split_after_closing_quote_stray_reject :
    (split ⟨[], 0⟩ (Session.holding (bytes "\"ab\"cUd")) 44 false (fun _ => [85])).map
        (fun r => (r.1, r.2.2.fields)) = some (1, some [bytes "abc"]) ∧
    QUOTE ∉ bytes "ab" ∧ 44 ∉ bytes "cUd" ∧ (bytes "cUd").head? ≠ some QUOTE ∧
    bytes "\"ab\"cUd" = QUOTE :: (bytes "ab" ++ QUOTE :: bytes "cUd") ∧
    bytes "ab" ++ bytes "cUd" ≠ bytes "abc" := by
  decide

/-- When `split` returns, `line` and `maxline` are what they were. -/
theorem split_frame (h : Heap) (s : Session) (delim : Nat) (compress : Bool)
    (stack : Nat → List Nat) (r : Int) (h' : Heap) (s' : Session)
    (hsp : split h s delim compress stack = some (r, h', s')) :
    s'.line = s.line ∧ s'.maxline = s.maxline := by
  unfold split at hsp
  split at hsp
  · split at hsp
    · cases hsp
    · split at hsp
      · cases hsp; exact ⟨rfl, rfl⟩
      · split at hsp
        · cases hsp
        · split at hsp
          · cases hsp
          · cases hsp; exact ⟨rfl, rfl⟩
  · cases hsp

/-- C16: `split` modifies only the working copy, the field table and the field count.
Whatever the allocator, the session, the delimiter, the compress setting and the bytes after
`delim` in memory, when `split` returns, `line` and `maxline` are what they were; and for a
record `t` held in `line` (allocator never refusing, delimiter other than `NUL` unless `t` is
empty) `split` does return, and the string at `line` is still `t`, with its quotes, doubled
quotes and delimiters. -/
theorem split_leaves_line (h : Heap) (s : Session) (delim : Nat) (compress : Bool)
    (stack : Nat → List Nat) :
    (∀ (r : Int) (h' : Heap) (s' : Session),
      split h s delim compress stack = some (r, h', s') →
      s'.line = s.line ∧ s'.maxline = s.maxline) ∧
    (∀ t : List Nat, h.Unlimited → s.Holds t → (delim ≠ NUL ∨ t = []) →
      ∃ (r : Int) (s' : Session), split h s delim compress stack = some (r, h, s') ∧
        s'.line = s.line ∧ s'.text (Ptr.line 0) = some t) := by
  constructor
  · intro r h' s' hsp
    exact split_frame h s delim compress stack r h' s' hsp
  · intro t hh hs hd
    by_cases ht : t = []
    · subst ht
      refine ⟨0, _, split_empty h s hs delim compress stack, rfl, ?_⟩
      have := Session.text_line_of_holds s [] hs
      simpa [Session.text] using this
    · have hdn : delim ≠ NUL := by
        rcases hd with hd | hd
        · exact hd
        · exact (ht hd).elim
      obtain ⟨s', p1, -, -, -, p5, -, p7⟩ :=
        split_spec h hh s t hs ht delim hdn compress stack
      exact ⟨_, s', p1, p5, Session.text_line_of_holds s' t p7⟩

theorem split_leaves_line_witness :
    (Session.holding (bytes "\"a\"\"b\",c")).Holds (bytes "\"a\"\"b\",c") ∧
    ∃ (r : Int) (s' : Session),
      split ⟨[], 0⟩ (Session.holding (bytes "\"a\"\"b\",c")) 44 false (fun _ => [97]) =
        some (r, ⟨[], 0⟩, s') ∧
      s'.line = (Session.holding (bytes "\"a\"\"b\",c")).line ∧
      s'.text (Ptr.line 0) = some (bytes "\"a\"\"b\",c") :=
  ⟨by decide, (split_leaves_line ⟨[], 0⟩ (Session.holding (bytes "\"a\"\"b\",c")) 44 false
      (fun _ => [97])).2
    (bytes "\"a\"\"b\",c") (by decide) (by decide) (Or.inl (by decide))⟩

/-- The spec's escaped-quote record after a read: the text returned still has its quotes
while the field is unquoted. -/
theorem csvgetline_keeps_raw_record :
    (csvgetline ⟨[], 0⟩ Session.init (bytes "\"he said \"\"hi\"\"\",2\n") 44 false
        (fun _ => [])).map
      (fun o => (o.text, o.session.fields)) =
      some (some (bytes "\"he said \"\"hi\"\"\",2"),
        some [bytes "he said \"hi\"", bytes "2"]) := by
  decide

/-! ## Capacity of the record blocks -/

/-- The capacity the reading loop ends with: the starting capacity, or the smallest power of
two above the final index if that is larger. -/
theorem readLoop_maxline : ∀ (fuel : Nat) (h : Heap) (fin line sline : List Nat) (m i : Nat)
    (h' : Heap) (fin' l' sl' : List Nat) (m' : Nat) (c : Option Nat) (i' : Nat),
    readLoop fuel h fin line sline m i = some (ReadOut.done h' fin' l' sl' m' c i') →
    (∃ k, m = 2 ^ k) → i < m → m' = max m (2 ^ Nat.size i') ∧ i ≤ i' := by
  intro fuel
  induction fuel with
  | zero => intro h fin line sline m i h' fin' l' sl' m' c i' hr; simp [readLoop] at hr
  | succ fuel ih =>
    intro h fin line sline m i h' fin' l' sl' m' c i' hr hpow hi
    obtain ⟨k, hk⟩ := hpow
    have hbase : m = max m (2 ^ Nat.size i) := by
      have : Nat.size i ≤ k := Nat.size_le.mpr (hk ▸ hi)
      have : 2 ^ Nat.size i ≤ 2 ^ k := Nat.pow_le_pow_right (by omega) this
      rw [hk]; exact (Nat.max_eq_left this).symm
    rw [readLoop] at hr
    split at hr
    · cases hr; exact ⟨hbase, le_rfl⟩
    · split at hr
      · cases hr; exact ⟨hbase, le_rfl⟩
      · split at hr
        · rename_i hg
          split at hr
          · split at hr
            · cases hr
            · split at hr
              · cases hr
              · split at hr
                · cases hr
                · have hm : i + 1 = 2 ^ k := by omega
                  obtain ⟨e1, e2⟩ := ih _ _ _ _ _ _ _ _ _ _ _ _ _ hr
                    ⟨k + 1, by rw [hk, pow_succ]⟩ (by omega)
                  refine ⟨?_, by omega⟩
                  have h1 : Nat.size (i + 1) ≤ Nat.size i' := Nat.size_le_size e2
                  rw [hm, Nat.size_pow] at h1
                  have h2 : 2 ^ (k + 1) ≤ 2 ^ Nat.size i' := Nat.pow_le_pow_right (by omega) h1
                  rw [e1, hk]
                  rw [pow_succ] at h2
                  omega
          · cases hr
        · split at hr
          · cases hr
          · obtain ⟨e1, e2⟩ := ih _ _ _ _ _ _ _ _ _ _ _ _ _ hr ⟨k, hk⟩ (by omega)
            exact ⟨e1, by omega⟩

theorem pow_size_max (a b : Nat) :
    max (2 ^ Nat.size a) (2 ^ Nat.size b) = 2 ^ Nat.size (max a b) := by
  rcases le_total a b with hab | hab
  · have := Nat.pow_le_pow_right (show 0 < 2 by omega) (Nat.size_le_size hab)
    rw [Nat.max_eq_right hab, Nat.max_eq_right this]
  · have := Nat.pow_le_pow_right (show 0 < 2 by omega) (Nat.size_le_size hab)
    rw [Nat.max_eq_left hab, Nat.max_eq_left this]

/-- One call of `csvgetline` on a record shorter than `2 ^ 30` bytes with an allocator that
never refuses, from a fresh session (`L0 = 0`) or from a session whose capacity is the smallest
power of two above `L0`: the capacity it leaves is the smallest power of two above
`max L0 rec.length`. -/
theorem csvgetline_growth (h : Heap) (hh : h.Unlimited) (s : Session) (hv : s.Valid)
    (rec tail : List Nat) (hrec : ∀ c ∈ rec, c ≠ CR ∧ c ≠ LF)
    (htail : ∀ c, tail.head? = some c → c = CR ∨ c = LF) (hlen : rec.length < 2 ^ 30)
    (delim : Nat) (compress : Bool) (stack : Nat → List Nat)
    (hd : delim ≠ NUL ∨ rec.takeWhile (· != NUL) = []) (L0 : Nat)
    (hL : (s.line = none ∧ L0 = 0) ∨ (s.line ≠ none ∧ s.maxline = 2 ^ Nat.size L0)) :
    ∃ s' : Session, csvgetline h s (rec ++ tail) delim compress stack =
        some ⟨if tail = [] ∧ rec = [] then Ptr.null else Ptr.line 0, s',
          afterTerminator tail, h⟩ ∧
      s'.Holds (rec.takeWhile (· != NUL)) ∧ s'.line ≠ none ∧
      s'.maxline = 2 ^ Nat.size (max L0 rec.length) := by
  obtain ⟨s1, line, sline, field, a1, a2, a3, a4, a5, a6, a7, a8, a9, a10, a11, a12, a13⟩ :=
    firstAlloc_spec h hh s hv
  have hm1 : s1.maxline = 2 ^ Nat.size L0 := by
    rcases hL with ⟨h1, h2⟩ | ⟨h1, h2⟩
    · rw [a12 h1, h2, Nat.size_zero]; rfl
    · rw [a13 h1]; exact h2
  obtain ⟨line', sline', maxline', r1, r2, r3, r4, r5, r6⟩ := readLoop_spec h hh tail htail rec
    ((rec ++ tail).length + 1) line sline s1.maxline 0 hrec (by simp; omega) a5 a6 (by omega)
    (by omega)
  obtain ⟨g1, -⟩ := readLoop_maxline _ _ _ _ _ _ _ _ _ _ _ _ _ _ r1 ⟨_, hm1⟩ (by omega)
  simp only [Nat.zero_add, List.take_zero, List.nil_append] at r1 r4 r5 g1
  rw [hm1, pow_size_max] at g1
  have hst : store line' rec.length NUL = some (rec ++ NUL :: line'.drop (rec.length + 1)) := by
    unfold store
    rw [if_pos (by omega), set_eq_take_cons_drop _ _ _ (by omega), r5]
  have hcs : cstr (rec ++ NUL :: line'.drop (rec.length + 1)) =
      some (rec.takeWhile (· != NUL)) := cstr_takeWhile _ _
  have hl3 : (rec ++ NUL :: line'.drop (rec.length + 1)).length = maxline' := by
    rw [store_length _ _ _ _ hst, r2]
  have hholds : ∀ nf, nf ≤ s1.maxfield →
      (⟨some (rec ++ NUL :: line'.drop (rec.length + 1)), some sline', maxline', some field,
        s1.maxfield, nf⟩ : Session).Holds (rec.takeWhile (· != NUL)) := by
    intro nf hnf
    refine ⟨?_, ?_⟩
    · unfold Session.Valid
      exact ⟨hl3, r3, a7, by show 1 ≤ maxline'; omega, a9, hnf⟩
    · simpa using hcs
  have hs2 : (⟨some (rec ++ NUL :: line'.drop (rec.length + 1)), some sline', maxline',
      s1.field, s1.maxfield, s1.nfield⟩ : Session) =
      ⟨some (rec ++ NUL :: line'.drop (rec.length + 1)), some sline', maxline', some field,
        s1.maxfield, s1.nfield⟩ := by
    rw [← a4]
  have hnomem : ∀ n : Nat, ((n : Int) = NOMEM) = False := by
    intro n
    simp only [NOMEM, eq_iff_iff, iff_false]
    omega
  unfold csvgetline
  rw [a1]
  simp only [a2, a3, r1, hst, hs2]
  by_cases ht : rec.takeWhile (· != NUL) = []
  · have hsp := split_empty h _ (ht ▸ hholds s1.nfield a10) delim compress stack
    rw [hsp]
    have h0 : ((0 : Int) = NOMEM) = False := by simp [NOMEM]
    simp only [h0, if_false]
    refine ⟨_, ?_, hholds 0 (by omega), by simp, g1⟩
    congr 2
    cases tail <;> cases rec <;> simp
  · have hdn : delim ≠ NUL := by
      rcases hd with hd | hd
      · exact hd
      · exact (ht hd).elim
    obtain ⟨s', p1, p2, p3, p4, p5, p6, p7⟩ := split_spec h hh _ _ (hholds s1.nfield a10) ht delim
      hdn compress stack
    rw [p1]
    simp only [hnomem, if_false]
    refine ⟨s', ?_, p7, by rw [p5]; simp, by rw [p6]; exact g1⟩
    congr 2
    cases tail <;> cases rec <;> simp

theorem recordOf_split (fin : List Nat) :
    fin = recordOf fin ++ fin.dropWhile notEol ∧ (∀ c ∈ recordOf fin, c ≠ CR ∧ c ≠ LF) ∧
      (∀ c, (fin.dropWhile notEol).head? = some c → c = CR ∨ c = LF) :=
  ⟨(List.takeWhile_append_dropWhile notEol fin).symm, notEol_takeWhile fin, notEol_dropWhile fin⟩

theorem calls_succ (delim : Nat) (compress : Bool) (n : Nat) (stackAt : Nat → Nat → List Nat)
    (h : Heap) (s : Session) (fin : List Nat) (o : Outcome)
    (ho : csvgetline h s fin delim compress (stackAt 0) = some o) :
    calls delim compress (n + 1) stackAt h s fin =
      (calls delim compress n (fun k => stackAt (k + 1)) o.heap o.session o.fin).map
        ((fin, o) :: ·) := by
  rw [calls, ho]

theorem afterTerminator_suffix (tail : List Nat) : afterTerminator tail <:+ tail := by
  cases tail with
  | nil => exact List.suffix_refl _
  | cons c rest =>
    unfold afterTerminator endofline
    simp only []
    split
    · cases rest with
      | nil => exact List.nil_suffix
      | cons d fin1 =>
        simp only [getc, ungetc]
        split
        · exact List.suffix_cons _ _
        · exact (List.suffix_cons _ _).trans (List.suffix_cons _ _)
    · exact List.suffix_cons _ _

/-- The stream a read leaves is a suffix of the stream it was given. -/
theorem next_stream_suffix (fin : List Nat) :
    afterTerminator (fin.dropWhile notEol) <:+ fin :=
  (afterTerminator_suffix _).trans (List.dropWhile_suffix _)

/-- In a stream shorter than `n` bytes every record is shorter than `n` bytes. -/
theorem recordOf_suffix_lt (fin : List Nat) (n : Nat) (h : fin.length < n) :
    ∀ suf, suf <:+ fin → (recordOf suf).length < n := by
  intro suf hs
  have h1 : (recordOf suf).length ≤ suf.length := (List.takeWhile_sublist _).length_le
  have h2 : suf.length ≤ fin.length := hs.length_le
  omega

/-- Sequences of calls with an allocator that never refuses, from a valid session, on a stream
whose records are all shorter than `2 ^ 30` bytes: every call returns, leaves a valid session
whose `line` and `sline` blocks have `maxline` cells, with `maxline` above the length of its
record and not below the `maxline` before; capacities never decrease along the sequence and
stay above every earlier record. -/
theorem calls_capacity (h : Heap) (hh : h.Unlimited) (delim : Nat) (hd : delim ≠ NUL)
    (compress : Bool) : ∀ (n : Nat) (stackAt : Nat → Nat → List Nat) (s : Session)
    (fin : List Nat), s.Valid → (∀ suf, suf <:+ fin → (recordOf suf).length < 2 ^ 30) →
    ∃ cs, calls delim compress n stackAt h s fin = some cs ∧ cs.length = n ∧
      (∀ c ∈ cs, c.2.session.Valid ∧
        (∃ line sline, c.2.session.line = some line ∧ c.2.session.sline = some sline ∧
          line.length = c.2.session.maxline ∧ sline.length = c.2.session.maxline) ∧
        s.maxline ≤ c.2.session.maxline ∧ (recordOf c.1).length < c.2.session.maxline) ∧
      cs.Pairwise (fun a b => a.2.session.maxline ≤ b.2.session.maxline ∧
        (recordOf a.1).length < b.2.session.maxline) := by
  intro n
  induction n with
  | zero => intro stackAt s fin _ _; exact ⟨[], rfl, rfl, by simp, List.Pairwise.nil⟩
  | succ n ih =>
    intro stackAt s fin hv hlen
    obtain ⟨e1, e2, e3⟩ := recordOf_split fin
    obtain ⟨s', p1, p2, -, -, p5, p6⟩ := csvgetline_spec h hh s hv (recordOf fin)
      (fin.dropWhile notEol) e2 e3 (hlen fin (List.suffix_refl _)) delim compress (stackAt 0)
      (Or.inl hd)
    rw [← e1] at p1
    obtain ⟨cs, q1, q2, q3, q4⟩ := ih (fun k => stackAt (k + 1)) s'
      (afterTerminator (fin.dropWhile notEol)) p2.1
      (fun suf hs => hlen suf (hs.trans (next_stream_suffix fin)))
    obtain ⟨line, sline, field, lpost, u1, u2, u3, u4, u5, u6, u7, -⟩ := p2.unpack
    obtain ⟨o, ho, o1, o2, o3⟩ : ∃ o : Outcome,
        csvgetline h s fin delim compress (stackAt 0) = some o ∧
        o.session = s' ∧ o.heap = h ∧ o.fin = afterTerminator (fin.dropWhile notEol) :=
      ⟨_, p1, rfl, rfl, rfl⟩
    subst o1
    refine ⟨(fin, o) :: cs, ?_, by simp [q2], ?_, ?_⟩
    · rw [calls_succ delim compress n stackAt h s fin _ ho, o2, o3]
      simp only [q1, Option.map_some']
    · intro c hc
      rcases List.mem_cons.mp hc with rfl | hc'
      · exact ⟨p2.1, ⟨line, sline, u1, u2, u6, u7⟩, p5, p6⟩
      · obtain ⟨w1, w2, w3, w4⟩ := q3 c hc'
        exact ⟨w1, w2, le_trans p5 w3, w4⟩
    · refine List.Pairwise.cons ?_ q4
      intro b hb
      obtain ⟨-, -, w3, -⟩ := q3 b hb
      exact ⟨w3, lt_of_lt_of_le p6 w3⟩

theorem longest_cons (fin : List Nat) (o : Outcome) (cs : List (List Nat × Outcome)) :
    longest ((fin, o) :: cs) = max (recordOf fin).length (longest cs) := by
  simp [longest]

/-- Sequences of calls with an allocator that never refuses, on a stream whose records are all
shorter than `2 ^ 30` bytes, from a fresh session (`L0 = 0`) or a session whose capacity is the
smallest power of two above `L0`: after each call the capacity is the smallest power of two
above the longest record so far (and `L0`), and it only changes by doubling. -/
theorem calls_growth (h : Heap) (hh : h.Unlimited) (delim : Nat) (hd : delim ≠ NUL)
    (compress : Bool) : ∀ (n : Nat) (stackAt : Nat → Nat → List Nat) (s : Session)
    (fin : List Nat) (L0 : Nat), s.Valid →
    (∀ suf, suf <:+ fin → (recordOf suf).length < 2 ^ 30) →
    ((s.line = none ∧ L0 = 0) ∨ (s.line ≠ none ∧ s.maxline = 2 ^ Nat.size L0)) →
    ∃ cs, calls delim compress n stackAt h s fin = some cs ∧ cs.length = n ∧
      (∀ k, k < n → ∃ c, cs[k]? = some c ∧
        c.2.session.maxline = 2 ^ Nat.size (max L0 (longest (cs.take (k + 1))))) ∧
      (∀ c ∈ cs, ∃ e, c.2.session.maxline = 2 ^ e ∧ Nat.size L0 ≤ e) ∧
      cs.Pairwise (fun a b => ∃ d, b.2.session.maxline = a.2.session.maxline * 2 ^ d) := by
  intro n
  induction n with
  | zero =>
    intro stackAt s fin L0 _ _ _
    exact ⟨[], rfl, rfl, by intro k hk; omega, by simp, List.Pairwise.nil⟩
  | succ n ih =>
    intro stackAt s fin L0 hv hlen hL
    obtain ⟨e1, e2, e3⟩ := recordOf_split fin
    obtain ⟨s', p1, p2, p3, p4⟩ := csvgetline_growth h hh s hv (recordOf fin)
      (fin.dropWhile notEol) e2 e3 (hlen fin (List.suffix_refl _)) delim compress (stackAt 0)
      (Or.inl hd) L0 hL
    rw [← e1] at p1
    obtain ⟨cs, q1, q2, q3, q4, q5⟩ := ih (fun k => stackAt (k + 1)) s'
      (afterTerminator (fin.dropWhile notEol))
      (max L0 (recordOf fin).length) p2.1
      (fun suf hs => hlen suf (hs.trans (next_stream_suffix fin))) (Or.inr ⟨p3, p4⟩)
    obtain ⟨o, ho, o1, o2, o3⟩ : ∃ o : Outcome,
        csvgetline h s fin delim compress (stackAt 0) = some o ∧
        o.session = s' ∧ o.heap = h ∧ o.fin = afterTerminator (fin.dropWhile notEol) :=
      ⟨_, p1, rfl, rfl, rfl⟩
    subst o1
    have hsz : Nat.size L0 ≤ Nat.size (max L0 (recordOf fin).length) :=
      Nat.size_le_size (le_max_left _ _)
    refine ⟨(fin, o) :: cs, ?_, by simp [q2], ?_, ?_, ?_⟩
    · rw [calls_succ delim compress n stackAt h s fin _ ho, o2, o3]
      simp only [q1, Option.map_some']
    · intro k hk
      cases k with
      | zero =>
        refine ⟨(fin, o), by simp, ?_⟩
        rw [p4]
        simp [longest]
      | succ k =>
        obtain ⟨c, c1, c2⟩ := q3 k (by omega)
        refine ⟨c, by simpa using c1, ?_⟩
        rw [c2, List.take_succ_cons, longest_cons, max_assoc]
    · intro c hc
      rcases List.mem_cons.mp hc with rfl | hc'
      · exact ⟨_, p4, hsz⟩
      · obtain ⟨e, w1, w2⟩ := q4 c hc'
        exact ⟨e, w1, le_trans hsz w2⟩
    · refine List.Pairwise.cons ?_ q5
      intro b hb
      obtain ⟨e, w1, w2⟩ := q4 b hb
      refine ⟨e - Nat.size (max L0 (recordOf fin).length), ?_⟩
      rw [w1, p4, ← pow_add]
      congr 1
      omega

/-! ## Claims on the capacity of the record blocks -/

/-- C17: across every sequence of successful `csvgetline` calls in one session, that is calls
that the allocator never refuses and whose records are all shorter than `2 ^ 30` bytes (so
that no capacity handed to `realloc` has left the range of `int`), with a delimiter other than
`NUL`, any bytes after `delim` in memory, from any valid session state: every call returns;
after each call the raw record `line` and the working copy `sline` have the same capacity
`maxline`; `maxline` never decreases (it is at least the starting value and at least the value
after any earlier call); and after each call `maxline` is strictly greater than the length of
the record just read and of every record read earlier in the sequence. -/
theorem calls_keep_capacity (h : Heap) (hh : h.Unlimited) (delim : Nat) (hd : delim ≠ NUL)
    (compress : Bool) (n : Nat) (stackAt : Nat → Nat → List Nat) (s : Session)
    (fin : List Nat) (hv : s.Valid)
    (hlen : ∀ suf, suf <:+ fin → (recordOf suf).length < 2 ^ 30) :
    ∃ cs, calls delim compress n stackAt h s fin = some cs ∧ cs.length = n ∧
      (∀ c ∈ cs,
        (∃ line sline, c.2.session.line = some line ∧ c.2.session.sline = some sline ∧
          line.length = c.2.session.maxline ∧ sline.length = c.2.session.maxline) ∧
        s.maxline ≤ c.2.session.maxline ∧ (recordOf c.1).length < c.2.session.maxline) ∧
      cs.Pairwise (fun a b => a.2.session.maxline ≤ b.2.session.maxline ∧
        (recordOf a.1).length < b.2.session.maxline) := by
  obtain ⟨cs, q1, q2, q3, q4⟩ := calls_capacity h hh delim hd compress n stackAt s fin hv hlen
  exact ⟨cs, q1, q2, fun c hc => (q3 c hc).2, q4⟩

theorem calls_keep_capacity_witness :
    Session.init.Valid ∧
    (∀ suf, suf <:+ bytes "abcde\nf\n" → (recordOf suf).length < 2 ^ 30) ∧
    ∃ cs, calls 44 false 3 (fun _ _ => [85]) ⟨[], 0⟩ Session.init (bytes "abcde\nf\n") =
        some cs ∧
      cs.length = 3 ∧
      (∀ c ∈ cs,
        (∃ line sline, c.2.session.line = some line ∧ c.2.session.sline = some sline ∧
          line.length = c.2.session.maxline ∧ sline.length = c.2.session.maxline) ∧
        Session.init.maxline ≤ c.2.session.maxline ∧
        (recordOf c.1).length < c.2.session.maxline) ∧
      cs.Pairwise (fun a b => a.2.session.maxline ≤ b.2.session.maxline ∧
        (recordOf a.1).length < b.2.session.maxline) :=
  ⟨by decide, recordOf_suffix_lt _ _ (by decide),
    calls_keep_capacity ⟨[], 0⟩ (by decide) 44 (by decide) false 3 (fun _ _ => [85])
      Session.init (bytes "abcde\nf\n") (by decide) (recordOf_suffix_lt _ _ (by decide))⟩

/-- C18: growth law of the record blocks.  Starting from a fresh session, for a sequence of
successful reads, that is reads that the allocator never refuses and whose records are all
shorter than `2 ^ 30` bytes (so that no capacity handed to `realloc` has left the range of
`int`), with a delimiter other than `NUL` and any bytes after `delim` in memory: every call of
the sequence returns, and after the call number `k` the capacity `maxline` is the smallest
power of two strictly greater than the length `L` of the longest record read so far: it is
`2 ^ Nat.size L`, it is above `L`, and every power of two above `L` is at least as large.
Every capacity of the sequence is a power of two (the first allocation has one cell) and each
one is an earlier one times a power of two: the capacity changes only by doubling, and one
doubling at a byte leaves room for the byte and the terminator, since no call ever fails a
bounds check. -/
theorem calls_growth_law (h : Heap) (hh : h.Unlimited) (delim : Nat) (hd : delim ≠ NUL)
    (compress : Bool) (n : Nat) (stackAt : Nat → Nat → List Nat) (fin : List Nat)
    (hlen : ∀ suf, suf <:+ fin → (recordOf suf).length < 2 ^ 30) :
    ∃ cs, calls delim compress n stackAt h Session.init fin = some cs ∧ cs.length = n ∧
      (∀ k, k < n → ∃ c, cs[k]? = some c ∧
        c.2.session.maxline = 2 ^ Nat.size (longest (cs.take (k + 1))) ∧
        longest (cs.take (k + 1)) < c.2.session.maxline ∧
        ∀ j, longest (cs.take (k + 1)) < 2 ^ j → c.2.session.maxline ≤ 2 ^ j) ∧
      (∀ c ∈ cs, ∃ e, c.2.session.maxline = 2 ^ e) ∧
      cs.Pairwise (fun a b => ∃ d, b.2.session.maxline = a.2.session.maxline * 2 ^ d) := by
  obtain ⟨cs, q1, q2, q3, q4, q5⟩ := calls_growth h hh delim hd compress n stackAt Session.init
    fin 0 (by decide) hlen (Or.inl ⟨rfl, rfl⟩)
  refine ⟨cs, q1, q2, ?_, fun c hc => ⟨_, (q4 c hc).choose_spec.1⟩, q5⟩
  intro k hk
  obtain ⟨c, c1, c2⟩ := q3 k hk
  rw [Nat.zero_max] at c2
  refine ⟨c, c1, c2, ?_, ?_⟩
  · rw [c2]; exact Nat.lt_size_self _
  · intro j hj
    rw [c2]
    exact Nat.pow_le_pow_right (by omega) (Nat.size_le.mpr hj)

theorem calls_growth_law_witness :
    (∀ suf, suf <:+ bytes "abcde\nf\n" → (recordOf suf).length < 2 ^ 30) ∧
    ∃ cs, calls 44 false 3 (fun _ _ => [85]) ⟨[], 0⟩ Session.init (bytes "abcde\nf\n") =
        some cs ∧
      cs.length = 3 ∧
      (∀ k, k < 3 → ∃ c, cs[k]? = some c ∧
        c.2.session.maxline = 2 ^ Nat.size (longest (cs.take (k + 1))) ∧
        longest (cs.take (k + 1)) < c.2.session.maxline ∧
        ∀ j, longest (cs.take (k + 1)) < 2 ^ j → c.2.session.maxline ≤ 2 ^ j) ∧
      (∀ c ∈ cs, ∃ e, c.2.session.maxline = 2 ^ e) ∧
      cs.Pairwise (fun a b => ∃ d, b.2.session.maxline = a.2.session.maxline * 2 ^ d) :=
  ⟨recordOf_suffix_lt _ _ (by decide),
    calls_growth_law ⟨[], 0⟩ (by decide) 44 (by decide) false 3 (fun _ _ => [85])
      (bytes "abcde\nf\n") (recordOf_suffix_lt _ _ (by decide))⟩

/-- The capacities after reading records of 0, 1, 2, 3 and 4 bytes from a fresh session are
1, 2, 4, 4 and 8. -/
theorem maxline_examples :
    ((csvgetline ⟨[], 0⟩ Session.init (bytes "\n") 44 false (fun _ => [])).map
      (fun o => o.session.maxline) = some 1) ∧
    ((csvgetline ⟨[], 0⟩ Session.init (bytes "a\n") 44 false (fun _ => [])).map
      (fun o => o.session.maxline) = some 2) ∧
    ((csvgetline ⟨[], 0⟩ Session.init (bytes "ab\n") 44 false (fun _ => [])).map
      (fun o => o.session.maxline) = some 4) ∧
    ((csvgetline ⟨[], 0⟩ Session.init (bytes "abc\n") 44 false (fun _ => [])).map
      (fun o => o.session.maxline) = some 4) ∧
    ((csvgetline ⟨[], 0⟩ Session.init (bytes "abcd\n") 44 false (fun _ => [])).map
      (fun o => o.session.maxline) = some 8) := by
  decide

/-! ## Number of iterations of the loop of `split` -/

/-- The loop of `split` uses one unit of fuel for each field it records: when it returns
without `NOMEM`, it recorded at least one field, and it returns the same with any fuel that is
at least the number of fields recorded. -/
theorem splitLoop_fuel (delim : Nat) (compress : Bool) (stack : Nat → List Nat) :
    ∀ (f : Nat) (h : Heap) (sline field : List Nat) (mf nf p : Nat) (o : SplitOut),
    splitLoop delim compress stack f h sline field mf nf p = some o → o.ret ≠ NOMEM →
    nf < o.nfield ∧ ∀ f', o.nfield - nf ≤ f' →
      splitLoop delim compress stack f' h sline field mf nf p = some o := by
  intro f
  induction f with
  | zero => intro h sline field mf nf p o ho; simp [splitLoop] at ho
  | succ f ih =>
    intro h sline field mf nf p o ho hret
    rw [splitLoop] at ho
    split at ho
    · cases ho; exact (hret rfl).elim
    · rename_i field1 h1 mf1 hg
      split at ho
      · cases ho
      · rename_i sline1 p2 sepp hsc
        split at ho
        · cases ho
        · rename_i sepc hld
          split at ho
          · cases ho
          · rename_i sline2 hst
            split at ho
            · cases ho
            · rename_i field2 hst2
              have hunfold : ∀ f'' : Nat,
                  splitLoop delim compress stack (f'' + 1) h sline field mf nf p =
                  if sepc = delim then
                    splitLoop delim compress stack f'' h1 sline2 field2 mf1 (nf + 1) (sepp + 1)
                  else some ⟨(nf + 1 : Nat), h1, sline2, field2, mf1, nf + 1⟩ := by
                intro f''
                rw [splitLoop, hg]
                simp only [hsc, hld, hst, hst2]
              split at ho
              · rename_i hsep
                obtain ⟨e1, e2⟩ := ih _ _ _ _ _ _ _ ho hret
                refine ⟨by omega, ?_⟩
                intro f' hf'
                obtain ⟨f'', rfl⟩ : ∃ f'', f' = f'' + 1 := ⟨f' - 1, by omega⟩
                rw [hunfold, if_pos hsep]
                exact e2 f'' (by omega)
              · rename_i hsep
                cases ho
                refine ⟨by simp, ?_⟩
                intro f' hf'
                obtain ⟨f'', rfl⟩ : ∃ f'', f' = f'' + 1 := ⟨f' - 1, by simp at hf'; omega⟩
                rw [hunfold, if_neg hsep]

theorem count_suffix (delim : Nat) (U rest : List Nat) :
    (U ++ delim :: rest).count delim = U.count delim + rest.count delim + 1 := by
  rw [List.count_append, List.count_cons_self]; omega

theorem quotedFieldWith_rest_suffix (reject : List Nat) (R : List Nat) :
    ∃ U, R = U ++ (quotedFieldWith reject R).2 := by
  induction R using quotedFieldWith.induct reject with
  | case1 => exact ⟨[], rfl⟩
  | case2 => exact ⟨[QUOTE], by simp [quotedFieldWith_quote_nil]⟩
  | case3 ds ih =>
    obtain ⟨U, hU⟩ := ih
    refine ⟨QUOTE :: QUOTE :: U, ?_⟩
    rw [quotedFieldWith_quote_quote]
    simpa using hU
  | case4 d ds hd =>
    rw [quotedFieldWith_quote_other reject d ds hd]
    refine ⟨QUOTE :: (d :: ds).takeWhile (· ∉ reject), ?_⟩
    simp only [List.cons_append]
    rw [List.takeWhile_append_dropWhile]
  | case5 c cs hc ih =>
    obtain ⟨U, hU⟩ := ih
    refine ⟨c :: U, ?_⟩
    rw [quotedFieldWith_other reject c cs hc]
    simpa using hU

theorem nextFieldWith_rest_suffix (delim : Nat) (compress : Bool) (reject : List Nat)
    (t : List Nat) : ∃ U, t = U ++ (nextFieldWith delim compress reject t).2 := by
  obtain ⟨S, hS⟩ : ∃ S, t = S ++ skipped delim compress t := by
    unfold skipped
    split
    · exact ⟨_, (List.takeWhile_append_dropWhile _ _).symm⟩
    · exact ⟨[], rfl⟩
  unfold nextFieldWith
  split
  · exact ⟨t, by simp⟩
  · rename_i c cs heq
    rw [heq] at hS
    split
    · obtain ⟨U, hU⟩ := quotedFieldWith_rest_suffix reject cs
      refine ⟨S ++ c :: U, ?_⟩
      rw [List.append_assoc, List.cons_append, ← hU]
      exact hS
    · refine ⟨S ++ (c :: cs).takeWhile (· ∉ reject), ?_⟩
      rw [List.append_assoc, List.takeWhile_append_dropWhile]
      exact hS

/-- The loop of `split` produces at least one field and at most one more than the number of
delimiters of the text, whatever reject strings its calls of `strcspn` read. -/
theorem fieldsFromWith_length (delim : Nat) (compress : Bool) (stack : Nat → List Nat) :
    ∀ (fuel n : Nat) (t : List Nat),
    (fieldsFromWith delim compress stack fuel n t).length ≤ t.count delim + 1 ∧
      (0 < fuel → 1 ≤ (fieldsFromWith delim compress stack fuel n t).length) := by
  intro fuel
  induction fuel with
  | zero => intro n t; simp [fieldsFromWith]
  | succ fuel ih =>
    intro n t
    rcases nextFieldWith_cases delim compress (rejectAt delim (stack n)) t with
      hr | ⟨rest, hr, -⟩ | ⟨x, rest, hr, hx, -, -⟩
    · rw [fieldsFromWith_succ_nil _ _ _ _ _ _ hr]; simp
    · rw [fieldsFromWith_succ_cons _ _ _ _ _ _ _ hr]
      obtain ⟨U, hU⟩ := nextFieldWith_rest_suffix delim compress (rejectAt delim (stack n)) t
      rw [hr] at hU
      have hc := count_suffix delim U rest
      rw [← hU] at hc
      have := (ih (n + 1) rest).1
      simp only [List.length_cons]
      exact ⟨by omega, fun _ => by omega⟩
    · rw [fieldsFromWith_succ_stop _ _ _ _ _ _ _ _ hr hx]; simp

/-- C20: for a non-empty record `t` (held in `line`, hence `NUL`-free), a delimiter other than
`NUL` and either compress setting (allocator never refusing), the loop of `split` ends within
`t.count delim + 1` iterations: run with that much fuel, one unit per iteration, on the copy
`strcpy` made, it returns what `split` returns; so `1 <= nfield <= 1 + t.count delim`.  With
the empty record, for which `split` returns `0`, the field count is `0` exactly when the
record is empty.  This holds whatever bytes follow `delim` in memory (`stack`). -/
theorem split_iteration_bound (h : Heap) (hh : h.Unlimited) (s : Session) (t : List Nat)
    (delim : Nat) (compress : Bool) (stack : Nat → List Nat) (hs : s.Holds t)
    (hd : delim ≠ NUL) :
    ∃ s' : Session, split h s delim compress stack = some ((s'.nfield : Int), h, s') ∧
      (s'.nfield = 0 ↔ t = []) ∧
      (t ≠ [] → 1 ≤ s'.nfield ∧ s'.nfield ≤ t.count delim + 1 ∧
        ∃ (line sline field sline1 : List Nat) (o : SplitOut),
          s.line = some line ∧ s.sline = some sline ∧ s.field = some field ∧
          strcpy sline line = some sline1 ∧
          splitLoop delim compress stack (t.count delim + 1) h sline1 field s.maxfield 0 0 =
            some o ∧
          o.ret = (s'.nfield : Int) ∧ o.nfield = s'.nfield ∧ s'.sline = some o.sline ∧
          s'.field = some o.field) := by
  by_cases ht : t = []
  · subst ht
    refine ⟨{ s with nfield := 0 }, ?_, by simp, fun hne => (hne rfl).elim⟩
    rw [split_empty h s hs delim compress stack]; rfl
  · obtain ⟨s', p1, -, -, p4, -⟩ := split_spec h hh s t hs ht delim hd compress stack
    obtain ⟨b1, b2⟩ := fieldsFromWith_length delim compress stack (t.length + 1) 0 t
    have b2' := b2 (by omega)
    have hlen1 : 1 ≤ s'.nfield := by rw [p4]; exact b2'
    have hlen2 : s'.nfield ≤ t.count delim + 1 := by rw [p4]; exact b1
    refine ⟨s', by rw [p4]; exact p1, ⟨fun h0 => by omega, fun h0 => (ht h0).elim⟩, ?_⟩
    intro _
    refine ⟨hlen1, hlen2, ?_⟩
    obtain ⟨line, sline, field, lpost, h1, h2, h3, h4, h5, h6, h7, h8, h9, h10⟩ := hs.unpack
    obtain ⟨c, cs, rfl⟩ : ∃ c cs, t = c :: cs := by
      cases t with
      | nil => exact (ht rfl).elim
      | cons c cs => exact ⟨c, cs, rfl⟩
    have hc : c ≠ NUL := fun h' => h5 (by simp [h'])
    have hcst : cstr line = some (c :: cs) := by rw [h4]; exact cstr_append _ _ h5
    have hlen : (c :: cs).length + 1 ≤ sline.length := by
      rw [h7, ← h6, h4]; simp
    have hcpy : strcpy sline line =
        some ((c :: cs) ++ NUL :: sline.drop ((c :: cs).length + 1)) := by
      unfold strcpy; rw [hcst]; simp only; rw [if_pos hlen]
    have hl0 : load line 0 = some c := by rw [h4]; simp [load]
    unfold split at p1
    rw [h1, h2, h3] at p1
    simp only [hl0, hc, if_false, hcpy] at p1
    cases hsl : splitLoop delim compress stack
        (((c :: cs) ++ NUL :: sline.drop ((c :: cs).length + 1)).length + 1) h
        ((c :: cs) ++ NUL :: sline.drop ((c :: cs).length + 1)) field s.maxfield 0 0 with
    | none => rw [hsl] at p1; cases p1
    | some o =>
      rw [hsl] at p1
      simp only [Option.some.injEq, Prod.mk.injEq] at p1
      obtain ⟨q1, q2, q3⟩ := p1
      have hnf : o.nfield = s'.nfield := by rw [← q3]
      have hret : o.ret ≠ NOMEM := by
        rw [q1]; simp only [NOMEM]; omega
      obtain ⟨-, e2⟩ := splitLoop_fuel delim compress stack _ _ _ _ _ _ _ _ hsl hret
      refine ⟨line, sline, field, _, o, h1, h2, h3, hcpy, e2 _ (by omega), ?_, hnf, ?_, ?_⟩
      · rw [q1, p4]
      · rw [← q3]
      · rw [← q3]

theorem split_iteration_bound_witness :
    (Session.holding (bytes "a,\"b,c\",,d")).Holds (bytes "a,\"b,c\",,d") ∧
    ∃ s' : Session, split ⟨[], 0⟩ (Session.holding (bytes "a,\"b,c\",,d")) 44 true
        (fun _ => [98]) = some ((s'.nfield : Int), ⟨[], 0⟩, s') ∧
      (s'.nfield = 0 ↔ bytes "a,\"b,c\",,d" = []) ∧
      (bytes "a,\"b,c\",,d" ≠ [] → 1 ≤ s'.nfield ∧
        s'.nfield ≤ (bytes "a,\"b,c\",,d").count 44 + 1 ∧
        ∃ (line sline field sline1 : List Nat) (o : SplitOut),
          (Session.holding (bytes "a,\"b,c\",,d")).line = some line ∧
          (Session.holding (bytes "a,\"b,c\",,d")).sline = some sline ∧
          (Session.holding (bytes "a,\"b,c\",,d")).field = some field ∧
          strcpy sline line = some sline1 ∧
          splitLoop 44 true (fun _ => [98]) ((bytes "a,\"b,c\",,d").count 44 + 1) ⟨[], 0⟩
              sline1 field
            (Session.holding (bytes "a,\"b,c\",,d")).maxfield 0 0 = some o ∧
          o.ret = (s'.nfield : Int) ∧ o.nfield = s'.nfield ∧ s'.sline = some o.sline ∧
          s'.field = some o.field) :=
  ⟨by decide, split_iteration_bound ⟨[], 0⟩ (by decide) (Session.holding (bytes "a,\"b,c\",,d"))
    (bytes "a,\"b,c\",,d") 44 true (fun _ => [98]) (by decide) (by decide)⟩

/-! ## Allocation failure -/

theorem Heap.unlimited_unlimited (h : Heap) : h.unlimited.Unlimited := rfl

theorem Heap.Granted.refl (h : Heap) : h.Granted h := ⟨[], rfl, by simp, rfl⟩

theorem Heap.Granted.trans {h h1 h2 : Heap} (a : h.Granted h1) (b : h1.Granted h2) :
    h.Granted h2 := by
  obtain ⟨u1, e1, g1, f1⟩ := a
  obtain ⟨u2, e2, g2, f2⟩ := b
  refine ⟨u1 ++ u2, by rw [e1, e2, List.append_assoc], ?_, by rw [f2, f1]⟩
  intro x hx
  rcases List.mem_append.mp hx with hx | hx
  · exact g1 x hx
  · exact g2 x hx

theorem Heap.Granted.refused {h h1 h2 : Heap} (a : h.Granted h1) (b : h1.Refused h2) :
    h.Refused h2 := by
  obtain ⟨u1, e1, -, f1⟩ := a
  obtain ⟨u2, e2, g2, f2⟩ := b
  exact ⟨u1 ++ u2, by rw [e1, e2, List.append_assoc], List.mem_append_right _ g2, by rw [f2, f1]⟩

theorem Heap.Granted.fill {h h' : Heap} (a : h.Granted h') : h'.unlimited = h.unlimited := by
  obtain ⟨_, _, _, f⟩ := a
  simp [Heap.unlimited, f]

/-- A request is granted or refused, and takes at most one outcome from the schedule. -/
theorem Heap.request_cases (h : Heap) :
    (h.request.1 = true ∧ h.Granted h.request.2) ∨
      (h.request.1 = false ∧ h.Refused h.request.2) := by
  unfold Heap.request
  cases ho : h.outcomes with
  | nil => left; exact ⟨rfl, ⟨[], by simp [ho], by simp, rfl⟩⟩
  | cons b bs =>
    cases b with
    | true => left; exact ⟨rfl, ⟨[true], by simp [ho], by simp, rfl⟩⟩
    | false => right; exact ⟨rfl, ⟨[false], by simp [ho], by simp, rfl⟩⟩

/-- A granted request can be told from a refused one by the outcomes used. -/
theorem Heap.granted_not_refused {h h' : Heap} (a : h.Granted h') (b : h.Refused h') : False := by
  obtain ⟨u1, e1, g1, -⟩ := a
  obtain ⟨u2, e2, g2, -⟩ := b
  have : u1 = u2 := List.append_cancel_right (e1.symm.trans e2)
  subst this
  exact Bool.noConfusion (g1 false g2)

/-- What `realloc` gives with any allocator, against the allocator that never refuses. -/
theorem realloc_cases (h : Heap) (buf : List Nat) (n : Nat) :
    (∃ h', h.Granted h' ∧ realloc h buf n = ((realloc h.unlimited buf n).1, h')) ∨
      (∃ h', h.Refused h' ∧ realloc h buf n = (none, h')) := by
  rcases Heap.request_cases h with ⟨r, g⟩ | ⟨r, g⟩
  · left
    refine ⟨_, g, ?_⟩
    have hu : h.unlimited.request = (true, h.unlimited) := rfl
    unfold realloc
    rw [if_pos r, hu]
    rfl
  · right
    exact ⟨_, g, by simp [realloc, r]⟩

theorem malloc_cases (h : Heap) (n : Nat) :
    (∃ h', h.Granted h' ∧ malloc h n = (some (List.replicate n h.fill), h')) ∨
      (∃ h', h.Refused h' ∧ malloc h n = (none, h')) := by
  rcases Heap.request_cases h with ⟨r, g⟩ | ⟨r, g⟩
  · left; exact ⟨_, g, by simp [malloc, r]⟩
  · right; exact ⟨_, g, by simp [malloc, r]⟩

theorem realloc_unlimited_some (h : Heap) (hh : h.Unlimited) (buf : List Nat) (n : Nat) :
    ∃ b, realloc h buf n = (some b, h) := by
  unfold Heap.Unlimited at hh
  exact ⟨(buf ++ List.replicate (n - buf.length) h.fill).take n,
    by simp [realloc, Heap.request, hh]⟩

/-- The reading loop with any allocator follows the run with the allocator that never refuses
until a request is refused. -/
theorem readLoop_any_heap : ∀ (fuel : Nat) (h : Heap) (fin line sline : List Nat) (m i : Nat)
    (hu : Heap) (fin' l' sl' : List Nat) (m' : Nat) (c : Option Nat) (i' : Nat),
    readLoop fuel h.unlimited fin line sline m i = some (ReadOut.done hu fin' l' sl' m' c i') →
    ∃ h', (h.Granted h' ∧
        readLoop fuel h fin line sline m i = some (ReadOut.done h' fin' l' sl' m' c i')) ∨
      (h.Refused h' ∧ ∃ fin'', readLoop fuel h fin line sline m i =
        some (ReadOut.nomem h' fin'')) := by
  intro fuel
  induction fuel with
  | zero => intro h fin line sline m i hu fin' l' sl' m' c i' hr; exact Option.noConfusion hr
  | succ fuel ih =>
    intro h fin line sline m i hu fin' l' sl' m' c i' hr
    rw [readLoop] at hr ⊢
    split at hr
    · cases hr
      exact ⟨h, Or.inl ⟨Heap.Granted.refl h, by simp [*]⟩⟩
    · rename_i c0 fin1 hgetc
      split at hr
      · rename_i fin2 heol
        cases hr
        exact ⟨h, Or.inl ⟨Heap.Granted.refl h, by simp [heol]⟩⟩
      · rename_i fin2 heol
        split at hr
        · rename_i hg
          rw [if_pos hg]
          split at hr
          · rename_i hov
            rw [if_pos hov]
            split at hr
            · cases hr
            · rename_i newl hu1 hre1
              split at hr
              · cases hr
              · rename_i news hu2 hre2
                split at hr
                · cases hr
                · rename_i line1 hst
                  -- first request
                  rcases realloc_cases h line (m * 2) with ⟨h1, g1, e1⟩ | ⟨h1, g1, e1⟩
                  · rw [e1, hre1]
                    simp only
                    have hu1' : hu1 = h.unlimited := by
                      have := congrArg Prod.snd hre1
                      simp only [realloc, Heap.unlimited, Heap.request, if_true] at this
                      exact this.symm
                    subst hu1'
                    rcases realloc_cases h1 sline (m * 2) with ⟨h2, g2, e2⟩ | ⟨h2, g2, e2⟩
                    · rw [e2, g1.fill, hre2]
                      simp only [hst]
                      have hu2' : hu2 = h.unlimited := by
                        have := congrArg Prod.snd hre2
                        simp only [realloc, Heap.unlimited, Heap.request, if_true] at this
                        exact this.symm
                      subst hu2'
                      rw [← (g1.trans g2).fill] at hr
                      obtain ⟨h', hh'⟩ := ih h2 _ _ _ _ _ _ _ _ _ _ _ _ hr
                      refine ⟨h', ?_⟩
                      rcases hh' with ⟨a, b⟩ | ⟨a, b⟩
                      · exact Or.inl ⟨(g1.trans g2).trans a, b⟩
                      · exact Or.inr ⟨(g1.trans g2).refused a, b⟩
                    · rw [e2]
                      exact ⟨h2, Or.inr ⟨g1.refused g2, _, rfl⟩⟩
                  · rw [e1]
                    exact ⟨h1, Or.inr ⟨g1, _, rfl⟩⟩
          · cases hr
        · rename_i hg
          rw [if_neg hg]
          split at hr
          · cases hr
          · rename_i line1 hst
            exact ih h _ _ _ _ _ _ _ _ _ _ _ _ hr

/-- The reading loop with any allocator, when the run with the allocator that never refuses
stops at a capacity that cannot be doubled: it stops there too, unless a request was refused
before. -/
theorem readLoop_any_heap_nomem : ∀ (fuel : Nat) (h : Heap) (fin line sline : List Nat)
    (m i : Nat) (hu : Heap) (fin' : List Nat),
    readLoop fuel h.unlimited fin line sline m i = some (ReadOut.nomem hu fin') →
    ∃ h', (h.Granted h' ∧
        readLoop fuel h fin line sline m i = some (ReadOut.nomem h' fin')) ∨
      (h.Refused h' ∧ ∃ fin'', readLoop fuel h fin line sline m i =
        some (ReadOut.nomem h' fin'')) := by
  intro fuel
  induction fuel with
  | zero => intro h fin line sline m i hu fin' hr; exact Option.noConfusion hr
  | succ fuel ih =>
    intro h fin line sline m i hu fin' hr
    rw [readLoop] at hr ⊢
    split at hr
    · cases hr
    · rename_i c0 fin1 hgetc
      split at hr
      · cases hr
      · rename_i fin2 heol
        split at hr
        · rename_i hg
          rw [if_pos hg]
          split at hr
          · rename_i hov
            rw [if_pos hov]
            split at hr
            · rename_i hu1 hre1
              obtain ⟨b, e⟩ :=
                realloc_unlimited_some h.unlimited h.unlimited_unlimited line (m * 2)
              rw [e] at hre1
              cases hre1
            · rename_i newl hu1 hre1
              split at hr
              · rename_i hu2 hre2
                have hu1' : hu1 = h.unlimited := by
                  have := congrArg Prod.snd hre1
                  simp only [realloc, Heap.unlimited, Heap.request, if_true] at this
                  exact this.symm
                subst hu1'
                obtain ⟨b, e⟩ :=
                  realloc_unlimited_some h.unlimited h.unlimited_unlimited sline (m * 2)
                rw [e] at hre2
                cases hre2
              · rename_i news hu2 hre2
                split at hr
                · cases hr
                · rename_i line1 hst
                  rcases realloc_cases h line (m * 2) with ⟨h1, g1, e1⟩ | ⟨h1, g1, e1⟩
                  · rw [e1, hre1]
                    simp only
                    have hu1' : hu1 = h.unlimited := by
                      have := congrArg Prod.snd hre1
                      simp only [realloc, Heap.unlimited, Heap.request, if_true] at this
                      exact this.symm
                    subst hu1'
                    rcases realloc_cases h1 sline (m * 2) with ⟨h2, g2, e2⟩ | ⟨h2, g2, e2⟩
                    · rw [e2, g1.fill, hre2]
                      simp only [hst]
                      have hu2' : hu2 = h.unlimited := by
                        have := congrArg Prod.snd hre2
                        simp only [realloc, Heap.unlimited, Heap.request, if_true] at this
                        exact this.symm
                      subst hu2'
                      rw [← (g1.trans g2).fill] at hr
                      obtain ⟨h', hh'⟩ := ih h2 _ _ _ _ _ _ _ hr
                      refine ⟨h', ?_⟩
                      rcases hh' with ⟨a, b⟩ | ⟨a, b⟩
                      · exact Or.inl ⟨(g1.trans g2).trans a, b⟩
                      · exact Or.inr ⟨(g1.trans g2).refused a, b⟩
                    · rw [e2]
                      exact ⟨h2, Or.inr ⟨g1.refused g2, _, rfl⟩⟩
                  · rw [e1]
                    exact ⟨h1, Or.inr ⟨g1, _, rfl⟩⟩
          · rename_i hov
            rw [if_neg hov]
            cases hr
            exact ⟨h, Or.inl ⟨Heap.Granted.refl h, rfl⟩⟩
        · rename_i hg
          rw [if_neg hg]
          split at hr
          · cases hr
          · rename_i line1 hst
            exact ih h _ _ _ _ _ _ _ hr

/-- With an allocator that never refuses the reading loop leaves the allocator as it was: it
ends at a line terminator or at the end of the stream, or it stops at a capacity that cannot
be doubled. -/
theorem readLoop_unlimited : ∀ (fuel : Nat) (h : Heap) (fin line sline : List Nat) (m i : Nat)
    (r : ReadOut), h.Unlimited → readLoop fuel h fin line sline m i = some r →
    (∃ fin' l' sl' m' c i', r = ReadOut.done h fin' l' sl' m' c i') ∨
      (∃ fin', r = ReadOut.nomem h fin') := by
  intro fuel
  induction fuel with
  | zero => intro h fin line sline m i r _ hr; exact Option.noConfusion hr
  | succ fuel ih =>
    intro h fin line sline m i r hh hr
    rw [readLoop] at hr
    split at hr
    · cases hr; exact Or.inl ⟨_, _, _, _, _, _, rfl⟩
    · split at hr
      · cases hr; exact Or.inl ⟨_, _, _, _, _, _, rfl⟩
      · split at hr
        · split at hr
          · obtain ⟨b1, e1⟩ := realloc_unlimited_some h hh line (m * 2)
            obtain ⟨b2, e2⟩ := realloc_unlimited_some h hh sline (m * 2)
            rw [e1] at hr
            simp only [e2] at hr
            split at hr
            · cases hr
            · exact ih _ _ _ _ _ _ _ hh hr
          · cases hr; exact Or.inr ⟨_, rfl⟩
        · split at hr
          · cases hr
          · exact ih _ _ _ _ _ _ _ hh hr

/-- With an allocator that never refuses the loop of `split` never returns `NOMEM`, and it
leaves the allocator as it was. -/
theorem splitLoop_unlimited (delim : Nat) (compress : Bool) (stack : Nat → List Nat) :
    ∀ (fuel : Nat) (h : Heap)
    (sline field : List Nat) (mf nf p : Nat) (o : SplitOut), h.Unlimited →
    splitLoop delim compress stack fuel h sline field mf nf p = some o →
    o.ret ≠ NOMEM ∧ o.heap = h := by
  intro fuel
  induction fuel with
  | zero => intro h sline field mf nf p o _ hr; exact Option.noConfusion hr
  | succ fuel ih =>
    intro h sline field mf nf p o hh hr
    rw [splitLoop] at hr
    have hg : ∃ f1 m1, growTable h field mf nf = (some f1, h, m1) := by
      unfold growTable
      split
      · obtain ⟨b, e⟩ := realloc_unlimited_some h hh field (mf * 2)
        exact ⟨b, mf * 2, by rw [e]⟩
      · exact ⟨_, _, rfl⟩
    obtain ⟨f1, m1, eg⟩ := hg
    rw [eg] at hr
    simp only at hr
    split at hr
    · cases hr
    · split at hr
      · cases hr
      · split at hr
        · cases hr
        · split at hr
          · cases hr
          · split at hr
            · exact ih _ _ _ _ _ _ _ hh hr
            · cases hr
              refine ⟨?_, rfl⟩
              simp only [NOMEM]
              omega

theorem growTable_cases (h : Heap) (field : List Nat) (mf nf : Nat) :
    (∃ h', h.Granted h' ∧ growTable h field mf nf =
        ((growTable h.unlimited field mf nf).1, h', (growTable h.unlimited field mf nf).2.2)) ∨
      (∃ h', h.Refused h' ∧ ∃ m1, growTable h field mf nf = (none, h', m1)) := by
  unfold growTable
  by_cases hc : nf ≥ mf
  · simp only [if_pos hc]
    rcases realloc_cases h field (mf * 2) with ⟨h1, g1, e1⟩ | ⟨h1, g1, e1⟩
    · left; exact ⟨h1, g1, by rw [e1]⟩
    · right; exact ⟨h1, g1, _, by rw [e1]⟩
  · simp only [if_neg hc]
    left; exact ⟨h, Heap.Granted.refl h, rfl⟩

/-- The loop of `split` with any allocator follows the run with the allocator that never
refuses until a request is refused, and then returns `NOMEM`. -/
theorem splitLoop_any_heap (delim : Nat) (compress : Bool) (stack : Nat → List Nat) :
    ∀ (fuel : Nat) (h : Heap)
    (sline field : List Nat) (mf nf p : Nat) (o : SplitOut),
    splitLoop delim compress stack fuel h.unlimited sline field mf nf p = some o →
    ∃ h', (h.Granted h' ∧ splitLoop delim compress stack fuel h sline field mf nf p =
          some ⟨o.ret, h', o.sline, o.field, o.maxfield, o.nfield⟩) ∨
      (h.Refused h' ∧ ∃ o', splitLoop delim compress stack fuel h sline field mf nf p =
          some o' ∧
        o'.ret = NOMEM ∧ o'.heap = h') := by
  intro fuel
  induction fuel with
  | zero => intro h sline field mf nf p o hr; exact Option.noConfusion hr
  | succ fuel ih =>
    intro h sline field mf nf p o hr
    have hne :=
      (splitLoop_unlimited delim compress stack _ _ _ _ _ _ _ _ h.unlimited_unlimited hr).1
    rw [splitLoop] at hr ⊢
    rcases growTable_cases h field mf nf with ⟨h1, g1, e1⟩ | ⟨h1, g1, m1, e1⟩
    · rw [e1]
      split at hr
      · cases hr; exact absurd rfl hne
      · rename_i f1 hu1 mf1 heq
        rw [heq]
        simp only
        have hu1' : hu1 = h.unlimited := by
          have := congrArg (fun x => x.2.1) heq
          simp only [growTable] at this
          split at this
          · obtain ⟨b, e⟩ := realloc_unlimited_some h.unlimited h.unlimited_unlimited field (mf * 2)
            rw [e] at this
            exact this.symm
          · exact this.symm
        subst hu1'
        split at hr
        · cases hr
        · split at hr
          · cases hr
          · split at hr
            · cases hr
            · split at hr
              · cases hr
              · split at hr
                · rename_i hsep
                  rw [if_pos hsep]
                  rw [← g1.fill] at hr
                  obtain ⟨h', hh'⟩ := ih h1 _ _ _ _ _ _ hr
                  refine ⟨h', ?_⟩
                  rcases hh' with ⟨a, b⟩ | ⟨a, b⟩
                  · exact Or.inl ⟨g1.trans a, b⟩
                  · exact Or.inr ⟨g1.refused a, b⟩
                · rename_i hsep
                  rw [if_neg hsep]
                  cases hr
                  exact ⟨h1, Or.inl ⟨g1, rfl⟩⟩
    · rw [e1]
      exact ⟨h1, Or.inr ⟨g1, _, rfl, rfl, rfl⟩⟩

theorem split_unlimited (h : Heap) (hh : h.Unlimited) (s : Session) (delim : Nat)
    (compress : Bool) (stack : Nat → List Nat) (r : Int) (h' : Heap) (s' : Session)
    (hr : split h s delim compress stack = some (r, h', s')) : r ≠ NOMEM ∧ h' = h := by
  unfold split at hr
  split at hr
  · split at hr
    · cases hr
    · split at hr
      · cases hr; exact ⟨by simp [NOMEM], rfl⟩
      · split at hr
        · cases hr
        · split at hr
          · cases hr
          · rename_i o ho
            cases hr
            exact splitLoop_unlimited delim compress stack _ _ _ _ _ _ _ _ hh ho
  · cases hr

/-- The function `split` with any allocator follows the run with the allocator that never
refuses until a request is refused, and then returns `NOMEM`. -/
theorem split_any_heap (h : Heap) (s : Session) (delim : Nat) (compress : Bool)
    (stack : Nat → List Nat) (r : Int) (hu : Heap) (s' : Session)
    (hr : split h.unlimited s delim compress stack = some (r, hu, s')) :
    ∃ h', (h.Granted h' ∧ split h s delim compress stack = some (r, h', s')) ∨
      (h.Refused h' ∧ ∃ s'', split h s delim compress stack = some (NOMEM, h', s'')) := by
  unfold split at hr ⊢
  split at hr
  · split at hr
    · cases hr
    · split at hr
      · rename_i hk
        cases hr
        exact ⟨h, Or.inl ⟨Heap.Granted.refl h, by rw [if_pos hk]⟩⟩
      · rename_i hk
        rw [if_neg hk]
        split at hr
        · cases hr
        · split at hr
          · cases hr
          · rename_i o ho
            cases hr
            obtain ⟨h', hh'⟩ := splitLoop_any_heap delim compress stack _ h _ _ _ _ _ _ ho
            refine ⟨h', ?_⟩
            rcases hh' with ⟨a, b⟩ | ⟨a, o', b, b1, b2⟩
            · exact Or.inl ⟨a, by rw [b]⟩
            · refine Or.inr ⟨a, ?_⟩
              rw [b]
              simp only [b1, b2]
              exact ⟨_, rfl⟩
  · cases hr

theorem firstAlloc_cases (h : Heap) (s : Session) :
    (∃ h' s1, h.Granted h' ∧ firstAlloc h s = (some s1, h') ∧
        firstAlloc h.unlimited s = (some s1, h.unlimited)) ∨
      (∃ h', h.Refused h' ∧ firstAlloc h s = (none, h')) := by
  unfold firstAlloc
  by_cases hl : s.line = none
  · simp only [if_pos hl]
    have hu : ∀ n, malloc h.unlimited n = (some (List.replicate n h.fill), h.unlimited) :=
      fun n => rfl
    simp only [hu]
    rcases malloc_cases h 1 with ⟨h1, g1, e1⟩ | ⟨h1, g1, e1⟩
    · rw [e1]
      simp only
      rcases malloc_cases h1 1 with ⟨h2, g2, e2⟩ | ⟨h2, g2, e2⟩
      · rw [e2]
        simp only
        rcases malloc_cases h2 1 with ⟨h3, g3, e3⟩ | ⟨h3, g3, e3⟩
        · rw [e3]
          simp only
          left
          refine ⟨h3, _, (g1.trans g2).trans g3, rfl, ?_⟩
          obtain ⟨_, _, _, f1⟩ := g1
          obtain ⟨_, _, _, f2⟩ := g2
          simp [f1, f2]
        · rw [e3]
          right
          exact ⟨h3, (g1.trans g2).refused g3, rfl⟩
      · rw [e2]
        simp only
        rcases malloc_cases h2 1 with ⟨h3, g3, e3⟩ | ⟨h3, g3, e3⟩
        · rw [e3]
          right
          obtain ⟨u1, a1, b1, c1⟩ := g1
          obtain ⟨u2, a2, b2, c2⟩ := g2
          obtain ⟨u3, a3, b3, c3⟩ := g3
          exact ⟨h3, ⟨u1 ++ u2 ++ u3, by rw [a1, a2, a3]; simp, by simp [b2],
            by rw [c3, c2, c1]⟩, rfl⟩
        · rw [e3]
          right
          exact ⟨h3, g1.refused ((Heap.Granted.refl h1).refused (by
            obtain ⟨u2, a2, b2, c2⟩ := g2
            obtain ⟨u3, a3, b3, c3⟩ := g3
            exact ⟨u2 ++ u3, by rw [a2, a3]; simp, by simp [b2], by rw [c3, c2]⟩)), rfl⟩
    · rw [e1]
      simp only
      right
      rcases malloc_cases h1 1 with ⟨h2, g2, e2⟩ | ⟨h2, g2, e2⟩ <;>
      rcases malloc_cases h2 1 with ⟨h3, g3, e3⟩ | ⟨h3, g3, e3⟩ <;>
      · rw [e2]
        simp only
        rw [e3]
        obtain ⟨u1, a1, b1, c1⟩ := g1
        obtain ⟨u2, a2, b2, c2⟩ := g2
        obtain ⟨u3, a3, b3, c3⟩ := g3
        exact ⟨h3, ⟨u1 ++ u2 ++ u3, by rw [a1, a2, a3]; simp, by simp [b1],
          by rw [c3, c2, c1]⟩, rfl⟩
  · simp only [if_neg hl]
    left
    exact ⟨h, s, Heap.Granted.refl h, rfl, rfl⟩

/-- A call of `csvgetline` with any allocator: it returns; when every request was granted it
gives what the call gives with the allocator that never refuses, and when a request was
refused it returns `NULL` and leaves the session reset. -/
theorem csvgetline_any_heap (h : Heap) (s : Session) (fin : List Nat) (delim : Nat)
    (compress : Bool) (stack : Nat → List Nat) (u : Outcome)
    (hu : csvgetline h.unlimited s fin delim compress stack = some u) :
    ∃ o : Outcome, csvgetline h s fin delim compress stack = some o ∧
      ((h.Granted o.heap ∧ o.ret = u.ret ∧ o.session = u.session ∧ o.fin = u.fin) ∨
        (h.Refused o.heap ∧ o.ret = Ptr.null ∧ o.session = Session.init)) := by
  unfold csvgetline at hu ⊢
  rcases firstAlloc_cases h s with ⟨h1, s1, g1, e1, eu⟩ | ⟨h1, g1, e1⟩
  · rw [eu] at hu
    rw [e1]
    simp only at hu ⊢
    split at hu
    · rename_i line sline hline hsline
      split at hu
      · cases hu
      · rename_i hu2 fin2 hrd
        cases hu
        rw [← g1.fill] at hrd
        obtain ⟨h2, hh2⟩ := readLoop_any_heap_nomem _ h1 _ _ _ _ _ _ _ hrd
        rcases hh2 with ⟨g2, e2⟩ | ⟨g2, fin3, e2⟩
        · rw [e2]
          exact ⟨_, rfl, Or.inl ⟨g1.trans g2, rfl, rfl, rfl⟩⟩
        · rw [e2]
          exact ⟨_, rfl, Or.inr ⟨g1.refused g2, rfl, rfl⟩⟩
      · rename_i hu2 fin2 line2 sline2 maxline2 c i hrd
        rcases readLoop_unlimited _ _ _ _ _ _ _ _ h.unlimited_unlimited hrd with
          ⟨_, _, _, _, _, _, hdone⟩ | ⟨_, hcontra⟩
        swap
        · cases hcontra
        cases hdone
        rw [← g1.fill] at hrd
        obtain ⟨h2, hh2⟩ := readLoop_any_heap _ h1 _ _ _ _ _ _ _ _ _ _ _ _ hrd
        rcases hh2 with ⟨g2, e2⟩ | ⟨g2, fin3, e2⟩
        · rw [e2]
          simp only
          split at hu
          · cases hu
          · rename_i line3 hst
            split at hu
            · cases hu
            · rename_i r hu3 s3 hsp
              have hne := (split_unlimited _ h.unlimited_unlimited _ _ _ _ _ _ _ hsp).1
              rw [if_neg hne] at hu
              cases hu
              rw [← (g1.trans g2).fill] at hsp
              obtain ⟨h3, hh3⟩ := split_any_heap h2 _ _ _ _ _ _ _ hsp
              rcases hh3 with ⟨g3, e3⟩ | ⟨g3, s4, e3⟩
              · rw [e3]
                simp only [if_neg hne]
                exact ⟨_, rfl, Or.inl ⟨(g1.trans g2).trans g3, rfl, rfl, rfl⟩⟩
              · rw [e3]
                simp only [if_true]
                exact ⟨_, rfl, Or.inr ⟨(g1.trans g2).refused g3, rfl, rfl⟩⟩
        · rw [e2]
          exact ⟨_, rfl, Or.inr ⟨g1.refused g2, rfl, rfl⟩⟩
    · cases hu
  · rw [e1]
    exact ⟨_, rfl, Or.inr ⟨g1, rfl, rfl⟩⟩

/-- With an allocator that never refuses, a call of `csvgetline` on a valid session returns. -/
theorem csvgetline_returns (h : Heap) (hh : h.Unlimited) (s : Session) (hv : s.Valid)
    (fin : List Nat) (delim : Nat) (compress : Bool) (stack : Nat → List Nat)
    (hd : delim ≠ NUL) :
    ∃ o : Outcome, csvgetline h s fin delim compress stack = some o := by
  rcases csvgetline_cases h hh s hv (fin.takeWhile notEol)
    (fin.dropWhile notEol) (notEol_takeWhile fin) (notEol_dropWhile fin) delim compress stack
    (Or.inl hd) with ⟨s', p1, -⟩ | ⟨fin', p1, -⟩
  · rw [List.takeWhile_append_dropWhile] at p1
    exact ⟨_, p1⟩
  · rw [List.takeWhile_append_dropWhile] at p1
    exact ⟨_, p1⟩

/-- A refused field-table growth on the unterminated last record `a,b`, against a read at the
end of the stream: both calls return `NULL` and leave the stream exhausted, and after both
`csvnfield()` is 0 and `csvfield(n)` is `NULL` for every `n`. -/
theorem csvgetline_nomem_like_eof :
    ∃ o e : Outcome,
      csvgetline ⟨[true, true, true, true, true, true, true, false], 0⟩ Session.init
        (bytes "a,b") 44 false (fun _ => []) = some o ∧
      Heap.Refused ⟨[true, true, true, true, true, true, true, false], 0⟩ o.heap ∧
      csvgetline ⟨[], 0⟩ Session.init [] 44 false (fun _ => []) = some e ∧
      o.ret = Ptr.null ∧ e.ret = Ptr.null ∧ o.fin = [] ∧ e.fin = [] ∧
      csvnfield o.session = csvnfield e.session ∧
      ∀ n, csvfield o.session n = csvfield e.session n := by
  refine ⟨⟨Ptr.null, Session.init, [], ⟨[], 0⟩⟩,
    ⟨Ptr.null, ⟨some [0], some [0], 1, some [0], 1, 0⟩, [], ⟨[], 0⟩⟩, rfl,
    ⟨[true, true, true, true, true, true, true, false], rfl, by simp, rfl⟩, rfl, rfl, rfl, rfl,
    rfl, rfl, ?_⟩
  intro n
  have h0 : n < 0 ∨ n ≥ 0 := by omega
  simp [csvfield, Session.init, h0]

/-- C13 (amended): with any allocator, a call of `csvgetline` on a valid session returns.
When a request was refused during the call (first allocation, growth of the line blocks, or
growth of the field table inside `split`), the call returns `NULL` and leaves the session
reset: the three pointers `NULL`, the counters 0, so `csvnfield()` is 0 and `csvfield(n)` is
`NULL` for every `n`.  A read at the end of the stream reports the same: `NULL`, with
`csvnfield()` 0 and `csvfield(n)` `NULL` for every `n`.  When every request was granted the
call gives what it gives with an allocator that never refuses.  This holds whatever bytes
follow `delim` in memory (`stack`). -/
theorem csvgetline_alloc_failure (h : Heap) (s : Session) (hv : s.Valid) (fin : List Nat)
    (delim : Nat) (compress : Bool) (stack : Nat → List Nat) (hd : delim ≠ NUL) :
    (∃ o u : Outcome, csvgetline h s fin delim compress stack = some o ∧
      csvgetline h.unlimited s fin delim compress stack = some u ∧
      (h.Granted o.heap ∨ h.Refused o.heap) ∧
      (h.Refused o.heap → o.ret = Ptr.null ∧ o.session = Session.init ∧
        csvnfield o.session = 0 ∧ ∀ n, csvfield o.session n = some Ptr.null) ∧
      (h.Granted o.heap → o.ret = u.ret ∧ o.session = u.session ∧ o.fin = u.fin)) ∧
    (∃ e : Outcome, csvgetline h.unlimited s [] delim compress stack = some e ∧
      e.ret = Ptr.null ∧ csvnfield e.session = 0 ∧
      ∀ n, csvfield e.session n = some Ptr.null) := by
  have hnull : ∀ (t : Session), t.nfield = 0 → ∀ n, csvfield t n = some Ptr.null := by
    intro t ht n
    have h0 : n < 0 ∨ n ≥ 0 := by omega
    simp [csvfield, ht, h0]
  constructor
  · obtain ⟨u, hu⟩ := csvgetline_returns h.unlimited h.unlimited_unlimited s hv fin
      delim compress stack hd
    obtain ⟨o, ho, hcase⟩ := csvgetline_any_heap h s fin delim compress stack u hu
    refine ⟨o, u, ho, hu, ?_, ?_, ?_⟩
    · rcases hcase with ⟨g, -⟩ | ⟨g, -⟩
      · exact Or.inl g
      · exact Or.inr g
    · intro hr
      rcases hcase with ⟨g, -⟩ | ⟨-, a, b⟩
      · exact absurd hr (fun x => Heap.granted_not_refused g x)
      · refine ⟨a, b, by rw [b]; rfl, ?_⟩
        rw [b]
        exact hnull _ rfl
    · intro hg
      rcases hcase with ⟨-, a⟩ | ⟨g, -⟩
      · exact a
      · exact absurd g (fun x => Heap.granted_not_refused hg x)
  · obtain ⟨s', p1, -, p3⟩ :=
      csvgetline_eof h.unlimited h.unlimited_unlimited s hv delim compress stack
    exact ⟨_, p1, rfl, by simp [csvnfield, p3], hnull _ p3⟩

theorem csvgetline_alloc_failure_witness :
    Session.init.Valid ∧ (44 : Nat) ≠ NUL ∧
    ((∃ o u : Outcome,
      csvgetline ⟨[true, true, true, false], 0⟩ Session.init (bytes "ab\n") 44 false
        (fun _ => []) = some o ∧
      csvgetline (Heap.unlimited ⟨[true, true, true, false], 0⟩) Session.init (bytes "ab\n")
        44 false (fun _ => []) = some u ∧
      (Heap.Granted ⟨[true, true, true, false], 0⟩ o.heap ∨
        Heap.Refused ⟨[true, true, true, false], 0⟩ o.heap) ∧
      (Heap.Refused ⟨[true, true, true, false], 0⟩ o.heap →
        o.ret = Ptr.null ∧ o.session = Session.init ∧
        csvnfield o.session = 0 ∧ ∀ n, csvfield o.session n = some Ptr.null) ∧
      (Heap.Granted ⟨[true, true, true, false], 0⟩ o.heap →
        o.ret = u.ret ∧ o.session = u.session ∧ o.fin = u.fin)) ∧
    (∃ e : Outcome,
      csvgetline (Heap.unlimited ⟨[true, true, true, false], 0⟩) Session.init [] 44 false
        (fun _ => []) = some e ∧
      e.ret = Ptr.null ∧ csvnfield e.session = 0 ∧
      ∀ n, csvfield e.session n = some Ptr.null)) :=
  ⟨by decide, by decide,
    csvgetline_alloc_failure ⟨[true, true, true, false], 0⟩ Session.init (by decide)
      (bytes "ab\n") 44 false (fun _ => []) (by decide)⟩

/-- The three places where a request can be refused, on the stream `a,b` then a newline then
`c`: the first allocation (nothing is read), the growth of the line blocks (the read stops
after the byte that needed the room), and the growth of the field table (the record has been
read).  Each call returns `NULL` with the session reset. -/
theorem csvgetline_failure_sites :
    csvgetline ⟨[true, false, true], 0⟩ Session.init (bytes "a,b\nc") 44 false (fun _ => []) =
      some ⟨Ptr.null, Session.init, bytes "a,b\nc", ⟨[], 0⟩⟩ ∧
    csvgetline ⟨[true, true, true, true, false], 0⟩ Session.init (bytes "a,b\nc") 44 false
      (fun _ => []) = some ⟨Ptr.null, Session.init, bytes ",b\nc", ⟨[], 0⟩⟩ ∧
    csvgetline ⟨[true, true, true, true, true, true, true, false], 0⟩ Session.init
      (bytes "a,b\nc") 44 false (fun _ => []) =
      some ⟨Ptr.null, Session.init, bytes "c", ⟨[], 0⟩⟩ :=
  ⟨rfl, rfl, rfl⟩

/-! ## Bounds of the accesses of `split` and `advquoted` -/

theorem advquotedLoopLogged_erase (reject : List Nat) (p : Nat) : ∀ (fuel : Nat) (buf : List Nat) (i j : Nat),
    (advquotedLoopLogged reject p fuel buf i j).map Prod.fst = advquotedLoop reject p fuel buf i j := by
  intro fuel
  induction fuel with
  | zero => intro buf i j; rfl
  | succ fuel ih =>
    intro buf i j
    rw [advquotedLoopLogged, advquotedLoop]
    cases load buf (p + j) with
    | none => rfl
    | some c =>
      simp only
      by_cases hc : c = NUL
      · simp only [if_pos hc, Option.map_some']
      · simp only [if_neg hc]
        by_cases hq : c = QUOTE
        · simp only [if_pos hq]
          cases load buf (p + (j + 1)) with
          | none => rfl
          | some d =>
            simp only
            by_cases hd : d ≠ QUOTE
            · simp only [if_pos hd]
              cases strcspn reject (buf.drop (p + (j + 1))) with
              | none => rfl
              | some k =>
                simp only
                cases memmove buf (p + i) (p + (j + 1)) k with
                | none => rfl
                | some buf1 => rfl
            · simp only [if_neg hd]
              cases store buf (p + i) d with
              | none => rfl
              | some buf1 =>
                simp only
                rw [Option.map_map, ← ih]; rfl
        · simp only [if_neg hq]
          cases store buf (p + i) c with
          | none => rfl
          | some buf1 =>
            simp only
            rw [Option.map_map, ← ih]; rfl

theorem advquotedLogged_erase (buf : List Nat) (p delim : Nat) (stack : List Nat) :
    (advquotedLogged buf p delim stack).map Prod.fst = advquoted buf p delim stack := by
  unfold advquotedLogged advquoted
  rw [← advquotedLoopLogged_erase]
  cases advquotedLoopLogged (rejectAt delim stack) p buf.length buf 0 0 with
  | none => rfl
  | some r =>
    obtain ⟨⟨buf1, i, j⟩, log⟩ := r
    simp only [Option.map_some']
    cases store buf1 (p + i) NUL with
    | none => rfl
    | some buf2 => rfl

theorem scanFieldLogged_erase (delim : Nat) (compress : Bool) (stack : List Nat)
    (sline : List Nat) (p : Nat) :
    (scanFieldLogged delim compress stack sline p).map Prod.fst =
      scanField delim compress stack sline p := by
  unfold scanFieldLogged scanField
  cases (if compress then skipDelims delim (sline.drop p) else some 0) with
  | none => rfl
  | some n =>
    simp only
    cases load sline (p + n) with
    | none => rfl
    | some c =>
      simp only
      by_cases hq : c = QUOTE
      · simp only [if_pos hq]
        rw [Option.map_map, ← advquotedLogged_erase, Option.map_map]; rfl
      · simp only [if_neg hq]
        rw [Option.map_map]; rfl

theorem splitLoopLogged_erase (delim : Nat) (compress : Bool) (stack : Nat → List Nat) :
    ∀ (fuel : Nat) (h : Heap) (sline field : List Nat) (mf nf p : Nat),
    (splitLoopLogged delim compress stack fuel h sline field mf nf p).map Prod.fst =
      splitLoop delim compress stack fuel h sline field mf nf p := by
  intro fuel
  induction fuel with
  | zero => intro h sline field mf nf p; rfl
  | succ fuel ih =>
    intro h sline field mf nf p
    rw [splitLoopLogged, splitLoop]
    obtain ⟨f1, h1, m1⟩ := growTable h field mf nf
    cases f1 with
    | none => rfl
    | some field1 =>
      simp only
      rw [← scanFieldLogged_erase]
      cases scanFieldLogged delim compress (stack nf) sline p with
      | none => rfl
      | some r =>
        obtain ⟨⟨sline1, p2, sepp⟩, log⟩ := r
        simp only [Option.map_some']
        cases load sline1 sepp with
        | none => rfl
        | some sepc =>
          simp only
          cases store sline1 sepp NUL with
          | none => rfl
          | some sline2 =>
            simp only
            cases store field1 nf p2 with
            | none => rfl
            | some field2 =>
              simp only
              by_cases hs : sepc = delim
              · simp only [if_pos hs]
                rw [Option.map_map, ← ih]; rfl
              · simp only [if_neg hs, Option.map_some']

theorem splitLogged_erase (h : Heap) (s : Session) (delim : Nat) (compress : Bool)
    (stack : Nat → List Nat) :
    (splitLogged h s delim compress stack).map Prod.fst = split h s delim compress stack := by
  unfold splitLogged split
  cases s.line with
  | none => rfl
  | some line =>
    cases s.sline with
    | none => rfl
    | some sline =>
      cases s.field with
      | none => rfl
      | some field =>
        simp only
        cases load line 0 with
        | none => rfl
        | some c =>
          simp only
          by_cases hc : c = NUL
          · simp only [if_pos hc, Option.map_some']
          · simp only [if_neg hc]
            cases strcpy sline line with
            | none => rfl
            | some sline1 =>
              simp only
              rw [← splitLoopLogged_erase]
              cases splitLoopLogged delim compress stack (sline1.length + 1) h sline1 field
                s.maxfield 0 0 with
              | none => rfl
              | some r => rfl

theorem load_lt (buf : List Nat) (q c : Nat) (h : load buf q = some c) : q < buf.length := by
  unfold load at h
  by_contra hq
  rw [List.getElem?_eq_none (by omega)] at h
  cases h

theorem store_lt (buf b : List Nat) (q v : Nat) (h : store buf q v = some b) :
    q < buf.length := by
  unfold store at h
  split at h
  · assumption
  · cases h

theorem strcspn_lt (reject : List Nat) : ∀ (m : List Nat) (k : Nat),
    strcspn reject m = some k →
    k < m.length
  | [], k, h => by simp [strcspn] at h
  | c :: cs, k, h => by
    simp only [strcspn] at h
    split at h
    · cases h; simp
    · obtain ⟨k', hk', rfl⟩ := Option.map_eq_some'.mp h
      have := strcspn_lt reject cs k' hk'
      simp; omega

theorem skipDelims_lt (delim : Nat) : ∀ (m : List Nat) (n : Nat), skipDelims delim m = some n →
    n < m.length
  | [], n, h => by simp [skipDelims] at h
  | c :: cs, n, h => by
    simp only [skipDelims] at h
    split at h
    · obtain ⟨k', hk', rfl⟩ := Option.map_eq_some'.mp h
      have := skipDelims_lt delim cs k' hk'
      simp; omega
    · cases h; simp

theorem memmove_le (buf b : List Nat) (dst src k : Nat) (h : memmove buf dst src k = some b) :
    src + k ≤ buf.length ∧ dst + k ≤ buf.length := by
  unfold memmove at h
  split at h
  · assumption
  · cases h

theorem reads_below (off k m : Nat) (h : off + k ≤ m) : ∀ a ∈ reads off k, a.Below m := by
  intro a ha
  unfold reads at ha
  obtain ⟨x, hx, rfl⟩ := List.mem_map.mp ha
  have := List.mem_range.mp hx
  show off + x < m
  omega

theorem writes_below (off k m : Nat) (h : off + k ≤ m) : ∀ a ∈ writes off k, a.Below m := by
  intro a ha
  unfold writes at ha
  obtain ⟨x, hx, rfl⟩ := List.mem_map.mp ha
  have := List.mem_range.mp hx
  show off + x < m
  omega

theorem drop_strcspn_lt (reject : List Nat) (buf : List Nat) (q k : Nat)
    (h : strcspn reject (buf.drop q) = some k) : q + k < buf.length := by
  have := strcspn_lt reject _ _ h
  simp at this
  omega

theorem drop_skipDelims_lt (delim : Nat) (buf : List Nat) (q n : Nat)
    (h : skipDelims delim (buf.drop q) = some n) : q + n < buf.length := by
  have := skipDelims_lt delim _ _ h
  simp at this
  omega

/-- Every access the loop of `advquoted` makes is inside the block, and the write index stays
at or below the read index. -/
theorem advquotedLoopLogged_below (reject : List Nat) (p : Nat) : ∀ (fuel : Nat) (buf : List Nat) (i j : Nat)
    (r : List Nat × Nat × Nat) (log : List Access),
    advquotedLoopLogged reject p fuel buf i j = some (r, log) → i ≤ j →
    (∀ a ∈ log, a.Below buf.length) ∧ r.2.1 ≤ r.2.2 := by
  intro fuel
  induction fuel with
  | zero => intro buf i j r log h; exact Option.noConfusion h
  | succ fuel ih =>
    intro buf i j r log h hij
    rw [advquotedLoopLogged] at h
    split at h
    · cases h
    · rename_i c hc
      have hj := load_lt _ _ _ hc
      split at h
      · cases h
        refine ⟨?_, hij⟩
        intro a ha
        simp only [List.mem_singleton] at ha
        subst ha
        exact hj
      · split at h
        · split at h
          · cases h
          · rename_i d hd
            have hj1 := load_lt _ _ _ hd
            split at h
            · split at h
              · cases h
              · rename_i k hk
                have hk1 := drop_strcspn_lt _ _ _ _ hk
                split at h
                · cases h
                · rename_i buf1 hm
                  obtain ⟨m1, m2⟩ := memmove_le _ _ _ _ _ hm
                  cases h
                  refine ⟨?_, by show i + k ≤ j + 1 + k; omega⟩
                  intro a ha
                  simp only [List.mem_append, List.mem_cons, List.mem_singleton,
                    List.not_mem_nil, or_false] at ha
                  rcases ha with ((((rfl | rfl) | ha) | rfl) | ha) | ha
                  · exact hj
                  · exact hj1
                  · exact reads_below _ _ _ (by omega) a ha
                  · show i ≤ j + 1; omega
                  · exact reads_below _ _ _ (by omega) a ha
                  · exact writes_below _ _ _ (by omega) a ha
            · split at h
              · cases h
              · rename_i buf1 hs
                have hi := store_lt _ _ _ _ hs
                obtain ⟨⟨r', log'⟩, hr, he⟩ := Option.map_eq_some'.mp h
                cases he
                obtain ⟨b1, b2⟩ := ih _ _ _ _ _ hr (by omega)
                rw [store_length _ _ _ _ hs] at b1
                refine ⟨?_, b2⟩
                intro a ha
                simp only [List.cons_append, List.nil_append, List.mem_cons] at ha
                rcases ha with rfl | rfl | rfl | rfl | ha
                · exact hj
                · exact hj1
                · show i ≤ j + 1; omega
                · exact hi
                · exact b1 a ha
        · split at h
          · cases h
          · rename_i buf1 hs
            have hi := store_lt _ _ _ _ hs
            obtain ⟨⟨r', log'⟩, hr, he⟩ := Option.map_eq_some'.mp h
            cases he
            obtain ⟨b1, b2⟩ := ih _ _ _ _ _ hr (by omega)
            rw [store_length _ _ _ _ hs] at b1
            refine ⟨?_, b2⟩
            intro a ha
            simp only [List.cons_append, List.nil_append, List.mem_cons] at ha
            rcases ha with rfl | rfl | rfl | ha
            · exact hj
            · exact hij
            · exact hi
            · exact b1 a ha

theorem advquotedLogged_below (buf : List Nat) (p delim : Nat) (stack : List Nat)
    (r : List Nat × Nat) (log : List Access)
    (h : advquotedLogged buf p delim stack = some (r, log)) :
    (∀ a ∈ log, a.Below buf.length) ∧ p ≤ r.2 := by
  unfold advquotedLogged at h
  split at h
  · cases h
  · rename_i buf1 i j log1 hl
    split at h
    · cases h
    · rename_i buf2 hs
      cases h
      obtain ⟨b1, b2⟩ := advquotedLoopLogged_below (rejectAt delim stack) p _ _ _ _ _ _ hl le_rfl
      have hi := store_lt _ _ _ _ hs
      have hlen : buf1.length = buf.length := by
        have := advquotedLoop_length (rejectAt delim stack) p buf.length buf 0 0 (buf1, i, j)
          (by rw [← advquotedLoopLogged_erase, hl]; rfl)
        exact this
      rw [hlen] at hi
      refine ⟨?_, by show p ≤ p + j; omega⟩
      intro a ha
      simp only [List.mem_append, List.mem_cons, List.mem_singleton, List.not_mem_nil,
        or_false] at ha
      rcases ha with ha | rfl | rfl
      · exact b1 a ha
      · exact b2
      · exact hi

theorem scanFieldLogged_below (delim : Nat) (compress : Bool) (stack : List Nat)
    (sline : List Nat) (p : Nat) (r : List Nat × Nat × Nat) (log : List Access)
    (h : scanFieldLogged delim compress stack sline p = some (r, log)) :
    (∀ a ∈ log, a.Below sline.length) ∧ r.2.1 ≤ r.2.2 := by
  unfold scanFieldLogged at h
  split at h
  · cases h
  · rename_i n hn
    have hskip : ∀ a ∈ (if compress then reads p (n + 1) else []), a.Below sline.length := by
      cases compress with
      | false => intro a ha; simp at ha
      | true =>
        simp only [if_true] at hn ⊢
        exact reads_below _ _ _ (by have := drop_skipDelims_lt _ _ _ _ hn; omega)
    split at h
    · cases h
    · rename_i c hc
      have hpn := load_lt _ _ _ hc
      split at h
      · obtain ⟨⟨r', log'⟩, hr, he⟩ := Option.map_eq_some'.mp h
        cases he
        obtain ⟨b1, b2⟩ := advquotedLogged_below _ _ _ _ _ _ hr
        refine ⟨?_, b2⟩
        intro a ha
        simp only [List.mem_append, List.mem_singleton] at ha
        rcases ha with (ha | rfl) | ha
        · exact hskip a ha
        · exact hpn
        · exact b1 a ha
      · obtain ⟨k, hk, he⟩ := Option.map_eq_some'.mp h
        cases he
        have hk1 := drop_strcspn_lt _ _ _ _ hk
        refine ⟨?_, by show p + n ≤ p + n + k; omega⟩
        intro a ha
        simp only [List.mem_append, List.mem_singleton] at ha
        rcases ha with (ha | rfl) | ha
        · exact hskip a ha
        · exact hpn
        · exact reads_below _ _ _ (by omega) a ha

theorem growTable_length (h : Heap) (field : List Nat) (mf nf : Nat) (f1 : List Nat)
    (h1 : Heap) (m1 : Nat) (hg : growTable h field mf nf = (some f1, h1, m1))
    (hf : field.length = mf) : f1.length = m1 := by
  unfold growTable at hg
  split at hg
  · unfold realloc at hg
    split at hg
    · cases hg
      simp
      omega
    · cases hg
  · cases hg; exact hf

/-- Every access the loop of `split` makes is inside the working copy and the field table. -/
theorem splitLoopLogged_below (delim : Nat) (compress : Bool) (stack : Nat → List Nat) :
    ∀ (fuel : Nat) (h : Heap)
    (sline field : List Nat) (mf nf p : Nat) (o : SplitOut) (log : List Access),
    splitLoopLogged delim compress stack fuel h sline field mf nf p = some (o, log) →
    field.length = mf → ∀ a ∈ log, a.Below sline.length := by
  intro fuel
  induction fuel with
  | zero => intro h sline field mf nf p o log hr; exact Option.noConfusion hr
  | succ fuel ih =>
    intro h sline field mf nf p o log hr hf
    rw [splitLoopLogged] at hr
    split at hr
    · cases hr
      intro a ha
      cases ha
    · rename_i field1 h1 mf1 hg
      have hf1 := growTable_length _ _ _ _ _ _ _ hg hf
      split at hr
      · cases hr
      · rename_i sline1 p2 sepp log1 hsc
        obtain ⟨b1, b2⟩ := scanFieldLogged_below _ _ _ _ _ _ _ hsc
        have hlen : sline1.length = sline.length :=
          scanField_length delim compress (stack nf) sline p (sline1, p2, sepp)
            (by rw [← scanFieldLogged_erase, hsc]; rfl)
        split at hr
        · cases hr
        · rename_i sepc hld
          have hsepp := load_lt _ _ _ hld
          rw [hlen] at hsepp
          split at hr
          · cases hr
          · rename_i sline2 hst
            split at hr
            · cases hr
            · rename_i field2 hst2
              have hnf := store_lt _ _ _ _ hst2
              rw [hf1] at hnf
              have hstep : ∀ a ∈ log1 ++ [Access.read sepp, Access.write sepp,
                  Access.table nf mf1 p2], a.Below sline.length := by
                intro a ha
                simp only [List.mem_append, List.mem_cons, List.mem_singleton,
                  List.not_mem_nil, or_false] at ha
                rcases ha with ha | rfl | rfl | rfl
                · exact b1 a ha
                · exact hsepp
                · exact hsepp
                · exact ⟨hnf, by show p2 < sline.length; simp only at b2; omega⟩
              split at hr
              · obtain ⟨⟨o', log'⟩, hr', he⟩ := Option.map_eq_some'.mp hr
                cases he
                have hrec := ih _ _ _ _ _ _ _ _ hr'
                  (by rw [store_length _ _ _ _ hst2]; exact hf1)
                rw [store_length _ _ _ _ hst, hlen] at hrec
                intro a ha
                rcases List.mem_append.mp ha with ha | ha
                · exact hstep a ha
                · exact hrec a ha
              · cases hr
                exact hstep

theorem load_app (buf post : List Nat) (q c : Nat) (h : load buf q = some c) :
    load (buf ++ post) q = some c := by
  have hq := load_lt _ _ _ h
  unfold load at h ⊢
  rw [List.getElem?_append_left hq]
  exact h

theorem store_app (buf post b : List Nat) (q v : Nat) (h : store buf q v = some b) :
    store (buf ++ post) q v = some (b ++ post) := by
  have hq := store_lt _ _ _ _ h
  unfold store at h ⊢
  rw [if_pos hq] at h
  cases h
  rw [if_pos (by simp; omega), List.set_append_left _ _ hq]

theorem strcspn_app (reject : List Nat) (post : List Nat) : ∀ (m : List Nat) (k : Nat),
    strcspn reject m = some k → strcspn reject (m ++ post) = some k
  | [], k, h => by simp [strcspn] at h
  | c :: cs, k, h => by
    simp only [strcspn, List.cons_append] at h ⊢
    split at h
    · rename_i hc; rw [if_pos hc]; exact h
    · rename_i hc
      rw [if_neg hc]
      obtain ⟨k', hk', rfl⟩ := Option.map_eq_some'.mp h
      have ih := strcspn_app reject post cs k' hk'
      show Option.map (fun x => x + 1) (strcspn reject (cs ++ post)) = some (k' + 1)
      rw [ih]
      rfl

theorem skipDelims_app (delim : Nat) (post : List Nat) : ∀ (m : List Nat) (n : Nat),
    skipDelims delim m = some n → skipDelims delim (m ++ post) = some n
  | [], n, h => by simp [skipDelims] at h
  | c :: cs, n, h => by
    simp only [skipDelims, List.cons_append] at h ⊢
    split at h
    · rename_i hc
      rw [if_pos hc]
      obtain ⟨k', hk', rfl⟩ := Option.map_eq_some'.mp h
      have ih := skipDelims_app delim post cs k' hk'
      show Option.map (fun x => x + 1) (skipDelims delim (cs ++ post)) = some (k' + 1)
      rw [ih]
      rfl
    · rename_i hc; rw [if_neg hc]; exact h

theorem drop_strcspn_app (reject : List Nat) (buf post : List Nat) (q k : Nat)
    (h : strcspn reject (buf.drop q) = some k) :
    strcspn reject ((buf ++ post).drop q) = some k := by
  have := drop_strcspn_lt _ _ _ _ h
  rw [List.drop_append_of_le_length (by omega)]
  exact strcspn_app _ _ _ _ h

theorem drop_skipDelims_app (delim : Nat) (buf post : List Nat) (q n : Nat)
    (h : skipDelims delim (buf.drop q) = some n) :
    skipDelims delim ((buf ++ post).drop q) = some n := by
  have := drop_skipDelims_lt _ _ _ _ h
  rw [List.drop_append_of_le_length (by omega)]
  exact skipDelims_app _ _ _ _ h

theorem memmove_app (buf post b : List Nat) (dst src k : Nat)
    (h : memmove buf dst src k = some b) :
    memmove (buf ++ post) dst src k = some (b ++ post) := by
  obtain ⟨h1, h2⟩ := memmove_le _ _ _ _ _ h
  unfold memmove at h ⊢
  rw [if_pos ⟨h1, h2⟩] at h
  cases h
  rw [if_pos (by simp; omega)]
  rw [List.take_append_of_le_length (by omega), List.drop_append_of_le_length (by omega),
    List.drop_append_of_le_length (by omega), List.take_append_of_le_length (by simp; omega)]
  simp

/-- The loop of `advquoted` makes the same accesses when the block has more room and the loop
more fuel. -/
theorem advquotedLoopLogged_app (reject : List Nat) (p : Nat) (post : List Nat) : ∀ (f : Nat) (buf : List Nat)
    (i j : Nat) (r : List Nat × Nat × Nat) (log : List Access),
    advquotedLoopLogged reject p f buf i j = some (r, log) → ∀ f', f ≤ f' →
    advquotedLoopLogged reject p f' (buf ++ post) i j = some ((r.1 ++ post, r.2.1, r.2.2), log) := by
  intro f
  induction f with
  | zero => intro buf i j r log h; exact Option.noConfusion h
  | succ f ih =>
    intro buf i j r log h f' hf
    obtain ⟨f', rfl⟩ : ∃ g, f' = g + 1 := ⟨f' - 1, by omega⟩
    rw [advquotedLoopLogged] at h ⊢
    split at h
    · cases h
    · rename_i c hc
      rw [load_app _ post _ _ hc]
      simp only
      split at h
      · rename_i hnul
        cases h
        rw [if_pos hnul]
      · rename_i hnul
        rw [if_neg hnul]
        split at h
        · rename_i hq
          rw [if_pos hq]
          split at h
          · cases h
          · rename_i d hd
            rw [load_app _ post _ _ hd]
            simp only
            split at h
            · rename_i hdq
              rw [if_pos hdq]
              split at h
              · cases h
              · rename_i k hk
                rw [drop_strcspn_app _ _ post _ _ hk]
                simp only
                split at h
                · cases h
                · rename_i buf1 hm
                  rw [memmove_app _ post _ _ _ _ hm]
                  cases h
                  rfl
            · rename_i hdq
              rw [if_neg hdq]
              split at h
              · cases h
              · rename_i buf1 hs
                rw [store_app _ post _ _ _ hs]
                simp only
                obtain ⟨⟨r', log'⟩, hr, he⟩ := Option.map_eq_some'.mp h
                cases he
                rw [ih _ _ _ _ _ hr f' (by omega)]
                rfl
        · rename_i hq
          rw [if_neg hq]
          split at h
          · cases h
          · rename_i buf1 hs
            rw [store_app _ post _ _ _ hs]
            simp only
            obtain ⟨⟨r', log'⟩, hr, he⟩ := Option.map_eq_some'.mp h
            cases he
            rw [ih _ _ _ _ _ hr f' (by omega)]
            rfl

theorem advquotedLogged_app (buf post : List Nat) (p delim : Nat) (stack : List Nat)
    (r : List Nat × Nat) (log : List Access)
    (h : advquotedLogged buf p delim stack = some (r, log)) :
    advquotedLogged (buf ++ post) p delim stack = some ((r.1 ++ post, r.2), log) := by
  unfold advquotedLogged at h ⊢
  split at h
  · cases h
  · rename_i buf1 i j log1 hl
    rw [advquotedLoopLogged_app (rejectAt delim stack) p post _ _ _ _ _ _ hl
      (buf ++ post).length (by simp)]
    simp only
    split at h
    · cases h
    · rename_i buf2 hs
      rw [store_app _ post _ _ _ hs]
      cases h
      rfl

theorem scanFieldLogged_app (delim : Nat) (compress : Bool) (stack : List Nat)
    (sline post : List Nat) (p : Nat)
    (r : List Nat × Nat × Nat) (log : List Access)
    (h : scanFieldLogged delim compress stack sline p = some (r, log)) :
    scanFieldLogged delim compress stack (sline ++ post) p =
      some ((r.1 ++ post, r.2.1, r.2.2), log) := by
  unfold scanFieldLogged at h ⊢
  split at h
  · cases h
  · rename_i n hn
    have hn' : (if compress then skipDelims delim ((sline ++ post).drop p) else some 0) =
        some n := by
      cases compress with
      | false => simpa using hn
      | true =>
        simp only [if_true] at hn ⊢
        exact drop_skipDelims_app _ _ _ _ _ hn
    rw [hn']
    simp only
    split at h
    · cases h
    · rename_i c hc
      rw [load_app _ post _ _ hc]
      simp only
      split at h
      · rename_i hq
        rw [if_pos hq]
        obtain ⟨⟨r', log'⟩, hr, he⟩ := Option.map_eq_some'.mp h
        cases he
        rw [advquotedLogged_app _ post _ _ _ _ _ hr]
        rfl
      · rename_i hq
        rw [if_neg hq]
        obtain ⟨k, hk, he⟩ := Option.map_eq_some'.mp h
        cases he
        rw [drop_strcspn_app _ _ post _ _ hk]
        rfl

/-- The loop of `split` makes the same accesses when the working copy has more room and the
loop more fuel. -/
theorem splitLoopLogged_app (delim : Nat) (compress : Bool) (stack : Nat → List Nat)
    (post : List Nat) : ∀ (f : Nat)
    (h : Heap) (sline field : List Nat) (mf nf p : Nat) (o : SplitOut) (log : List Access),
    splitLoopLogged delim compress stack f h sline field mf nf p = some (o, log) →
    ∀ f', f ≤ f' →
    splitLoopLogged delim compress stack f' h (sline ++ post) field mf nf p =
      some (⟨o.ret, o.heap, o.sline ++ post, o.field, o.maxfield, o.nfield⟩, log) := by
  intro f
  induction f with
  | zero => intro h sline field mf nf p o log hr; exact Option.noConfusion hr
  | succ f ih =>
    intro h sline field mf nf p o log hr f' hf
    obtain ⟨f', rfl⟩ : ∃ g, f' = g + 1 := ⟨f' - 1, by omega⟩
    rw [splitLoopLogged] at hr ⊢
    split at hr
    · cases hr
      rfl
    · rename_i field1 h1 mf1 hg
      split at hr
      · cases hr
      · rename_i sline1 p2 sepp log1 hsc
        rw [scanFieldLogged_app _ _ _ _ post _ _ _ hsc]
        simp only
        split at hr
        · cases hr
        · rename_i sepc hld
          rw [load_app _ post _ _ hld]
          simp only
          split at hr
          · cases hr
          · rename_i sline2 hst
            rw [store_app _ post _ _ _ hst]
            simp only
            split at hr
            · cases hr
            · rename_i field2 hst2
              split at hr
              · rename_i hsep
                rw [if_pos hsep]
                obtain ⟨⟨o', log'⟩, hr', he⟩ := Option.map_eq_some'.mp hr
                cases he
                rw [ih _ _ _ _ _ _ _ _ hr' f' (by omega)]
                rfl
              · rename_i hsep
                rw [if_neg hsep]
                cases hr
                rfl

theorem takeWhile_line (t post : List Nat) (ht : NUL ∉ t) :
    (t ++ NUL :: post).takeWhile (· != NUL) = t := by
  induction t with
  | nil => simp
  | cons c cs ih =>
    have hc : c ≠ NUL := fun h => ht (by simp [h])
    have hcs : NUL ∉ cs := fun h => ht (by simp [h])
    simp [List.takeWhile_cons, hc, ih hcs]

theorem Access.within_of_below (n : Nat) (a : Access) (h : a.Below (n + 1)) : a.Within n := by
  cases a with
  | read off => exact Nat.lt_succ_iff.mp h
  | write off => exact Nat.lt_succ_iff.mp h
  | table idx cap start => exact ⟨h.1, Nat.lt_succ_iff.mp h.2⟩
  | adv i j => exact h

/-- On a working copy with just the room for the record and its `NUL`, the loop of `split`
returns with any allocator. -/
theorem splitLoopLogged_exact (h : Heap) (t field : List Nat) (mf : Nat) (delim : Nat)
    (compress : Bool) (stack : Nat → List Nat) (hd : delim ≠ NUL) (ht : NUL ∉ t)
    (hf : field.length = mf) (hm : 1 ≤ mf) :
    ∃ o log, splitLoopLogged delim compress stack (t.length + 2) h (t ++ [NUL]) field mf 0 0 =
      some (o, log) := by
  obtain ⟨o, ho, -⟩ := splitLoop_spec delim compress stack hd h.unlimited
    h.unlimited_unlimited []
    (t.length + 2) t [] field mf 0 [] ht (by omega) hf (by omega) hm (fun x => rfl)
  simp only [List.nil_append, List.length_nil] at ho
  obtain ⟨h', hh'⟩ := splitLoop_any_heap delim compress stack _ h _ _ _ _ _ _ ho
  have key : ∃ o2, splitLoop delim compress stack (t.length + 2) h (t ++ [NUL]) field mf 0 0 =
      some o2 := by
    rcases hh' with ⟨-, e⟩ | ⟨-, o', e, -⟩
    · exact ⟨_, e⟩
    · exact ⟨_, e⟩
  obtain ⟨o2, ho2⟩ := key
  have her :=
    splitLoopLogged_erase delim compress stack (t.length + 2) h (t ++ [NUL]) field mf 0 0
  rw [ho2] at her
  obtain ⟨⟨o3, log⟩, h3, -⟩ := Option.map_eq_some'.mp her
  exact ⟨o3, log, h3⟩

/-- Each field of a record text is a slice of the text: its start offset plus its length
stays within the length of the text. -/
theorem entriesWith_slices (delim : Nat) (compress : Bool) (stack : Nat → List Nat)
    (hd : delim ≠ NUL) (t : List Nat) (ht : NUL ∉ t) (hne : t ≠ []) :
    ∀ e ∈ entriesWith delim compress stack t, e.1 + e.2.length ≤ t.length := by
  have hs : (Session.holding t).Holds t := by
    refine ⟨?_, ?_⟩
    · simp [Session.Valid, Session.holding]
    · exact cstr_append t [] ht
  obtain ⟨s', -, p2, -, p4, -, p6, p7⟩ := split_spec ⟨[], 0⟩ rfl (Session.holding t) t hs hne
    delim hd compress stack
  obtain ⟨-, sline, field, -, -, q2, q3, -, -, -, q6, -⟩ := p7.unpack
  have hlen : sline.length = t.length + 1 := by rw [q6, p6]; rfl
  unfold Session.entries at p2
  rw [q2, q3] at p2
  simp only at p2
  intro e he
  obtain ⟨k, hk, hek⟩ := List.getElem_of_mem he
  have hl := fieldEntries_length _ _ _ _ p2
  have hg := fieldEntries_get _ _ _ _ p2 k (by omega)
  rw [List.getElem?_eq_getElem hk, hek] at hg
  unfold fieldAt at hg
  obtain ⟨off, -, hoff⟩ := Option.bind_eq_some.mp hg
  split at hoff
  · obtain ⟨text, htext, rfl⟩ := Option.map_eq_some'.mp hoff
    obtain ⟨post, hpost⟩ := cstr_decompose _ _ htext
    have := congrArg List.length hpost
    simp at this
    show off + text.length ≤ t.length
    omega
  · cases hoff

/-- The logged run of `split` on a session that holds the non-empty record `t`: it returns,
and every access of its log is within the record and its `NUL`. -/
theorem splitLogged_within (h : Heap) (s : Session) (t : List Nat) (delim : Nat)
    (compress : Bool) (stack : Nat → List Nat) (hs : s.Holds t) (hd : delim ≠ NUL) :
    ∃ (r : Int × Heap × Session) (log : List Access),
      splitLogged h s delim compress stack = some (r, log) ∧
        ∀ a ∈ log, a.Within t.length := by
  obtain ⟨line, sline, field, lpost, h1, h2, h3, h4, h5, h6, h7, h8, h9, -⟩ := hs.unpack
  have hcap : t.length + 1 ≤ sline.length := by
    rw [h7, ← h6, h4]; simp
  cases t with
  | nil =>
    refine ⟨(0, h, { s with nfield := 0 }), [], ?_, by intro a ha; cases ha⟩
    unfold splitLogged
    rw [h1, h2, h3]
    subst h4
    simp [load]
  | cons c cs =>
    have hc : c ≠ NUL := fun h' => h5 (by simp [h'])
    have hload : load line 0 = some c := by subst h4; simp [load]
    have hcpy : strcpy sline line =
        some ((c :: cs ++ [NUL]) ++ sline.drop ((c :: cs).length + 1)) := by
      unfold strcpy
      rw [h4, cstr_append _ _ h5]
      simp only
      rw [if_pos hcap]
      simp
    obtain ⟨o, log, he⟩ := splitLoopLogged_exact h (c :: cs) field s.maxfield delim compress
      stack hd h5 h8 h9
    have hbelow := splitLoopLogged_below _ _ _ _ _ _ _ _ _ _ _ _ he h8
    have happ := splitLoopLogged_app delim compress stack
      (sline.drop ((c :: cs).length + 1)) _ _ _ _
      _ _ _ _ _ he (((c :: cs ++ [NUL]) ++ sline.drop ((c :: cs).length + 1)).length + 1)
      (by simp)
    refine ⟨(o.ret, o.heap, ⟨s.line, some (o.sline ++ sline.drop ((c :: cs).length + 1)),
      s.maxline, some o.field, o.maxfield, o.nfield⟩),
      writes 0 ((line.takeWhile (· != NUL)).length + 1) ++ log, ?_, ?_⟩
    · unfold splitLogged
      rw [h1, h2, h3]
      simp only
      rw [hload]
      simp only [if_neg hc]
      rw [hcpy]
      simp only
      rw [happ]
    · intro a ha
      rcases List.mem_append.mp ha with ha | ha
      · rw [h4, takeWhile_line _ _ h5] at ha
        apply Access.within_of_below
        exact writes_below 0 _ _ (by omega) a ha
      · apply Access.within_of_below
        have := hbelow a ha
        simpa using this

/-- C19: for a session that holds the `NUL`-free record text `t` (so its blocks have room for
more than `t.length` bytes), any allocator and a delimiter other than `NUL`, `split` returns
and every access it and `advquoted` make is in bounds: each offset of the working copy that is
read or written is at most `t.length` (the text or its terminating `NUL`), the write index of
`advquoted` never exceeds its read index, each field start recorded in the table is at most
`t.length`, and each write to the table uses an index below `maxfield`.  When `split` does not
return `NOMEM`, the table entries read back as slices of the working copy: each start offset
plus the length of the field string is at most `t.length`.  This holds whatever bytes follow
`delim` in memory (`stack`). -/
theorem split_accesses_in_bounds (h : Heap) (s : Session) (t : List Nat) (delim : Nat)
    (compress : Bool) (stack : Nat → List Nat) (hs : s.Holds t) (hd : delim ≠ NUL) :
    t.length < s.maxline ∧
    ∃ (r : Int × Heap × Session) (log : List Access),
      splitLogged h s delim compress stack = some (r, log) ∧
      split h s delim compress stack = some r ∧
      (∀ a ∈ log, a.Within t.length) ∧
      (r.1 ≠ NOMEM → ∃ es : List (Nat × List Nat), r.2.2.entries = some es ∧
        (es.length : Int) = r.1 ∧ ∀ e ∈ es, e.1 + e.2.length ≤ t.length) := by
  obtain ⟨line, sline, field, lpost, h1, h2, h3, h4, h5, h6, h7, -⟩ := hs.unpack
  refine ⟨by rw [← h6, h4]; simp, ?_⟩
  obtain ⟨r, log, hlog, hwithin⟩ := splitLogged_within h s t delim compress stack hs hd
  have hsplit : split h s delim compress stack = some r := by
    rw [← splitLogged_erase, hlog]; rfl
  refine ⟨r, log, hlog, hsplit, hwithin, ?_⟩
  intro hret
  by_cases hne : t = []
  · subst hne
    rw [split_empty h s hs delim compress stack] at hsplit
    cases hsplit
    refine ⟨[], ?_, rfl, by intro e he; cases he⟩
    simp only [Session.entries, h2, h3]
    rfl
  · obtain ⟨s', e1, p2, -, p4, -, -, p7⟩ := split_spec h.unlimited h.unlimited_unlimited s t hs
      hne delim hd compress stack
    obtain ⟨h', hh'⟩ := split_any_heap h s delim compress stack _ _ _ e1
    rcases hh' with ⟨-, e2⟩ | ⟨-, s'', e2⟩
    · rw [e2] at hsplit
      cases hsplit
      refine ⟨_, p2, ?_, entriesWith_slices delim compress stack hd t h5 hne⟩
      obtain ⟨-, sl, fl, -, -, q2, q3, -⟩ := p7.unpack
      unfold Session.entries at p2
      rw [q2, q3] at p2
      simp only at p2
      rw [fieldEntries_length _ _ _ _ p2, p4]
    · rw [e2] at hsplit
      cases hsplit
      exact (hret rfl).elim

theorem split_accesses_in_bounds_witness :
    (Session.holding (bytes "a,\"b\"\"c\",,d")).Holds (bytes "a,\"b\"\"c\",,d") ∧
    (44 : Nat) ≠ NUL ∧
    ((bytes "a,\"b\"\"c\",,d").length < (Session.holding (bytes "a,\"b\"\"c\",,d")).maxline ∧
    ∃ (r : Int × Heap × Session) (log : List Access),
      splitLogged ⟨[], 0⟩ (Session.holding (bytes "a,\"b\"\"c\",,d")) 44 true
        (fun _ => [98]) = some (r, log) ∧
      split ⟨[], 0⟩ (Session.holding (bytes "a,\"b\"\"c\",,d")) 44 true (fun _ => [98]) =
        some r ∧
      (∀ a ∈ log, a.Within (bytes "a,\"b\"\"c\",,d").length) ∧
      (r.1 ≠ NOMEM → ∃ es : List (Nat × List Nat), r.2.2.entries = some es ∧
        (es.length : Int) = r.1 ∧
        ∀ e ∈ es, e.1 + e.2.length ≤ (bytes "a,\"b\"\"c\",,d").length)) :=
  ⟨by decide, by decide,
    split_accesses_in_bounds ⟨[], 0⟩ (Session.holding (bytes "a,\"b\"\"c\",,d"))
      (bytes "a,\"b\"\"c\",,d") 44 true (fun _ => [98]) (by decide) (by decide)⟩

/-- The accesses of `split` on the record `a,"b"` (offsets 0 to 5 with the `NUL`) in blocks of
8 cells: `strcpy` writes cells 0 to 5; the first field reads cells 0 and 1 and ends at cell 1;
`advquoted` runs from cell 3, writes cells 3 and 4 and stops at cell 5. -/
theorem splitLogged_example :
    (splitLogged ⟨[], 0⟩ ⟨some (bytes "a,\"b\"" ++ [0, 7, 7]), some [9, 9, 9, 9, 9, 9, 9, 9], 8,
        some [0], 1, 0⟩ 44 false (fun _ => [])).map Prod.snd =
      some [Access.write 0, Access.write 1, Access.write 2, Access.write 3, Access.write 4,
        Access.write 5, Access.read 0, Access.read 0, Access.read 1, Access.read 1,
        Access.write 1, Access.table 0 1 0, Access.read 2, Access.read 3, Access.adv 0 0,
        Access.write 3, Access.read 4, Access.read 5, Access.read 5, Access.adv 1 2,
        Access.adv 1 2, Access.write 4, Access.read 5, Access.write 5, Access.table 1 2 3] := by
  rfl

/-! ## Compress on against compress off -/

theorem nextField_compress_delim (delim : Nat) (t : List Nat) :
    nextField delim true (delim :: t) = nextField delim true t := by
  simp [nextField, skipped, List.dropWhile_cons]

theorem nextField_off_delim (delim : Nat) (t : List Nat) (hdq : delim ≠ QUOTE) :
    nextField delim false (delim :: t) = ([], delim :: t) := by
  simp [nextField, skipped, hdq, List.takeWhile_cons, List.dropWhile_cons]

theorem nextField_compress_other (delim : Nat) (t : List Nat)
    (ht : t.head? ≠ some delim) : nextField delim true t = nextField delim false t := by
  cases t with
  | nil => simp [nextField, skipped]
  | cons c cs =>
    have hc : c ≠ delim := fun h => ht (by simp [h])
    simp [nextField, skipped, List.dropWhile_cons, hc]

theorem fieldsFrom_compress_delim (delim : Nat) (f : Nat) (t : List Nat) :
    fieldsFrom delim true f (delim :: t) = fieldsFrom delim true f t := by
  cases f with
  | zero => rfl
  | succ f => rw [fieldsFrom, fieldsFrom, nextField_compress_delim]

/-- With enough fuel, the fields with compress on are obtained from the fields with compress
off by removing empty fields only. -/
theorem fieldsFrom_compress_sublist (delim : Nat) (hdq : delim ≠ QUOTE) : ∀ (n : Nat)
    (t : List Nat) (f g : Nat), t.length ≤ n → t.length < f → t.length < g →
    (fieldsFrom delim true f t).Sublist (fieldsFrom delim false g t) ∧
      (fieldsFrom delim true f t).filter (· ≠ []) =
        (fieldsFrom delim false g t).filter (· ≠ []) := by
  intro n
  induction n with
  | zero =>
    intro t f g hn hf hg
    have ht : t = [] := List.length_eq_zero.mp (by omega)
    subst ht
    obtain ⟨f, rfl⟩ : ∃ f', f = f' + 1 := ⟨f - 1, by omega⟩
    obtain ⟨g, rfl⟩ : ∃ g', g = g' + 1 := ⟨g - 1, by omega⟩
    rw [fieldsFrom_succ_nil _ _ _ _ (by rw [nextField_nil]),
      fieldsFrom_succ_nil _ _ _ _ (by rw [nextField_nil]), nextField_nil, nextField_nil]
    exact ⟨List.Sublist.refl _, rfl⟩
  | succ n ih =>
    intro t f g hn hf hg
    obtain ⟨f, rfl⟩ : ∃ f', f = f' + 1 := ⟨f - 1, by omega⟩
    obtain ⟨g, rfl⟩ : ∃ g', g = g' + 1 := ⟨g - 1, by omega⟩
    by_cases hh : t.head? = some delim
    · obtain ⟨t', rfl⟩ : ∃ t', t = delim :: t' := by
        cases t with
        | nil => simp at hh
        | cons c cs => simp at hh; exact ⟨cs, by rw [hh]⟩
      simp only [List.length_cons] at hn hf hg
      rw [fieldsFrom_compress_delim,
        fieldsFrom_succ_cons delim false g (delim :: t') delim t'
          (by rw [nextField_off_delim _ _ hdq]),
        nextField_off_delim _ _ hdq]
      obtain ⟨a, b⟩ := ih t' (f + 1) g (by omega) (by omega) (by omega)
      refine ⟨List.Sublist.cons _ a, ?_⟩
      rw [b]
      simp
    · have he := nextField_compress_other delim t hh
      rcases nextField_rest delim false t with hr | ⟨rest, hr, hlen⟩
      · rw [fieldsFrom_succ_nil _ _ _ _ (by rw [he]; exact hr),
          fieldsFrom_succ_nil _ _ _ _ hr, he]
        exact ⟨List.Sublist.refl _, rfl⟩
      · rw [fieldsFrom_succ_cons _ _ _ _ _ _ (by rw [he]; exact hr),
          fieldsFrom_succ_cons _ _ _ _ _ _ hr, he]
        obtain ⟨a, b⟩ := ih rest f g (by omega) (by omega) (by omega)
        refine ⟨List.Sublist.cons₂ _ a, ?_⟩
        simp only [List.filter_cons]
        split
        · rw [b]
        · exact b

theorem fieldsOf_compress_sublist (delim : Nat) (hdq : delim ≠ QUOTE) (t : List Nat) :
    (fieldsOf delim true t).Sublist (fieldsOf delim false t) ∧
      (fieldsOf delim true t).filter (· ≠ []) = (fieldsOf delim false t).filter (· ≠ []) :=
  fieldsFrom_compress_sublist delim hdq t.length t _ _ le_rfl (by omega) (by omega)

/-- Compress on against compress off when `strcspn` stops at the delimiter only (`Clean`: in
neither call does a byte that follows `delim` in memory before the first `NUL` occur in the
record).  For a record text `t` held in `line` (so `NUL`-free; allocator never refusing) and a
delimiter other than `NUL` and the quote character, `split` with compress on and `split` with
compress off both return, and the fields read back with compress on are an order-preserving
sublist of the fields read back with compress off.  The two lists have the same non-empty
fields in the same order, so the fields compress removes are all empty; and the field count
with compress on is at most the field count with compress off. -/
theorem split_compress_sublist (h : Heap) (hh : h.Unlimited) (s : Session) (t : List Nat)
    (delim : Nat) (hs : s.Holds t) (hd : delim ≠ NUL) (hdq : delim ≠ QUOTE)
    (ston stoff : Nat → List Nat) (hon : Clean delim ston t) (hoff : Clean delim stoff t) :
    ∃ (son soff : Session) (fon foff : List (List Nat)),
      split h s delim true ston = some ((fon.length : Int), h, son) ∧
      son.fields = some fon ∧
      split h s delim false stoff = some ((foff.length : Int), h, soff) ∧
      soff.fields = some foff ∧
      fon.Sublist foff ∧ fon.filter (· ≠ []) = foff.filter (· ≠ []) ∧
      csvnfield son ≤ csvnfield soff := by
  by_cases hne : t = []
  · subst hne
    refine ⟨{ s with nfield := 0 }, { s with nfield := 0 }, [], [], ?_, ?_, ?_, ?_,
      List.Sublist.refl _, rfl, le_rfl⟩
    · rw [split_empty h s hs delim true ston]; rfl
    · exact Session.fields_of_nfield_zero _ rfl
    · rw [split_empty h s hs delim false stoff]; rfl
    · exact Session.fields_of_nfield_zero _ rfl
  · obtain ⟨son, a1, -, a3, a4, -⟩ := split_spec_clean h hh s t hs hne delim hd true ston hon
    obtain ⟨soff, b1, -, b3, b4, -⟩ :=
      split_spec_clean h hh s t hs hne delim hd false stoff hoff
    obtain ⟨c1, c2⟩ := fieldsOf_compress_sublist delim hdq t
    refine ⟨son, soff, _, _, a1, a3, b1, b3, c1, c2, ?_⟩
    unfold csvnfield
    rw [a4, b4]
    exact_mod_cast c1.length_le

theorem split_compress_sublist_witness :
    (Session.holding (bytes ",a,,\"b,,c\",")).Holds (bytes ",a,,\"b,,c\",") ∧
    (44 : Nat) ≠ NUL ∧ (44 : Nat) ≠ QUOTE ∧
    ∃ (son soff : Session) (fon foff : List (List Nat)),
      split ⟨[], 0⟩ (Session.holding (bytes ",a,,\"b,,c\",")) 44 true (fun _ => []) =
        some ((fon.length : Int), ⟨[], 0⟩, son) ∧ son.fields = some fon ∧
      split ⟨[], 0⟩ (Session.holding (bytes ",a,,\"b,,c\",")) 44 false (fun _ => []) =
        some ((foff.length : Int), ⟨[], 0⟩, soff) ∧ soff.fields = some foff ∧
      fon.Sublist foff ∧ fon.filter (· ≠ []) = foff.filter (· ≠ []) ∧
      csvnfield son ≤ csvnfield soff :=
  ⟨by decide, by decide, by decide,
    split_compress_sublist ⟨[], 0⟩ (by decide) (Session.holding (bytes ",a,,\"b,,c\","))
      (bytes ",a,,\"b,,c\",") 44 (by decide) (by decide) (by decide) (fun _ => [])
      (fun _ => []) (clean_nil 44 _) (clean_nil 44 _)⟩

/-- C21 (the code at the failing input): each call of `split` cuts its fields with the reject
string found at `&delim`, so two splits of one text are related only through the bytes that
follow `delim` in memory in each call.  For the text `aUb` and the delimiter `,`: the call
with compress on in which the byte `U` (85) follows `delim` yields the single field `a`; the
call with compress off in which `NUL` follows `delim` yields the single field `aUb`; and `a`
is not among the fields of the second list, so the first list is not a sublist of it. -/
theorem split_compress_not_sublist :
    (split ⟨[], 0⟩ (Session.holding (bytes "aUb")) 44 true (fun _ => [85])).bind
        (fun r => r.2.2.fields) = some [bytes "a"] ∧
    (split ⟨[], 0⟩ (Session.holding (bytes "aUb")) 44 false (fun _ => [])).bind
        (fun r => r.2.2.fields) = some [bytes "aUb"] ∧
    ¬ List.Sublist [bytes "a"] [bytes "aUb"] := by
  decide

/-- The record `,a,,"b,,c",` split both ways (here `NUL` follows `delim` in memory): compress
off gives five fields, compress on drops the empty fields before `a` and before the quoted
field and keeps the last one. -/
theorem split_compress_sublist_example :
    ((split ⟨[], 0⟩ (Session.holding (bytes ",a,,\"b,,c\",")) 44 false (fun _ => [])).bind
        (fun r => r.2.2.fields) =
      some [[], bytes "a", [], bytes "b,,c", []]) ∧
    ((split ⟨[], 0⟩ (Session.holding (bytes ",a,,\"b,,c\",")) 44 true (fun _ => [])).bind
        (fun r => r.2.2.fields) =
      some [bytes "a", bytes "b,,c", []]) := by
  decide

/-! ## Streams of lines -/

/-- One read of a line `l`, shorter than `2 ^ 30` bytes, followed by `tail`, where `tail`
starts with a terminator or is empty with `l` non-empty: the call returns `line`, which holds
`l`, and the fields are those the loop of `split` makes of `l` (none for the empty line). -/
theorem csvgetline_line (h : Heap) (hh : h.Unlimited) (s : Session) (hv : s.Valid)
    (l tail : List Nat) (hl : ∀ c ∈ l, c ≠ CR ∧ c ≠ LF ∧ c ≠ NUL)
    (htail : ∀ c, tail.head? = some c → c = CR ∨ c = LF) (hne : tail ≠ [] ∨ l ≠ [])
    (hlen : l.length < 2 ^ 30) (delim : Nat) (compress : Bool) (stack : Nat → List Nat)
    (hd : delim ≠ NUL) :
    ∃ o : Outcome, csvgetline h s (l ++ tail) delim compress stack = some o ∧
      o.heap = h ∧ o.fin = afterTerminator tail ∧ o.session.Valid ∧
      o.seen = (Ptr.line 0, some l,
        (((if l = [] then [] else fieldsWith delim compress stack l).length : Nat) : Int),
        some (if l = [] then [] else fieldsWith delim compress stack l)) := by
  obtain ⟨s', p1, p2, p3, p4, -⟩ := csvgetline_spec h hh s hv l tail
    (fun c hc => ⟨(hl c hc).1, (hl c hc).2.1⟩) htail hlen delim compress stack (Or.inl hd)
  have hn : NUL ∉ l := fun hm => (hl NUL hm).2.2 rfl
  rw [takeWhile_ne_nul _ hn] at p2 p3 p4
  rw [if_neg (fun hc => by rcases hne with h1 | h1; exact h1 hc.1; exact h1 hc.2)] at p1
  refine ⟨_, p1, rfl, rfl, p2.1, ?_⟩
  unfold Outcome.seen Outcome.text
  simp only
  rw [Session.text_line_of_holds s' l p2]
  by_cases hl0 : l = []
  · rw [if_pos hl0, Session.fields_of_nfield_zero _ (p3 hl0)]
    simp [csvnfield, p3 hl0]
  · rw [if_neg hl0, (p4 hl0).2.1]
    simp [csvnfield, (p4 hl0).2.2]

/-- One read at the end of the stream: `NULL`, no string, no field. -/
theorem csvgetline_eof_seen (h : Heap) (hh : h.Unlimited) (s : Session) (hv : s.Valid)
    (delim : Nat) (compress : Bool) (stack : Nat → List Nat) :
    ∃ o : Outcome, csvgetline h s [] delim compress stack = some o ∧ o.heap = h ∧
      o.fin = [] ∧ o.session.Valid ∧ o.seen = (Ptr.null, none, 0, some []) := by
  obtain ⟨s', p1, p2, p3⟩ := csvgetline_eof h hh s hv delim compress stack
  refine ⟨_, p1, rfl, rfl, p2.1, ?_⟩
  unfold Outcome.seen Outcome.text
  simp only
  rw [Session.fields_of_nfield_zero _ p3]
  simp [csvnfield, p3, Session.text]

theorem afterTerminator_lf (rest : List Nat) : afterTerminator (LF :: rest) = rest := by
  simp [afterTerminator, endofline, LF, CR]

/-- Successive reads of a stream made of the lines `ls`, each followed by a newline, and then
of the text `last` without a newline, all shorter than `2 ^ 30` bytes: one call per line
returns the line, one more call returns `last` when it is not empty, and the call after that
reports the end of the stream.  The call number `k` splits its line with the bytes
`stackAt k` after `delim` in memory. -/
theorem calls_lines (h : Heap) (hh : h.Unlimited) (delim : Nat) (hd : delim ≠ NUL)
    (compress : Bool) (last : List Nat) (hlast : ∀ c ∈ last, c ≠ CR ∧ c ≠ LF ∧ c ≠ NUL)
    (hlastlen : last.length < 2 ^ 30) :
    ∀ (ls : List (List Nat)) (stackAt : Nat → Nat → List Nat) (s : Session), s.Valid →
    (∀ l ∈ ls, ∀ c ∈ l, c ≠ CR ∧ c ≠ LF ∧ c ≠ NUL) → (∀ l ∈ ls, l.length < 2 ^ 30) →
    ∃ cs, calls delim compress (ls.length + (if last = [] then 1 else 2)) stackAt h s
        (ls.flatMap (· ++ [LF]) ++ last) = some cs ∧
      cs.length = (ls ++ (if last = [] then [] else [last])).length + 1 ∧
      (∀ (k : Nat) (l : List Nat),
        (ls ++ (if last = [] then [] else [last]))[k]? = some l →
        ∃ c, cs[k]? = some c ∧ c.2.seen = (Ptr.line 0, some l,
          (((if l = [] then [] else fieldsWith delim compress (stackAt k) l).length : Nat)
            : Int),
          some (if l = [] then [] else fieldsWith delim compress (stackAt k) l))) ∧
      ∃ c, cs[(ls ++ (if last = [] then [] else [last])).length]? = some c ∧
        c.2.seen = (Ptr.null, none, 0, some []) := by
  intro ls
  induction ls with
  | nil =>
    intro stackAt s hv _ _
    by_cases h0 : last = []
    · subst h0
      obtain ⟨o, o1, o2, o3, o4, o5⟩ :=
        csvgetline_eof_seen h hh s hv delim compress (stackAt 0)
      refine ⟨[([], o)], ?_, by simp, ?_, ⟨([], o), by simp, o5⟩⟩
      · simp only [List.length_nil, if_true, List.flatMap_nil, List.append_nil, Nat.zero_add]
        rw [calls_succ _ _ _ _ _ _ _ _ o1]
        rfl
      · intro k l hk
        simp at hk
    · obtain ⟨o, o1, o2, o3, o4, o5⟩ := csvgetline_line h hh s hv last [] hlast (by simp)
        (Or.inr h0) hlastlen delim compress (stackAt 0) hd
      obtain ⟨e, e1, e2, e3, e4, e5⟩ :=
        csvgetline_eof_seen h hh o.session o4 delim compress (stackAt 1)
      have o3' : o.fin = [] := o3
      refine ⟨[(last, o), ([], e)], ?_, by simp [h0], ?_, ⟨([], e), by simp [h0], e5⟩⟩
      · simp only [List.length_nil, if_neg h0, List.flatMap_nil, List.nil_append, Nat.zero_add]
        rw [List.append_nil] at o1
        rw [calls_succ delim compress 1 stackAt h s last o o1, o2, o3',
          calls_succ delim compress 0 (fun k => stackAt (k + 1)) h o.session [] e e1]
        rfl
      · intro k l hk
        simp only [if_neg h0, List.nil_append] at hk
        cases k with
        | zero =>
          have : last = l := by simpa using hk
          subst this
          exact ⟨(last, o), by simp, o5⟩
        | succ k => simp at hk
  | cons l ls ih =>
    intro stackAt s hv hls hlens
    have hl := hls l (by simp)
    have hstream : (l :: ls).flatMap (· ++ [LF]) ++ last =
        l ++ (LF :: (ls.flatMap (· ++ [LF]) ++ last)) := by
      simp [List.flatMap_cons]
    obtain ⟨o, o1, o2, o3, o4, o5⟩ := csvgetline_line h hh s hv l
      (LF :: (ls.flatMap (· ++ [LF]) ++ last)) hl (by simp) (Or.inl (by simp))
      (hlens l (by simp)) delim compress (stackAt 0) hd
    rw [afterTerminator_lf] at o3
    obtain ⟨cs, c1, c2, c3, c4⟩ := ih (fun k => stackAt (k + 1)) o.session o4
      (fun l' hl' => hls l' (by simp [hl'])) (fun l' hl' => hlens l' (by simp [hl']))
    refine ⟨((l :: ls).flatMap (· ++ [LF]) ++ last, o) :: cs, ?_, ?_, ?_, ?_⟩
    · rw [hstream]
      have hcount : (l :: ls).length + (if last = [] then 1 else 2) =
          (ls.length + (if last = [] then 1 else 2)) + 1 := by
        simp only [List.length_cons]; omega
      rw [hcount, calls_succ _ _ _ _ _ _ _ _ o1, o2, o3, c1]
      rfl
    · simp only [List.length_cons, List.cons_append, c2]
    · intro k l' hk
      cases k with
      | zero =>
        have : l = l' := by simpa using hk
        subst this
        exact ⟨((l :: ls).flatMap (· ++ [LF]) ++ last, o), by simp, o5⟩
      | succ k =>
        simp only [List.cons_append, List.getElem?_cons_succ] at hk
        obtain ⟨c, e1, e2⟩ := c3 k l' hk
        exact ⟨c, by simpa using e1, e2⟩
    · obtain ⟨c, e1, e2⟩ := c4
      exact ⟨c, by simpa using e1, e2⟩

/-- C22 (as amended): streaming end to end.  For lines `ls`, each free of `'\r'`, `'\n'` and
`NUL` and shorter than `2 ^ 30` bytes (allocator never refusing, delimiter other than `NUL`,
any valid starting session, any bytes `stackAt k` after `delim` in memory during the call
number `k`), successive calls of `csvgetline` on the stream made of each line followed by
`'\n'` return the lines in order, one per call: the call number `k` returns `line`, the string
there is the line number `k`, and the fields are those the loop of `split` makes of the line
(an empty line is returned with zero fields); the call after the last line returns `NULL` with
`csvnfield()` equal to 0.  When the last line is not empty and the final `'\n'` is left out,
the calls report the same sequence. -/
theorem csvgetline_streams (h : Heap) (hh : h.Unlimited) (s : Session) (hv : s.Valid)
    (delim : Nat) (hd : delim ≠ NUL) (compress : Bool) (stackAt : Nat → Nat → List Nat)
    (ls : List (List Nat)) (hls : ∀ l ∈ ls, ∀ c ∈ l, c ≠ CR ∧ c ≠ LF ∧ c ≠ NUL)
    (hlen : ∀ l ∈ ls, l.length < 2 ^ 30) :
    (∃ cs, calls delim compress (ls.length + 1) stackAt h s (ls.flatMap (· ++ [LF])) =
        some cs ∧
      cs.length = ls.length + 1 ∧
      (∀ (k : Nat) (l : List Nat), ls[k]? = some l →
        ∃ c, cs[k]? = some c ∧ c.2.seen = (Ptr.line 0, some l,
          (((if l = [] then [] else fieldsWith delim compress (stackAt k) l).length : Nat)
            : Int),
          some (if l = [] then [] else fieldsWith delim compress (stackAt k) l))) ∧
      ∃ c, cs[ls.length]? = some c ∧ c.2.seen = (Ptr.null, none, 0, some [])) ∧
    (∀ (front : List (List Nat)) (ln : List Nat), ls = front ++ [ln] → ln ≠ [] →
      ∃ cs, calls delim compress (ls.length + 1) stackAt h s
          (front.flatMap (· ++ [LF]) ++ ln) = some cs ∧
        cs.length = ls.length + 1 ∧
        (∀ (k : Nat) (l : List Nat), ls[k]? = some l →
          ∃ c, cs[k]? = some c ∧ c.2.seen = (Ptr.line 0, some l,
            (((if l = [] then [] else fieldsWith delim compress (stackAt k) l).length : Nat)
              : Int),
            some (if l = [] then [] else fieldsWith delim compress (stackAt k) l))) ∧
        ∃ c, cs[ls.length]? = some c ∧ c.2.seen = (Ptr.null, none, 0, some [])) := by
  constructor
  · obtain ⟨cs, c1, c2, c3, c4⟩ := calls_lines h hh delim hd compress [] (by simp) (by simp)
      ls stackAt s hv hls hlen
    simp only [if_true, List.append_nil] at c1 c2 c3 c4
    exact ⟨cs, c1, c2, c3, c4⟩
  · intro front ln hfront hln
    subst hfront
    obtain ⟨cs, c1, c2, c3, c4⟩ := calls_lines h hh delim hd compress ln
      (hls ln (by simp)) (hlen ln (by simp)) front stackAt s hv
      (fun l hl => hls l (by simp [hl])) (fun l hl => hlen l (by simp [hl]))
    simp only [if_neg hln] at c1 c2 c3 c4
    refine ⟨cs, ?_, c2, c3, c4⟩
    rw [List.length_append, List.length_singleton]
    exact c1

theorem csvgetline_streams_witness :
    Session.init.Valid ∧ (44 : Nat) ≠ NUL ∧
    (∀ l ∈ [bytes "a,b", [], bytes "c"], ∀ c ∈ l, c ≠ CR ∧ c ≠ LF ∧ c ≠ NUL) ∧
    (∀ l ∈ [bytes "a,b", [], bytes "c"], l.length < 2 ^ 30) ∧
    ((∃ cs, calls 44 false ([bytes "a,b", [], bytes "c"].length + 1) (fun _ _ => [85])
        ⟨[], 0⟩ Session.init ([bytes "a,b", [], bytes "c"].flatMap (· ++ [LF])) = some cs ∧
      cs.length = [bytes "a,b", [], bytes "c"].length + 1 ∧
      (∀ (k : Nat) (l : List Nat), [bytes "a,b", [], bytes "c"][k]? = some l →
        ∃ c, cs[k]? = some c ∧ c.2.seen = (Ptr.line 0, some l,
          (((if l = [] then [] else
            fieldsWith 44 false ((fun _ _ => [85]) k) l).length : Nat) : Int),
          some (if l = [] then [] else fieldsWith 44 false ((fun _ _ => [85]) k) l))) ∧
      ∃ c, cs[[bytes "a,b", [], bytes "c"].length]? = some c ∧
        c.2.seen = (Ptr.null, none, 0, some [])) ∧
    (∀ (front : List (List Nat)) (ln : List Nat),
      [bytes "a,b", [], bytes "c"] = front ++ [ln] → ln ≠ [] →
      ∃ cs, calls 44 false ([bytes "a,b", [], bytes "c"].length + 1) (fun _ _ => [85])
          ⟨[], 0⟩ Session.init (front.flatMap (· ++ [LF]) ++ ln) = some cs ∧
        cs.length = [bytes "a,b", [], bytes "c"].length + 1 ∧
        (∀ (k : Nat) (l : List Nat), [bytes "a,b", [], bytes "c"][k]? = some l →
          ∃ c, cs[k]? = some c ∧ c.2.seen = (Ptr.line 0, some l,
            (((if l = [] then [] else
              fieldsWith 44 false ((fun _ _ => [85]) k) l).length : Nat) : Int),
            some (if l = [] then [] else fieldsWith 44 false ((fun _ _ => [85]) k) l))) ∧
        ∃ c, cs[[bytes "a,b", [], bytes "c"].length]? = some c ∧
          c.2.seen = (Ptr.null, none, 0, some []))) :=
  ⟨by decide, by decide, by decide, by decide,
    csvgetline_streams ⟨[], 0⟩ (by decide) Session.init (by decide) 44 (by decide) false
      (fun _ _ => [85]) [bytes "a,b", [], bytes "c"] (by decide) (by decide)⟩

/-- C22 (counterexample): the line made of `2 ^ 30` bytes `a` is free of `'\r'`, `'\n'` and
`NUL`, yet of two successive calls of `csvgetline` on the stream made of that line and `'\n'`
(fresh session, allocator never refusing) the first returns `NULL` with the session reset, not
the line: the `int` capacity `maxline` cannot be doubled past `2 ^ 30`. -/
theorem csvgetline_streams_long_line :
    (∀ c ∈ List.replicate (2 ^ 30) 97, c ≠ CR ∧ c ≠ LF ∧ c ≠ NUL) ∧
    ∃ cs, calls 44 false 2 (fun _ _ => []) ⟨[], 0⟩ Session.init
        (List.replicate (2 ^ 30) 97 ++ [LF]) = some cs ∧
      ∃ c, cs[0]? = some c ∧ c.2.ret = Ptr.null ∧ c.2.session = Session.init := by
  refine ⟨fun c hc => by rw [List.eq_of_mem_replicate hc]; decide, ?_⟩
  obtain ⟨fin', e⟩ := csvgetline_replicate (2 ^ 30) (le_refl _) [LF]
    (fun c hc => Or.inr (Option.some.inj hc).symm) 44 false (fun _ => []) (by decide)
  obtain ⟨o2, e2⟩ := csvgetline_returns ⟨[], 0⟩ (by decide) Session.init (by decide) fin' 44
    false (fun _ => []) (by decide)
  refine ⟨[(List.replicate (2 ^ 30) 97 ++ [LF], ⟨Ptr.null, Session.init, fin', ⟨[], 0⟩⟩),
    (fin', o2)], ?_, _, rfl, rfl, rfl⟩
  rw [calls_succ 44 false 1 (fun _ _ => []) _ _ _ _ e]
  simp only []
  rw [calls_succ 44 false 0 (fun _ _ => []) _ _ _ _ e2]
  rfl

/-- Four reads of the stream `a,b`, newline, newline, `c`, with and without the final newline
(here `NUL` follows `delim` in memory): the lines `a,b` (two fields), the empty line (no field)
and `c` (one field), then `NULL`. -/
theorem csvgetline_streams_example :
    ((calls 44 false 4 (fun _ _ => []) ⟨[], 0⟩ Session.init (bytes "a,b\n\nc\n")).map
        (fun cs => cs.map (fun c => c.2.seen)) =
      some [(Ptr.line 0, some (bytes "a,b"), 2, some [bytes "a", bytes "b"]),
        (Ptr.line 0, some [], 0, some []),
        (Ptr.line 0, some (bytes "c"), 1, some [bytes "c"]),
        (Ptr.null, none, 0, some [])]) ∧
    ((calls 44 false 4 (fun _ _ => []) ⟨[], 0⟩ Session.init (bytes "a,b\n\nc")).map
        (fun cs => cs.map (fun c => c.2.seen)) =
      some [(Ptr.line 0, some (bytes "a,b"), 2, some [bytes "a", bytes "b"]),
        (Ptr.line 0, some [], 0, some []),
        (Ptr.line 0, some (bytes "c"), 1, some [bytes "c"]),
        (Ptr.null, none, 0, some [])]) :=
  ⟨rfl, rfl⟩

end Csv
